import Mathlib

/-!
# rdfind: duplicate-detection pipeline, report formatter and file operations

A shallow embedding of `Rdutil.cc` (the passes over the file list `m_list`, the ranking
comparators, `apply_on_range`, `cleanup`, the totals, the size-unit helper
`littlehelper::calcrange`, the applier `applyactiononfile` and the actions passed to it,
`fillwithbytes`) and of `Fileinfo.cc` (`fillwithbytes`, `simplifyPath`, `makeAbsolute`,
`transactional_operation`, `makesymlink`, `makehardlink`, `makeclone`) together with theorems
about them.

Conventions of the embedding.

* The member `m_list` (a `std::vector<Fileinfo>`) is a `List`; a member function that mutates it
  takes the list and returns the new list (plus its return value).
* The build with assertions is embedded (`NDEBUG` not defined, as `hasEqualBuffers` requires):
  a function that can abort on a failed `assert`, or that can fail to terminate, returns an
  `Option`, and `none` stands for "does not return normally".
* `std::sort` is a parameter: any function meeting the contract `IsStdSort` (the result is a
  permutation of the input and is sorted under the comparator). Nothing proved below depends on
  how the implementation orders equivalent elements.
* Signed 64 bit quantities (`filesizetype`, identities) are `Int`; device and inode numbers are
  `Nat`. Where the code adds or subtracts sizes (the totals), the result is reduced to the
  64 bit range by `wrap64`.
* A `std::string` that holds a path is a `List Char`. The file system is a map from paths to
  nodes inside a `World`, which also holds the working directory, the lines written to the
  output streams and a stream of injected failures: a system call that fails leaves the file
  system as it was.
-/

namespace Rdfind

/-! ## Data model -/

/-- The enumeration `Fileinfo::duptype`. -/
inductive duptype where
  | DUPTYPE_UNKNOWN
  | DUPTYPE_FIRST_OCCURRENCE
  | DUPTYPE_WITHIN_SAME_TREE
  | DUPTYPE_OUTSIDE_TREE
deriving DecidableEq, Repr

/-- Modelled from the spec: the class declaration of `Fileinfo` (`Fileinfo.hh`) is not among the
sources, so the record follows the accessors used in `Rdutil.cc` and section 3 of the
specification. Each field is named after its accessor. The sample buffer `m_somebytes` is a
`std::array<char, SomeByteSize>`: a byte sequence of fixed capacity `cap`, the value of
`SomeByteSize` being a parameter. -/
structure Fileinfo (cap : Nat) where
  /-- The path, `name()`. -/
  name : String
  /-- The byte count `size()`, a signed `filesizetype`. -/
  size : Int
  /-- The device number `device()`. -/
  device : Nat
  /-- The inode number `inode()`. -/
  inode : Nat
  /-- The flag `deleteflag()`. -/
  deleteflag : Bool
  /-- The classification `getduptype()`. -/
  getduptype : duptype
  /-- The index of the command line argument the file was found under, `get_cmdline_index()`. -/
  get_cmdline_index : Int
  /-- The directory depth `depth()`. -/
  depth : Int
  /-- The sequence number `getidentity()`. -/
  getidentity : Int
  /-- The sample buffer `m_somebytes`, read through `getbyteptr()`; `getbuffersize()` is `cap`. -/
  somebytes : { bytes : List Nat // bytes.length = cap }
deriving DecidableEq

variable {cap : Nat}

/-- The mutator `Fileinfo::setdeleteflag`. -/
def Fileinfo.setdeleteflag (f : Fileinfo cap) (flag : Bool) : Fileinfo cap :=
  { f with deleteflag := flag }

/-- The mutator `Fileinfo::setidentity`. -/
def Fileinfo.setidentity (f : Fileinfo cap) (id : Int) : Fileinfo cap :=
  { f with getidentity := id }

/-- The mutator `Fileinfo::setduptype`. -/
def Fileinfo.setduptype (f : Fileinfo cap) (t : duptype) : Fileinfo cap :=
  { f with getduptype := t }

/-- The accessor `Fileinfo::getbyteptr`: the bytes of the sample buffer. -/
def Fileinfo.getbyteptr (f : Fileinfo cap) : List Nat := f.somebytes.val

/-- The accessor `Fileinfo::getbuffersize`: the capacity of the sample buffer. -/
def Fileinfo.getbuffersize (_f : Fileinfo cap) : Nat := cap

/-! ## Standard library primitives -/

/-- The C function `memcmp(a, b, n)`: compares the first `n` bytes as unsigned values and returns
a negative, zero or positive number. Both buffers hold at least `n` bytes at every call site, so
the clauses for an exhausted buffer are never reached. -/
def memcmp : List Nat → List Nat → Nat → Int
  | _, _, 0 => 0
  | [], _, _ + 1 => 0
  | _ :: _, [], _ + 1 => 0
  | x :: xs, y :: ys, n + 1 =>
      if x < y then -1 else if y < x then 1 else memcmp xs ys n

/-- The algorithm `std::is_sorted(first, last, cmp)`: no element is smaller than its
predecessor. -/
def is_sorted {α : Type} (cmp : α → α → Bool) : List α → Bool
  | [] => true
  | [_] => true
  | a :: b :: rest => !cmp b a && is_sorted cmp (b :: rest)

/-- The requirements of the standard on a comparator (`Compare`): a strict weak order. -/
structure StrictWeakOrder {α : Type} (cmp : α → α → Bool) : Prop where
  /-- No element is smaller than itself. -/
  irrefl : ∀ a, cmp a a = false
  /-- The order is transitive. -/
  trans : ∀ a b c, cmp a b = true → cmp b c = true → cmp a c = true
  /-- Incomparability is transitive. -/
  incomp_trans : ∀ a b c, cmp a b = false → cmp b a = false → cmp b c = false →
    cmp c b = false → cmp a c = false ∧ cmp c a = false

/-- The type of `std::sort` seen as a function from comparator and range to the sorted range. -/
abbrev SortFn (α : Type) := (α → α → Bool) → List α → List α

/-- The contract of `std::sort`: whenever the comparator is a strict weak order, the result is a
rearrangement of the input and it is sorted. The order of equivalent elements is left open, and
nothing is promised for other comparators. -/
structure IsStdSort {α : Type} (sort : SortFn α) : Prop where
  /-- The result is a permutation of the input. -/
  perm : ∀ cmp l, StrictWeakOrder cmp → (sort cmp l).Perm l
  /-- The result is sorted. -/
  sorted : ∀ cmp l, StrictWeakOrder cmp → is_sorted cmp (sort cmp l) = true

/-- Insertion of `x` before the first element that is not smaller than `x`. -/
def sorted_insert {α : Type} (cmp : α → α → Bool) (x : α) : List α → List α
  | [] => [x]
  | y :: ys => if cmp y x then y :: sorted_insert cmp x ys else x :: y :: ys

/-- One concrete sorting function meeting `IsStdSort`, used to run the passes on examples. -/
def insertion_sort {α : Type} : SortFn α
  | _, [] => []
  | cmp, x :: xs => sorted_insert cmp x (insertion_sort cmp xs)

/-- The algorithm `std::lower_bound(first, last, value, cmp)` on a range partitioned with respect
to `value`: the index of the first element `e` for which `cmp(e, value)` is false. -/
def lower_bound {α : Type} (cmp : α → α → Bool) (l : List α) (value : α) : Nat :=
  (l.takeWhile (fun e => cmp e value)).length

/-- The algorithm `std::upper_bound(first, last, value, cmp)` on a range partitioned with respect
to `value`: the index of the first element `e` for which `cmp(value, e)` is true. -/
def upper_bound {α : Type} (cmp : α → α → Bool) (l : List α) (value : α) : Nat :=
  (l.takeWhile (fun e => !cmp value e)).length

/-- The algorithm `std::equal_range`: the pair of `lower_bound` and `upper_bound`. -/
def equal_range {α : Type} (cmp : α → α → Bool) (l : List α) (value : α) : Nat × Nat :=
  (lower_bound cmp l value, upper_bound cmp l value)

/-- The scan of `std::min_element` over the elements after the first: `smallest` is the current
candidate, at index `si`; `i` is the index of the head of the remaining range. -/
def min_element_from {α : Type} (cmp : α → α → Bool) (smallest : α) (si : Nat) :
    List α → Nat → Nat
  | [], _ => si
  | x :: xs, i =>
      if cmp x smallest then min_element_from cmp x i xs (i + 1)
      else min_element_from cmp smallest si xs (i + 1)

/-- The algorithm `std::min_element(first, last, cmp)`: the index of the first smallest element;
for an empty range the index of `last`. -/
def min_element {α : Type} (cmp : α → α → Bool) : List α → Nat
  | [] => 0
  | x :: xs => min_element_from cmp x 0 xs 1

/-- The algorithm `std::iter_swap(first + i, first + j)`. -/
def iter_swap {α : Type} (l : List α) (i j : Nat) : List α :=
  match l.get? i, l.get? j with
  | some a, some b => (l.set i b).set j a
  | _, _ => l

/-- The loop of `std::remove_if` behind the first element to remove: `v` is the vector, `first`
the position the next element to keep is moved to, and the last argument holds the elements not
yet read. The loop writes only before the position it reads, so the elements not yet read are
the ones of the vector at the start. Returns the vector and the final value of `first`. -/
def remove_if_loop {α : Type} (pred : α → Bool) : List α → Nat → List α → List α × Nat
  | v, first, [] => (v, first)
  | v, first, x :: unread =>
      if !pred x then remove_if_loop pred (v.set first x) (first + 1) unread
      else remove_if_loop pred v first unread

/-- The algorithm `std::remove_if(first, last, pred)`: `std::find_if` gives the first element to
remove, and every later element to keep is moved forward over the removed ones. Returns the
vector after the algorithm and the index of the new end. The elements from the new end on are
left over: the standard does not say what they hold, here they keep what they held. -/
def remove_if {α : Type} (pred : α → Bool) (l : List α) : List α × Nat :=
  let first := (l.takeWhile (fun e => !pred e)).length
  if first = l.length then (l, first)
  else remove_if_loop pred l first (l.drop (first + 1))

/-- The member function `std::vector::erase(it, end())`. -/
def erase_to_end {α : Type} (l : List α) (it : Nat) : List α := l.take it

/-! ## Comparators of `Rdutil.cc` -/

/-- The comparator `cmpDeviceInode`: lexicographic order on (device, inode). -/
def cmpDeviceInode (a b : Fileinfo cap) : Bool :=
  decide (a.device < b.device ∨ (a.device = b.device ∧ a.inode < b.inode))

/-- The comparator `cmpRank`: lexicographic order on (cmdline index, depth, identity). -/
def cmpRank (a b : Fileinfo cap) : Bool :=
  decide (a.get_cmdline_index < b.get_cmdline_index ∨
    (a.get_cmdline_index = b.get_cmdline_index ∧
      (a.depth < b.depth ∨ (a.depth = b.depth ∧ a.getidentity < b.getidentity))))

/-- The comparator `cmpBuffers`. -/
def cmpBuffers (a b : Fileinfo cap) : Bool :=
  decide (memcmp a.getbyteptr b.getbyteptr a.getbuffersize < 0)

/-- The predicate `hasEqualBuffers`. -/
def hasEqualBuffers (a b : Fileinfo cap) : Bool :=
  decide (memcmp a.getbyteptr b.getbyteptr a.getbuffersize = 0)

/-- The comparator `cmpSize`. -/
def cmpSize (a b : Fileinfo cap) : Bool :=
  decide (a.size < b.size)

/-- The comparator `cmpSizeThenBuffer`. -/
def cmpSizeThenBuffer (a b : Fileinfo cap) : Bool :=
  decide (a.size < b.size) || (decide (a.size = b.size) && cmpBuffers a b)

/-! ## `apply_on_range` -/

/-- The loop of `apply_on_range` in the branch taken (`linearsearch` is `false`): find the range
equivalent to `*first` with `std::equal_range`, assert that it starts at `first`, invoke the
callback on it and continue behind it. The callback rewrites its range in place and may abort.
The first argument bounds the number of iterations; each iteration that returns to the loop head
with a shorter range consumes at least one element, so with the length of the range as bound the
result is `none` only if the callback aborts, the assertion fails, or the loop does not
advance. -/
def apply_on_range_loop {α : Type} (cmp : α → α → Bool)
    (callback : List α → Option (List α)) : Nat → List α → Option (List α)
  | _, [] => some []
  | 0, _ :: _ => none
  | fuel + 1, first :: rest =>
      let p := equal_range cmp (first :: rest) first
      if p.1 ≠ 0 then none
      else
        match callback ((first :: rest).take p.2) with
        | none => none
        | some sub =>
            match apply_on_range_loop cmp callback fuel ((first :: rest).drop p.2) with
            | none => none
            | some tail => some (sub ++ tail)

/-- The function template `apply_on_range`: asserts that the range is sorted, then invokes the
callback on each range of equivalent elements. -/
def apply_on_range {α : Type} (cmp : α → α → Bool) (callback : List α → Option (List α))
    (l : List α) : Option (List α) :=
  if is_sorted cmp l then apply_on_range_loop cmp callback l.length l else none

/-- A range of `l` as `apply_on_range` finds it in a sorted `l`: a non-empty run `g` of
mutually equivalent elements, with only smaller elements before it and only greater elements
behind it (so the run is maximal). -/
def IsRange {α : Type} (cmp : α → α → Bool) (l g : List α) : Prop :=
  g ≠ [] ∧ (∀ a ∈ g, ∀ b ∈ g, cmp a b = false) ∧
    ∃ pre post, l = pre ++ g ++ post ∧
      (∀ a ∈ pre, ∀ b ∈ g, cmp a b = true) ∧ (∀ a ∈ g, ∀ b ∈ post, cmp a b = true)

/-- The relation between a list and what `apply_on_range` makes of it: the list is cut into
consecutive maximal ranges of equivalent elements, and each range `g` is replaced by a range
`g'` related to it by `R` (what the callback does). -/
inductive Ranges {α : Type} (cmp : α → α → Bool) (R : List α → List α → Prop) :
    List α → List α → Prop where
  | nil : Ranges cmp R [] []
  | cons (g r g' r' : List α) :
      g ≠ [] → (∀ a ∈ g, ∀ b ∈ g, cmp a b = false) → (∀ a ∈ g, ∀ b ∈ r, cmp a b = true) →
      R g g' → Ranges cmp R r r' → Ranges cmp R (g ++ r) (g' ++ r')

/-! ## The passes of `Rdutil` -/

/-- The member function `Rdutil::cleanup`: `std::remove_if` on the delete flag, then `erase` from
the returned position to the end; returns the new list and the difference of the sizes before
and after (a `std::size_t`; the size after is never the greater one, theorem
`cleanup_length_le`). -/
def cleanup (m_list : List (Fileinfo cap)) : List (Fileinfo cap) × Nat :=
  let size_before := m_list.length
  let it := remove_if (fun A : Fileinfo cap => A.deleteflag) m_list
  let m_list := erase_to_end it.1 it.2
  let size_after := m_list.length
  (m_list, size_before - size_after)

/-- The callback of `removeUniqueSizes` and the inner callback of `removeUniqSizeAndBuffer`: a
range of one element is flagged for deletion, all elements of any other range are kept. -/
def flag_if_single (range : List (Fileinfo cap)) : Option (List (Fileinfo cap)) :=
  match range with
  | [first] => some [first.setdeleteflag true]
  | _ => some (range.map (fun f => f.setdeleteflag false))

/-- The member function `Rdutil::removeUniqueSizes`. -/
def removeUniqueSizes (sort : SortFn (Fileinfo cap)) (m_list : List (Fileinfo cap)) :
    Option (List (Fileinfo cap) × Nat) :=
  match apply_on_range cmpSize flag_if_single (sort cmpSize m_list) with
  | none => none
  | some marked => some (cleanup marked)

/-- The outer callback of `removeUniqSizeAndBuffer`: sort the range of equal sizes on buffer
content and flag the records whose buffer is unique. -/
def flag_unique_buffers (sort : SortFn (Fileinfo cap)) (range : List (Fileinfo cap)) :
    Option (List (Fileinfo cap)) :=
  apply_on_range cmpBuffers flag_if_single (sort cmpBuffers range)

/-- The member function `Rdutil::removeUniqSizeAndBuffer`. -/
def removeUniqSizeAndBuffer (sort : SortFn (Fileinfo cap)) (m_list : List (Fileinfo cap)) :
    Option (List (Fileinfo cap) × Nat) :=
  match apply_on_range cmpSize (flag_unique_buffers sort) (sort cmpSize m_list) with
  | none => none
  | some marked => some (cleanup marked)

/-- The callback of `removeIdenticalInodes`: the first rank-minimal element `best` of the range is
kept, every element before and after it is flagged for deletion. An empty range would dereference
`last`. -/
def keep_best (range : List (Fileinfo cap)) : Option (List (Fileinfo cap)) :=
  let best := min_element cmpRank range
  match range.get? best with
  | none => none
  | some b =>
      some ((range.take best).map (fun f => f.setdeleteflag true) ++
        b.setdeleteflag false ::
        (range.drop (best + 1)).map (fun f => f.setdeleteflag true))

/-- The member function `Rdutil::removeIdenticalInodes`. -/
def removeIdenticalInodes (sort : SortFn (Fileinfo cap)) (m_list : List (Fileinfo cap)) :
    Option (List (Fileinfo cap) × Nat) :=
  match apply_on_range cmpDeviceInode keep_best (sort cmpDeviceInode m_list) with
  | none => none
  | some marked => some (cleanup marked)

/-- The lambda `marker` of `markduplicates`: link `elem` to the original and classify it. -/
def marker (orig elem : Fileinfo cap) : Fileinfo cap :=
  let elem := elem.setidentity (-orig.getidentity)
  if elem.get_cmdline_index = orig.get_cmdline_index then
    elem.setduptype duptype.DUPTYPE_WITHIN_SAME_TREE
  else
    elem.setduptype duptype.DUPTYPE_OUTSIDE_TREE

/-- The callback of `markduplicates` on one range of equal size and buffer: asserts at least two
members, swaps the rank-minimal record to the front, asserts that all members have the size and
buffer of the original, marks the original and then every other member. -/
def mark_range (range : List (Fileinfo cap)) : Option (List (Fileinfo cap)) :=
  if range.length < 2 then none
  else
    let orig := min_element cmpRank range
    if orig = range.length then none
    else
      match iter_swap range 0 orig with
      | [] => none
      | first :: rest =>
          if (first :: rest).all (fun a => decide (first.size = a.size) && hasEqualBuffers first a)
          then
            let original := first.setduptype duptype.DUPTYPE_FIRST_OCCURRENCE
            some (original :: rest.map (marker original))
          else none

/-- The member function `Rdutil::markduplicates`. -/
def markduplicates (m_list : List (Fileinfo cap)) : Option (List (Fileinfo cap)) :=
  if is_sorted cmpSizeThenBuffer m_list then
    apply_on_range cmpSizeThenBuffer mark_range m_list
  else none

/-- What `mark_range` makes of a range `g`: with `b` the record at the index that `min_element`
returns for `cmpRank` (no record of the range ranks before `b`), the range after the swap is
`b :: rest`, and the result is `b` marked as first occurrence followed by the records of `rest`,
each rewritten by `marker`. -/
def MarkedRange (g g2 : List (Fileinfo cap)) : Prop :=
  ∃ b rest, g.get? (min_element cmpRank g) = some b ∧ (∀ y ∈ g, cmpRank y b = false) ∧
    iter_swap g 0 (min_element cmpRank g) = b :: rest ∧ (b :: rest).Perm g ∧
    g2 = b.setduptype duptype.DUPTYPE_FIRST_OCCURRENCE ::
      rest.map (marker (b.setduptype duptype.DUPTYPE_FIRST_OCCURRENCE))

/-! ## Vocabulary of the statements -/

/-- The test "some other record of `l` has the key of `f`", where `K g f` says that `g` and `f`
have the same key: counting `f` itself, at least two records of `l` have the key of `f`. -/
def has_partner {α : Type} (K : α → α → Bool) (l : List α) (f : α) : Bool :=
  decide (2 ≤ l.countP (fun g => K g f))

/-- The key test of the size filter: equal sizes. -/
def same_size (a b : Fileinfo cap) : Bool := decide (a.size = b.size)

/-- The key test of the sample filter and of the final marking: equal sizes and byte-for-byte
equal sample buffers. -/
def same_size_and_buffer (a b : Fileinfo cap) : Bool :=
  decide (a.size = b.size) && decide (a.somebytes = b.somebytes)

/-- The key test of the inode filter: equal device and equal inode. -/
def same_inode (a b : Fileinfo cap) : Bool :=
  decide (a.device = b.device) && decide (a.inode = b.inode)

/-- The test "`f` is the rank-minimal record among the records of `l` on its inode": every record
of `l` with the device and inode of `f` is `f` itself or ranks behind `f`. -/
def is_rank_minimal_on_inode (l : List (Fileinfo cap)) (f : Fileinfo cap) : Bool :=
  l.all (fun h => !same_inode h f || decide (h = f) || cmpRank f h)

/-! ## Sample records -/

/-- A record with buffer capacity 2 whose sample buffer holds `byte` and a zero, with the delete
flag clear and the classification unknown, as after construction. -/
def sample_file (name : String) (size : Int) (device inode : Nat) (cmdline_index depth : Int)
    (identity : Int) (byte : Nat) : Fileinfo 2 :=
  { name := name, size := size, device := device, inode := inode, deleteflag := false,
    getduptype := duptype.DUPTYPE_UNKNOWN, get_cmdline_index := cmdline_index, depth := depth,
    getidentity := identity, somebytes := ⟨[byte, 0], rfl⟩ }

/-- The file A of the scenario with three identical files: command line index 0, depth 1. -/
def fileA : Fileinfo 2 := sample_file "A" 7 1 11 0 1 1 65

/-- The file B of the scenario with three identical files: command line index 0, depth 2. -/
def fileB : Fileinfo 2 := sample_file "B" 7 1 12 0 2 2 65

/-- The file C of the scenario with three identical files: command line index 1, depth 1. -/
def fileC : Fileinfo 2 := sample_file "C" 7 1 13 1 1 3 65

/-- A file of 10 bytes starting with the byte 1. -/
def fileT1 : Fileinfo 2 := sample_file "t1" 10 1 21 0 1 1 1

/-- A file of 20 bytes. -/
def fileT2 : Fileinfo 2 := sample_file "t2" 20 1 22 0 1 2 1

/-- A file of 10 bytes starting with the byte 2. -/
def fileT3 : Fileinfo 2 := sample_file "t3" 10 1 23 0 1 3 2

/-- An empty file. -/
def fileZ1 : Fileinfo 2 := sample_file "z1" 0 1 31 0 1 1 0

/-- A second empty file. -/
def fileZ2 : Fileinfo 2 := sample_file "z2" 0 1 32 0 2 2 0

/-- A second name, found deeper in the tree, of the inode of `fileA` (a hard link). -/
def fileA_link : Fileinfo 2 := sample_file "A2" 7 1 11 0 3 4 65

/-! ## Report formatter -/

/-- The `while` loop of `littlehelper::calcrange` on the state (`size`, `tmp`, `range`). The first
argument bounds the number of iterations; `none` means the bound was reached. -/
def calcrange_loop : Nat → Int → Int → Int → Option (Int × Int × Int)
  | fuel, size, tmp, range =>
      if size > 1024 then
        match fuel with
        | 0 => none
        | fuel + 1 =>
            calcrange_loop fuel ((size >>> (9 : Nat)) >>> (1 : Nat)) (size >>> (9 : Nat))
              (range + 1)
      else some (size, tmp, range)

/-- The function `littlehelper::calcrange`: returns the range and the value left in the reference
argument `size`. The loop divides a value above 1024 by 1024 in each iteration, so `size`
iterations are more than it can take. -/
def calcrange (size : Int) : Option (Int × Int) :=
  match calcrange_loop size.toNat size 0 0 with
  | none => none
  | some (size, tmp, range) =>
      some (range, if Int.land tmp 1 ≠ 0 then size + 1 else size)

/-- The function `littlehelper::byteprefix`. -/
def byteprefix (range : Int) : String :=
  if range = 0 then "B"
  else if range = 1 then "KiB"
  else if range = 2 then "MiB"
  else if range = 3 then "GiB"
  else if range = 4 then "TiB"
  else if range = 5 then "PiB"
  else if range = 6 then "EiB"
  else "!way too much!"

/-- The text that `Rdutil::totalsize` and `Rdutil::saveablespace` write for a byte count:
`out << size << " " << byteprefix(range)` after `calcrange`. -/
def format_size (bytes : Int) : Option String :=
  match calcrange bytes with
  | none => none
  | some (range, size) => some (toString size ++ " " ++ byteprefix range)

/-! ## Strings and paths (`Fileinfo.cc`) -/

/-- The test whether the character sequence `s` begins with `sub`. -/
def starts_with : List Char → List Char → Bool
  | _, [] => true
  | [], _ :: _ => false
  | c :: cs, d :: ds => decide (c = d) && starts_with cs ds

/-- The member function `std::string::find(sub)`: the position of the first occurrence of `sub`
in `s`, or `none` for `npos`. -/
def string_find : List Char → List Char → Option Nat
  | [], sub => if starts_with [] sub then some 0 else none
  | c :: cs, sub =>
      if starts_with (c :: cs) sub then some 0
      else
        match string_find cs sub with
        | none => none
        | some pos => some (pos + 1)

/-- The member function `std::string::replace(pos, n, r)`: the `n` characters from position
`pos` on are replaced by `r`. -/
def string_replace (s : List Char) (pos n : Nat) (r : List Char) : List Char :=
  s.take pos ++ r ++ s.drop (pos + n)

/-- One of the two `do ... while (true)` loops of `simplifyPath`: as long as `sub` occurs in the
path, its first occurrence is replaced by "/". The first argument bounds the number of
iterations; `none` means the bound was reached. -/
def simplifyPath_loop (sub : List Char) : Nat → List Char → Option (List Char)
  | fuel, path =>
      match string_find path sub with
      | none => some path
      | some pos =>
          match fuel with
          | 0 => none
          | fuel + 1 => simplifyPath_loop sub fuel (string_replace path pos sub.length ['/'])

/-- The function `simplifyPath`: returns its return value (always 0) and the value left in the
reference argument `path`. A `std::string` is a sequence of characters. Every replacement
shortens the path, so the length of the path bounds the iterations of each loop. -/
def simplifyPath (path : List Char) : Option (Int × List Char) :=
  match simplifyPath_loop ['/', '.', '/'] path.length path with
  | none => none
  | some path1 =>
      match simplifyPath_loop ['/', '/'] path1.length path1 with
      | none => none
      | some path2 => some (0, path2)

/-- The statement "`sub` is a substring of `s`". -/
def has_substring (s sub : List Char) : Prop := ∃ a b, s = a ++ sub ++ b

/-- The sequence of '/'-separated segments of a path (empty segments included). -/
def segments : List Char → List (List Char)
  | [] => [[]]
  | c :: cs =>
      if c = '/' then [] :: segments cs
      else
        match segments cs with
        | [] => [[c]]
        | seg :: rest => (c :: seg) :: rest

/-- The segments of a path that are neither empty nor ".". -/
def proper_segments (path : List Char) : List (List Char) :=
  (segments path).filter (fun seg => decide (seg ≠ []) && decide (seg ≠ ['.']))

/-! ## `applyactiononfile` and `markitems` (`Rdutil.cc`) -/

/-- The body of the loop of `applyactiononfile` (the `switch`) for the record `it`, with the
local variables `original` (`none` for `last`) and `ntimesapplied`. The action
`f(duplicate, original)` returns its return code and acts on a state `σ` (file system, output
streams); none of the actions passed in `Rdutil.cc` changes a record. A failed `assert` gives
`none`. -/
def applyactiononfile_step {σ : Type} (f : σ → Fileinfo cap → Fileinfo cap → Int × σ)
    (it : Fileinfo cap) (original : Option (Fileinfo cap)) (ntimesapplied : Nat) (w : σ) :
    Option (Option (Fileinfo cap) × Nat × σ) :=
  match it.getduptype with
  | duptype.DUPTYPE_FIRST_OCCURRENCE =>
      if it.getidentity ≥ 0 then some (some it, ntimesapplied, w) else none
  | duptype.DUPTYPE_OUTSIDE_TREE | duptype.DUPTYPE_WITHIN_SAME_TREE =>
      match original with
      | none => none
      | some orig =>
          if it.getidentity = -orig.getidentity then
            if (f w it orig).1 ≠ 0 then some (original, ntimesapplied, (f w it orig).2)
            else some (original, ntimesapplied + 1, (f w it orig).2)
          else none
  | duptype.DUPTYPE_UNKNOWN => none

/-- The loop of `applyactiononfile` over the remaining records. -/
def applyactiononfile_loop {σ : Type} (f : σ → Fileinfo cap → Fileinfo cap → Int × σ) :
    List (Fileinfo cap) → Option (Fileinfo cap) → Nat → σ → Option (Nat × σ)
  | [], _, ntimesapplied, w => some (ntimesapplied, w)
  | it :: rest, original, ntimesapplied, w =>
      match applyactiononfile_step f it original ntimesapplied w with
      | none => none
      | some (original, ntimesapplied, w) =>
          applyactiononfile_loop f rest original ntimesapplied w

/-- The function template `applyactiononfile`: returns `ntimesapplied` and the state the
actions leave behind. -/
def applyactiononfile {σ : Type} (m_list : List (Fileinfo cap))
    (f : σ → Fileinfo cap → Fileinfo cap → Int × σ) (w : σ) : Option (Nat × σ) :=
  applyactiononfile_loop f m_list none 0 w

/-- The test "the record is a duplicate": its kind is `DUPTYPE_WITHIN_SAME_TREE` or
`DUPTYPE_OUTSIDE_TREE`. -/
def is_duplicate (f : Fileinfo cap) : Bool :=
  decide (f.getduptype = duptype.DUPTYPE_WITHIN_SAME_TREE) ||
    decide (f.getduptype = duptype.DUPTYPE_OUTSIDE_TREE)

/-- The statement "the collection is well marked", seen from a position where `original` is the
most recently seen first occurrence: every first occurrence has a non-negative identity, every
duplicate has a first occurrence before it and carries the negation of the identity of the
nearest one, and no record is of unknown kind. -/
def well_marked : Option (Fileinfo cap) → List (Fileinfo cap) → Bool
  | _, [] => true
  | original, x :: rest =>
      if x.getduptype = duptype.DUPTYPE_FIRST_OCCURRENCE then
        decide (0 ≤ x.getidentity) && well_marked (some x) rest
      else if is_duplicate x then
        match original with
        | none => false
        | some orig => decide (x.getidentity = -orig.getidentity) && well_marked original rest
      else false

/-- The invocations that the specification asks of the applier, in list order: every duplicate
record paired with the most recently seen first occurrence (the "current original"). -/
def duplicate_pairs :
    Option (Fileinfo cap) → List (Fileinfo cap) → List (Fileinfo cap × Fileinfo cap)
  | _, [] => []
  | original, x :: rest =>
      if x.getduptype = duptype.DUPTYPE_FIRST_OCCURRENCE then duplicate_pairs (some x) rest
      else if is_duplicate x then
        match original with
        | none => duplicate_pairs original rest
        | some orig => (x, orig) :: duplicate_pairs original rest
      else duplicate_pairs original rest

/-- The current original of `applyactiononfile` after the records `pre`: the most recently seen
record of kind `DUPTYPE_FIRST_OCCURRENCE`, or `original` if `pre` has none. -/
def current_original : Option (Fileinfo cap) → List (Fileinfo cap) → Option (Fileinfo cap)
  | original, [] => original
  | original, x :: rest =>
      current_original
        (if x.getduptype = duptype.DUPTYPE_FIRST_OCCURRENCE then some x else original) rest

/-- The count and the state after invoking `f` once on each pair of a list of pairs, in order,
counting the invocations that return 0 and going on after an invocation that fails. -/
def run_actions {σ : Type} (f : σ → Fileinfo cap → Fileinfo cap → Int × σ) :
    Nat × σ → List (Fileinfo cap × Fileinfo cap) → Nat × σ
  | acc, [] => acc
  | (count, w), (dup, orig) :: rest =>
      run_actions f ((if (f w dup orig).1 = 0 then count + 1 else count), (f w dup orig).2) rest

/-! ## The file system and the system calls

The destructive operations of `Fileinfo.cc` act on the file system through system calls. The
model below keeps what the claims speak about: which paths exist and what they hold. A system
call can fail for a reason the model sees (a missing file, an existing target) or for a reason it
does not see (permissions, I/O errors); the latter are injected through the list `faults`, from
which every modelled system call takes the next entry. A failing system call leaves the file
system as it is. -/

/-- A regular file: its bytes, its metadata (ownership, permissions, extended attributes, as one
token) and the device offset of its first block, the value that `get_cow_id` probes. -/
structure File where
  /-- The bytes of the file. -/
  content : List Nat
  /-- The metadata that `copyfile(..., COPYFILE_METADATA)` copies. -/
  metadata : Nat
  /-- The device offset of the first block; two clones of each other share it. -/
  cow_id : Int
deriving DecidableEq

/-- What a path of the file system holds. -/
inductive Node where
  | file (f : File)
  | symlink (target : List Char)
deriving DecidableEq

/-- A line written to `std::cerr`, without the text of `strerror(errno)`. -/
inductive Diag where
  | failed_deleting_file (name : List Char)
  | failed_getcwd
  | failed_to_make_symlink (name target : List Char)
  | failed_to_make_hardlink (filename target : List Char)
  | failed_to_create_temporary (basePath : List Char)
  | failed_to_rename (target backup : List Char)
  | failed_to_clone (other target : List Char)
  | rollback_failed_to_restore (target backup : List Char)
  | warning_failed_to_restore_metadata (backup target : List Char)
  | rollback_failed_to_remove_clone (target : List Char)
  | warning_failed_to_remove_backup (backup : List Char)
  | warning_not_on_apfs
deriving DecidableEq

/-- The state of the world outside the program. -/
structure World where
  /-- The file system: what each path holds. -/
  fs : List Char → Option Node
  /-- The current working directory. -/
  cwd : List Char
  /-- The injected failures of the coming system calls, in order; `true` makes the call fail. -/
  faults : List Bool
  /-- The suffixes that the coming calls of `mkstemp` put in place of "XXXXXX". -/
  temps : List (List Char)
  /-- The paths that lie on an APFS volume. -/
  on_apfs : List Char → Bool
  /-- The lines written to `std::cout`. -/
  cout : List (List Char)
  /-- The lines written to `std::cerr`. -/
  cerr : List Diag

/-- The file system `fs` with `path` holding `node` (`none`: the path is removed). -/
def fs_set (fs : List Char → Option Node) (path : List Char) (node : Option Node) :
    List Char → Option Node :=
  fun p => if p = path then node else fs p

/-- The next injected failure, and the world with that entry consumed. -/
def take_fault (w : World) : Bool × World :=
  match w.faults with
  | [] => (false, w)
  | b :: rest => (b, { w with faults := rest })

/-- A line is written to `std::cerr`. -/
def log_cerr (w : World) (d : Diag) : World := { w with cerr := w.cerr ++ [d] }

/-- A line is written to `std::cout`. -/
def log_cout (w : World) (line : List Char) : World := { w with cout := w.cout ++ [line] }

/-- The system call `unlink(path)`: fails if the path does not exist. -/
def sys_unlink (w : World) (path : List Char) : Int × World :=
  let (fault, w) := take_fault w
  if fault then (-1, w)
  else
    match w.fs path with
    | none => (-1, w)
    | some _ => (0, { w with fs := fs_set w.fs path none })

/-- The system call `rename(old, new)`: fails if `old` does not exist; replaces `new`. -/
def sys_rename (w : World) (old new : List Char) : Int × World :=
  let (fault, w) := take_fault w
  if fault then (-1, w)
  else
    match w.fs old with
    | none => (-1, w)
    | some node =>
        if old = new then (0, w)
        else (0, { w with fs := fs_set (fs_set w.fs new (some node)) old none })

/-- The system call `symlink(target, linkpath)`: fails if `linkpath` exists. -/
def sys_symlink (w : World) (target linkpath : List Char) : Int × World :=
  let (fault, w) := take_fault w
  if fault then (-1, w)
  else
    match w.fs linkpath with
    | some _ => (-1, w)
    | none => (0, { w with fs := fs_set w.fs linkpath (some (Node.symlink target)) })

/-- The system call `link(oldpath, newpath)`: fails if `oldpath` does not exist or `newpath`
exists. -/
def sys_link (w : World) (oldpath newpath : List Char) : Int × World :=
  let (fault, w) := take_fault w
  if fault then (-1, w)
  else
    match w.fs oldpath, w.fs newpath with
    | some node, none => (0, { w with fs := fs_set w.fs newpath (some node) })
    | _, _ => (-1, w)

/-- The system call `clonefile(src, dst, 0)`: fails if `src` is not a file or `dst` exists; the
clone has the bytes, the metadata and the blocks of `src`. -/
def sys_clonefile (w : World) (src dst : List Char) : Int × World :=
  let (fault, w) := take_fault w
  if fault then (-1, w)
  else
    match w.fs src, w.fs dst with
    | some (Node.file f), none => (0, { w with fs := fs_set w.fs dst (some (Node.file f)) })
    | _, _ => (-1, w)

/-- The library call `copyfile(src, dst, NULL, COPYFILE_METADATA)`: fails if one of the two is
not a file; `dst` gets the metadata of `src`. -/
def sys_copyfile_metadata (w : World) (src dst : List Char) : Int × World :=
  let (fault, w) := take_fault w
  if fault then (-1, w)
  else
    match w.fs src, w.fs dst with
    | some (Node.file s), some (Node.file d) =>
        (0, { w with fs := fs_set w.fs dst (some (Node.file { d with metadata := s.metadata })) })
    | _, _ => (-1, w)

/-- The library call `mkstemp(template)` followed by `close`: puts the next suffix in place of
the last six characters; fails if no name is left or the name exists; creates an empty file and
returns its name. -/
def sys_mkstemp (w : World) (template : List Char) : Option (List Char) × World :=
  let (fault, w) := take_fault w
  if fault then (none, w)
  else
    match w.temps with
    | [] => (none, w)
    | suffix :: rest =>
        let name := template.take (template.length - 6) ++ suffix
        match w.fs name with
        | some _ => (none, { w with temps := rest })
        | none =>
            (some name,
              { w with
                temps := rest
                fs := fs_set w.fs name
                  (some (Node.file { content := [], metadata := 0, cow_id := -1 })) })

/-- The library call `getcwd(buf, buflength)`: fails if the path and its terminator do not fit
in the buffer. -/
def sys_getcwd (w : World) (buflength : Nat) : Option (List Char) × World :=
  let (fault, w) := take_fault w
  if fault then (none, w)
  else if w.cwd.length + 1 > buflength then (none, w)
  else (some w.cwd, w)

/-! ## The file operations of `Fileinfo.cc` -/

/-- The member function `Fileinfo::deletefile`. -/
def deletefile (w : World) (name : List Char) : Int × World :=
  let (ret, w) := sys_unlink w name
  if ret ≠ 0 then (ret, log_cerr w (Diag.failed_deleting_file name)) else (ret, w)

/-- The function `makeAbsolute`: returns its return value and the value left in the reference
argument `target`. -/
def makeAbsolute (w : World) (target : List Char) : (Int × List Char) × World :=
  if target.length > 0 ∧ target.head? = some '/' then ((0, target), w)
  else
    match sys_getcwd w 256 with
    | (none, w) => ((-1, target), log_cerr w Diag.failed_getcwd)
    | (some buf, w) => ((0, buf ++ ['/'] ++ target), w)

/-- Modelled from the spec: the class `UndoableUnlink` (`UndoableUnlink.hh`) is not among the
sources. Its interface, as `transactional_operation` uses it, on a state `σ` with the state `ρ`
of the object: the constructor `UndoableUnlink restorer(filename)` moves the file to a
temporary, `file_is_moved()` tells whether that went well, `unlink()` deletes the temporary, and
the destructor, run at scope exit, restores the file if it is still moved. -/
structure UndoableUnlinkOps (σ ρ : Type) where
  /-- The constructor. -/
  construct : σ → List Char → ρ × σ
  /-- The member function `file_is_moved`. -/
  file_is_moved : ρ → Bool
  /-- The member function `unlink`. -/
  unlink : ρ → σ → Int × ρ × σ
  /-- The destructor. -/
  destruct : ρ → σ → σ

/-- The function template `transactional_operation`: returns its return value and the state
after the destructor of `restorer` has run. -/
def transactional_operation {σ ρ : Type} (ops : UndoableUnlinkOps σ ρ) (filename : List Char)
    (f : σ → List Char → Int × σ) (w : σ) : Int × σ :=
  let (restorer, w) := ops.construct w filename
  if !ops.file_is_moved restorer then (1, ops.destruct restorer w)
  else
    let (ret, w) := f w filename
    if 0 ≠ ret then (ret, ops.destruct restorer w)
    else
      let (r, restorer, w) := ops.unlink restorer w
      if 0 ≠ r then (1, ops.destruct restorer w) else (0, ops.destruct restorer w)

/-- The state of an `UndoableUnlink` object. -/
inductive UndoableUnlinkState where
  | not_moved
  | moved (filename temporary : List Char)
  | unlinked
deriving DecidableEq

/-- Modelled from the spec: the class `UndoableUnlink` as section 4.3 describes it, on the
modelled file system. The constructor renames the file to a temporary name in the same
directory (`tmpname filename`; the specification leaves the name open); `unlink` deletes the
temporary; the destructor renames a temporary that is still there back to the file name. -/
def undoable_unlink (tmpname : List Char → List Char) :
    UndoableUnlinkOps World UndoableUnlinkState where
  construct := fun w filename =>
    let (r, w) := sys_rename w filename (tmpname filename)
    if r = 0 then (UndoableUnlinkState.moved filename (tmpname filename), w)
    else (UndoableUnlinkState.not_moved, w)
  file_is_moved := fun restorer =>
    match restorer with
    | UndoableUnlinkState.moved _ _ => true
    | _ => false
  unlink := fun restorer w =>
    match restorer with
    | UndoableUnlinkState.moved _ temporary =>
        let (r, w) := sys_unlink w temporary
        if r = 0 then (0, UndoableUnlinkState.unlinked, w) else (r, restorer, w)
    | _ => (-1, restorer, w)
  destruct := fun restorer w =>
    match restorer with
    | UndoableUnlinkState.moved filename temporary => (sys_rename w temporary filename).2
    | _ => w

/-- The link target that the lambda of `Fileinfo::makesymlink` computes from the name of the
original: `makeAbsolute` (its return value is not looked at) followed by `simplifyPath`. The
function `simplifyPath` always returns (theorem `simplifyPath_spec`), so the branch for `none`
is never taken. -/
def makesymlink_target (w : World) (A_name : List Char) : List Char × World :=
  let ((_, target), w) := makeAbsolute w A_name
  match simplifyPath target with
  | none => (target, w)
  | some (_, target) => (target, w)

/-- The lambda of `Fileinfo::makesymlink`. -/
def makesymlink_action (A_name : List Char) (w : World) (filename : List Char) : Int × World :=
  let (target, w) := makesymlink_target w A_name
  sys_symlink w target filename

/-- The member function `Fileinfo::makesymlink` of the file `name`, with the name of `A`. -/
def makesymlink {ρ : Type} (ops : UndoableUnlinkOps World ρ) (w : World)
    (name A_name : List Char) : Int × World :=
  let (retval, w) := transactional_operation ops name (makesymlink_action A_name) w
  if retval ≠ 0 then (retval, log_cerr w (Diag.failed_to_make_symlink name A_name))
  else (retval, w)

/-- The lambda of `Fileinfo::makehardlink`. -/
def makehardlink_action (A_name : List Char) (w : World) (filename : List Char) : Int × World :=
  let (retval, w) := sys_link w A_name filename
  if retval ≠ 0 then (retval, log_cerr w (Diag.failed_to_make_hardlink filename A_name))
  else (retval, w)

/-- The member function `Fileinfo::makehardlink` of the file `name`, with the name of `A`. -/
def makehardlink {ρ : Type} (ops : UndoableUnlinkOps World ρ) (w : World)
    (name A_name : List Char) : Int × World :=
  transactional_operation ops name (makehardlink_action A_name) w

/-- The scan of `std::string::rfind(c)`: `last` is the last position found so far, `i` the
position of the head of the remaining characters. -/
def string_rfind_from (c : Char) : List Char → Nat → Option Nat → Option Nat
  | [], _, last => last
  | x :: xs, i, last => string_rfind_from c xs (i + 1) (if x = c then some i else last)

/-- The member function `std::string::rfind(c)`: the last position of `c`, `none` for `npos`. -/
def string_rfind (s : List Char) (c : Char) : Option Nat := string_rfind_from c s 0 none

/-- The function `make_temp_file_nearby`: the name of a new empty file in the directory of
`basePath`, or the empty string. -/
def make_temp_file_nearby (w : World) (basePath : List Char) : List Char × World :=
  let dir :=
    match string_rfind basePath '/' with
    | some pos => basePath.take pos
    | none => ['.']
  let tmpl := dir ++ "/.clonebackup.XXXXXX".data
  match sys_mkstemp w tmpl with
  | (none, w) => ([], log_cerr w (Diag.failed_to_create_temporary basePath))
  | (some name, w) => (name, w)

/-- The rollback of `Fileinfo::makeclone` after a failed `clonefile`. -/
def makeclone_after_clone_failure (w : World) (target other backup : List Char) : Int × World :=
  let w := log_cerr w (Diag.failed_to_clone other target)
  let (r, w) := sys_rename w backup target
  if r ≠ 0 then (-1, log_cerr w (Diag.rollback_failed_to_restore target backup)) else (-1, w)

/-- The rollback of `Fileinfo::makeclone` after a failed `copyfile`. -/
def makeclone_after_copyfile_failure (w : World) (target backup : List Char) : Int × World :=
  let w := log_cerr w (Diag.warning_failed_to_restore_metadata backup target)
  let (r1, w) := sys_unlink w target
  let w := if r1 ≠ 0 then log_cerr w (Diag.rollback_failed_to_remove_clone target) else w
  let (r2, w) := sys_rename w backup target
  if r2 ≠ 0 then (-1, log_cerr w (Diag.rollback_failed_to_restore target backup)) else (-1, w)

/-- The member function `Fileinfo::makeclone` of the file `target`, with the name of `other`. -/
def makeclone (w : World) (target other : List Char) : Int × World :=
  let (backup, w) := make_temp_file_nearby w target
  if backup.isEmpty then (-1, w)
  else
    -- step 1: rename target to backup
    let (r, w) := sys_rename w target backup
    if r ≠ 0 then
      let w := log_cerr w (Diag.failed_to_rename target backup)
      (-1, (sys_unlink w backup).2)
    else
      -- step 2: perform the clone
      let (r, w) := sys_clonefile w other target
      if r ≠ 0 then makeclone_after_clone_failure w target other backup
      else
        -- step 3: restore the metadata
        let (r, w) := sys_copyfile_metadata w backup target
        if r ≠ 0 then makeclone_after_copyfile_failure w target backup
        else
          -- step 4: cleanup the backup
          let (r, w) := sys_unlink w backup
          if r ≠ 0 then (0, log_cerr w (Diag.warning_failed_to_remove_backup backup))
          else (0, w)

/-- The member function `Fileinfo::is_on_apfs`: `statfs` fails for a path that does not exist. -/
def is_on_apfs (w : World) (name : List Char) : Bool :=
  match w.fs name with
  | none => false
  | some _ => w.on_apfs name

/-- The member function `Fileinfo::get_cow_id`. -/
def get_cow_id (w : World) (name : List Char) : Int :=
  if !is_on_apfs w name then -1
  else
    match w.fs name with
    | some (Node.file f) => f.cow_id
    | _ => -1

/-- The member function `Fileinfo::is_clone_of`. -/
def is_clone_of (w : World) (name other : List Char) : Bool :=
  decide (get_cow_id w name = get_cow_id w other)

/-! ## The actions of `Rdutil.cc` -/

/-- The function `Fileinfo::static_deletefile`. -/
def static_deletefile (w : World) (A _B : Fileinfo cap) : Int × World :=
  deletefile w A.name.data

/-- The function `Fileinfo::static_makesymlink`. -/
def static_makesymlink {ρ : Type} (ops : UndoableUnlinkOps World ρ) (w : World)
    (A B : Fileinfo cap) : Int × World :=
  makesymlink ops w A.name.data B.name.data

/-- The function `Fileinfo::static_makehardlink`. -/
def static_makehardlink {ρ : Type} (ops : UndoableUnlinkOps World ρ) (w : World)
    (A B : Fileinfo cap) : Int × World :=
  makehardlink ops w A.name.data B.name.data

/-- The function `Fileinfo::static_makeclone`. -/
def static_makeclone (w : World) (A B : Fileinfo cap) : Int × World :=
  makeclone w A.name.data B.name.data

/-- The call operator of the class template `dryrun_helper`: writes one line to `std::cout` and
returns 0. -/
def dryrun_helper (outputBname : Bool) (m1 : List Char) (m2 : Option (List Char)) (w : World)
    (A B : Fileinfo cap) : Int × World :=
  let line := "(DRYRUN MODE) ".data ++ m1 ++ A.name.data
  let line := match m2 with
    | some m => line ++ m
    | none => line
  let line := if outputBname then line ++ B.name.data else line
  (0, log_cout w line)

/-- The member function `Rdutil::deleteduplicates`. -/
def deleteduplicates (m_list : List (Fileinfo cap)) (dryrun : Bool) (w : World) :
    Option (Nat × World) :=
  if dryrun then applyactiononfile m_list (dryrun_helper false "delete ".data none) w
  else applyactiononfile m_list static_deletefile w

/-- The member function `Rdutil::makesymlinks`. -/
def makesymlinks {ρ : Type} (ops : UndoableUnlinkOps World ρ) (m_list : List (Fileinfo cap))
    (dryrun : Bool) (w : World) : Option (Nat × World) :=
  if dryrun then
    applyactiononfile m_list (dryrun_helper true "symlink ".data (some " to ".data)) w
  else applyactiononfile m_list (static_makesymlink ops) w

/-- The member function `Rdutil::makehardlinks`. -/
def makehardlinks {ρ : Type} (ops : UndoableUnlinkOps World ρ) (m_list : List (Fileinfo cap))
    (dryrun : Bool) (w : World) : Option (Nat × World) :=
  if dryrun then
    applyactiononfile m_list (dryrun_helper true "hardlink ".data (some " to ".data)) w
  else applyactiononfile m_list (static_makehardlink ops) w

/-- The lambda `clone_op` of `Rdutil::makeclones`; the captured variables
`warned_about_non_apfs` and `already_cloned` are part of the state. -/
def clone_op (s : World × Bool × Nat) (A B : Fileinfo cap) : Int × (World × Bool × Nat) :=
  let (w, warned_about_non_apfs, already_cloned) := s
  if !is_on_apfs w A.name.data || !is_on_apfs w B.name.data then
    if !warned_about_non_apfs then (0, (log_cerr w Diag.warning_not_on_apfs, true, already_cloned))
    else (0, (w, warned_about_non_apfs, already_cloned))
  else if is_clone_of w A.name.data B.name.data then
    (0, (w, warned_about_non_apfs, already_cloned + 1))
  else
    let (r, w) := static_makeclone w A B
    (r, (w, warned_about_non_apfs, already_cloned))

/-- The member function `Rdutil::makeclones`. The difference `cloned - already_cloned` of two
`std::size_t` does not wrap around, because every pair counted in `already_cloned` is counted in
`cloned` (theorem `clone_op_already_le_cloned`). -/
def makeclones (m_list : List (Fileinfo cap)) (dryrun : Bool) (w : World) :
    Option (Nat × World) :=
  if dryrun then
    applyactiononfile m_list (dryrun_helper true "clone ".data (some " from ".data)) w
  else
    match applyactiononfile m_list clone_op (w, false, 0) with
    | none => none
    | some (cloned, (w, _, already_cloned)) =>
        let w :=
          if already_cloned > 0 then
            log_cout w ("Skipped ".data ++ (toString already_cloned).data ++
              " files that were already clones.".data)
          else w
        some (cloned - already_cloned, w)

/-! ## Sample worlds -/

/-- A file system with a directory "dir" holding the original "dir/orig" and its duplicate
"dir/dup": the same bytes, other metadata, other blocks. -/
def sample_fs : List Char → Option Node :=
  fs_set
    (fs_set (fun _ => none) "dir/orig".data
      (some (Node.file { content := [1, 2, 3], metadata := 7, cow_id := 100 })))
    "dir/dup".data (some (Node.file { content := [1, 2, 3], metadata := 9, cow_id := 200 }))

/-- A world with the file system `sample_fs`, the working directory "/home/u", one name for
`mkstemp`, every path on APFS, empty output streams, and the given injected failures. -/
def sample_world (faults : List Bool) : World :=
  { fs := sample_fs, cwd := "/home/u".data, faults := faults, temps := ["abc123".data],
    on_apfs := fun _ => true, cout := [], cerr := [] }

/-- The world `sample_world` in a working directory whose path has 300 characters, more than
the buffer of `makeAbsolute` holds. -/
def deep_world : World :=
  { sample_world [] with cwd := '/' :: List.replicate 299 'd' }

/-- The temporary name of the sample runs of `transactional_operation`: the file name followed
by ".tmp". -/
def sample_tmpname (filename : List Char) : List Char := filename ++ ".tmp".data

/-! ## The steps of `makeclone`, named for the statements -/

/-- The name of the backup file that `makeclone` gets from `make_temp_file_nearby`. -/
def clone_backup (w : World) (target : List Char) : List Char :=
  (make_temp_file_nearby w target).1

/-- Step 1 of `makeclone`, the rename of the target to the backup: return code and world. -/
def clone_step1 (w : World) (target : List Char) : Int × World :=
  sys_rename (make_temp_file_nearby w target).2 target (clone_backup w target)

/-- Step 2 of `makeclone`, the clone from the source: return code and world. -/
def clone_step2 (w : World) (target other : List Char) : Int × World :=
  sys_clonefile (clone_step1 w target).2 other target

/-- The restoring rename of `makeclone` after a failed step 2: return code and world. -/
def clone_restore2 (w : World) (target other : List Char) : Int × World :=
  sys_rename (log_cerr (clone_step2 w target other).2 (Diag.failed_to_clone other target))
    (clone_backup w target) target

/-- Step 3 of `makeclone`, the copy of the metadata: return code and world. -/
def clone_step3 (w : World) (target other : List Char) : Int × World :=
  sys_copyfile_metadata (clone_step2 w target other).2 (clone_backup w target) target

/-- The removal of the clone by `makeclone` after a failed step 3, with its diagnostic: the
world. -/
def clone_remove3 (w : World) (target other : List Char) : World :=
  let r := sys_unlink
    (log_cerr (clone_step3 w target other).2
      (Diag.warning_failed_to_restore_metadata (clone_backup w target) target)) target
  if r.1 ≠ 0 then log_cerr r.2 (Diag.rollback_failed_to_remove_clone target) else r.2

/-- The restoring rename of `makeclone` after a failed step 3: return code and world. -/
def clone_restore3 (w : World) (target other : List Char) : Int × World :=
  sys_rename (clone_remove3 w target other) (clone_backup w target) target

/-- Step 4 of `makeclone`, the deletion of the backup: return code and world. -/
def clone_step4 (w : World) (target other : List Char) : Int × World :=
  sys_unlink (clone_step3 w target other).2 (clone_backup w target)

/-- The record of the original "dir/orig" of `sample_fs`, marked as first occurrence. -/
def orig_record : Fileinfo 2 :=
  (sample_file "dir/orig" 3 1 41 0 1 1 1).setduptype duptype.DUPTYPE_FIRST_OCCURRENCE

/-- The record of the duplicate "dir/dup" of `sample_fs`, marked as duplicate of
`orig_record`. -/
def dup_record : Fileinfo 2 :=
  ((sample_file "dir/dup" 3 1 42 0 2 2 1).setidentity (-1)).setduptype
    duptype.DUPTYPE_WITHIN_SAME_TREE

/-- An action for sample runs of `applyactiononfile`: it records the names of the pair it is
invoked on and fails on the duplicate named "B". -/
def sample_action (trace : List (String × String)) (dup orig : Fileinfo 2) :
    Int × List (String × String) :=
  (if dup.name = "B" then 1 else 0, trace ++ [(dup.name, orig.name)])

/-- The three identical files A, B, C after `markduplicates`. -/
def marked_ABC : List (Fileinfo 2) :=
  [fileA.setduptype duptype.DUPTYPE_FIRST_OCCURRENCE,
    (fileB.setidentity (-1)).setduptype duptype.DUPTYPE_WITHIN_SAME_TREE,
    (fileC.setidentity (-1)).setduptype duptype.DUPTYPE_OUTSIDE_TREE]

/-! ## Totals (`Rdutil.cc`) -/

/-- The value that an arithmetic operation on the signed 64 bit type `filesizetype` leaves for
the exact result `x`: `x` reduced modulo 2^64 to the range from -2^63 to 2^63 - 1. -/
def wrap64 (x : Int) : Int := (x + 2 ^ 63) % 2 ^ 64 - 2 ^ 63

/-- The loop of `Rdutil::totalsizeinbytes` for `opmode == 0`: `totalsize += elem.size()` in the
signed 64 bit type `filesizetype`. -/
def total_all (m_list : List (Fileinfo cap)) : Int :=
  m_list.foldl (fun totalsize elem => wrap64 (totalsize + elem.size)) 0

/-- The loop of `Rdutil::totalsizeinbytes` for `opmode == 1`. -/
def total_first_occurrences (m_list : List (Fileinfo cap)) : Int :=
  m_list.foldl
    (fun totalsize elem =>
      if elem.getduptype = duptype.DUPTYPE_FIRST_OCCURRENCE then
        wrap64 (totalsize + elem.size)
      else totalsize) 0

/-- The loop of `Rdutil::totalsizeinbytes` for `opmode == 2` on the state (`totalsize`,
`unique_blocks`): a record counts if it has no block identity or its block identity is new. -/
def total_cloneaware (w : World) (m_list : List (Fileinfo cap)) : Int × List Int :=
  m_list.foldl
    (fun (s : Int × List Int) elem =>
      let cow_id := get_cow_id w elem.name.data
      if cow_id = -1 then (wrap64 (s.1 + elem.size), s.2)
      else if cow_id ∈ s.2 then s
      else (wrap64 (s.1 + elem.size), cow_id :: s.2)) (0, [])

/-- The member function `Rdutil::totalsizeinbytes`. The flag `have_apfs_cloning` stands for the
macro `HAVE_APFS_CLONING`; a failed assertion on `opmode` gives `none`. -/
def totalsizeinbytes (have_apfs_cloning : Bool) (w : World) (m_list : List (Fileinfo cap))
    (opmode : Int) : Option Int :=
  if ¬ (opmode = 0 ∨ opmode = 1 ∨ (have_apfs_cloning = true ∧ opmode = 2)) then none
  else if opmode = 0 then some (total_all m_list)
  else if opmode = 1 then some (total_first_occurrences m_list)
  else if have_apfs_cloning = true ∧ opmode = 2 then some (total_cloneaware w m_list).1
  else some 0

/-- The member function `Rdutil::saveablespace`: the text written to `out`. The difference is
taken in `filesizetype`. -/
def saveablespace (have_apfs_cloning : Bool) (w : World) (m_list : List (Fileinfo cap)) :
    Option String :=
  match totalsizeinbytes have_apfs_cloning w m_list 0,
    totalsizeinbytes have_apfs_cloning w m_list 1 with
  | some all, some firsts => format_size (wrap64 (all - firsts))
  | _, _ => none

/-- A file of 2^63 - 1 bytes, the greatest value of `filesizetype`. -/
def fileBig : Fileinfo 2 := sample_file "big" 9223372036854775807 1 51 0 1 1 1

/-- A file of one byte. -/
def fileOne : Fileinfo 2 := sample_file "one" 1 1 52 0 1 2 1

/-! ## The other branch of `apply_on_range`, and its sub-ranges -/

/-- The loop of `apply_on_range` in the branch for `linearsearch == true` (not taken, the
constant is `false`): `sublast` runs from `first + 1` to the first element that `*first` is
smaller than, the callback is invoked on the range up to `sublast`, and the loop continues
there. The first argument bounds the number of iterations as in `apply_on_range_loop`. -/
def apply_on_range_linear_loop {α : Type} (cmp : α → α → Bool)
    (callback : List α → Option (List α)) : Nat → List α → Option (List α)
  | _, [] => some []
  | 0, _ :: _ => none
  | fuel + 1, first :: rest =>
      let sublast := (rest.takeWhile (fun e => !cmp first e)).length + 1
      match callback ((first :: rest).take sublast) with
      | none => none
      | some sub =>
          match apply_on_range_linear_loop cmp callback fuel ((first :: rest).drop sublast) with
          | none => none
          | some tail => some (sub ++ tail)

/-- The function template `apply_on_range` with the constant `linearsearch` set to `true`. -/
def apply_on_range_linear {α : Type} (cmp : α → α → Bool)
    (callback : List α → Option (List α)) (l : List α) : Option (List α) :=
  if is_sorted cmp l then apply_on_range_linear_loop cmp callback l.length l else none

/-- The sub-ranges of a sequence: the first one is the first element with the elements behind it
up to the first element that the first element is smaller than; the others are the sub-ranges
of what is left. The first argument bounds the number of sub-ranges. -/
def sub_ranges {α : Type} (cmp : α → α → Bool) : Nat → List α → List (List α)
  | _, [] => []
  | 0, _ :: _ => []
  | fuel + 1, first :: rest =>
      (first :: rest.takeWhile (fun e => !cmp first e)) ::
        sub_ranges cmp fuel (rest.dropWhile (fun e => !cmp first e))

/-- The callback invoked on each of the given ranges in turn: the rewritten ranges one behind
the other, or `none` if an invocation aborts. -/
def invoke_on_each {α : Type} (callback : List α → Option (List α)) :
    List (List α) → Option (List α)
  | [] => some []
  | g :: gs =>
      match callback g with
      | none => none
      | some sub =>
          match invoke_on_each callback gs with
          | none => none
          | some tail => some (sub ++ tail)

/-! ## Filling the sample buffer (`Fileinfo.cc`, `Rdutil.cc`) -/

/-- Modelled from the spec: the enumeration `Fileinfo::readtobuffermode` is declared in
`Fileinfo.hh`, which is not among the sources; the enumerators are the ones that `Fileinfo.cc`
names (section 4.1 of the specification: first bytes, last bytes, or a digest by one of four
algorithms). -/
inductive readtobuffermode where
  | NOT_DEFINED
  | READ_FIRST_BYTES
  | READ_LAST_BYTES
  | CREATE_MD5_CHECKSUM
  | CREATE_SHA1_CHECKSUM
  | CREATE_SHA256_CHECKSUM
  | CREATE_SHA512_CHECKSUM
deriving DecidableEq

/-- Modelled from the spec: the class `Checksum` (`Checksum.hh`) is not among the sources; the
specification takes it as an injected hash primitive. Its interface, as
`Fileinfo::fillwithbytes` uses it, for an object constructed for a mode and updated with all
bytes of a file: `getDigestLength()`, and `printToBuffer(buffer, size)`, which returns its
return code and what it leaves in the buffer. -/
structure ChecksumOps (cap : Nat) where
  /-- The member function `getDigestLength`. -/
  getDigestLength : readtobuffermode → List Nat → Int
  /-- The member function `printToBuffer`. -/
  printToBuffer : readtobuffermode → List Nat →
    { bytes : List Nat // bytes.length = cap } → Int × { bytes : List Nat // bytes.length = cap }

/-- The lines that `Fileinfo::fillwithbytes` writes to `std::cerr`. -/
inductive FillDiag where
  | could_not_open_file (name : String)
  | does_not_know_filltype
  | wrong_answer_from_getDigestLength
  | failed_writing_digest
deriving DecidableEq

/-- The buffer after `m_somebytes.fill(0)`. -/
def zero_buffer : { bytes : List Nat // bytes.length = cap } :=
  ⟨List.replicate cap 0, List.length_replicate cap 0⟩

/-- The buffer after `f1.read(m_somebytes.data(), SomeByteSize)` into the zero-filled buffer, for
a stream that has the given bytes ahead: the first `cap` of them, then zeros. -/
def read_to_buffer (ahead : List Nat) : { bytes : List Nat // bytes.length = cap } :=
  ⟨ahead.take cap ++ List.replicate (cap - (ahead.take cap).length) 0, by
    have h : (ahead.take cap).length ≤ cap := by
      rw [List.length_take]
      exact Nat.min_le_left _ _
    rw [List.length_append, List.length_replicate]
    omega⟩

/-- The member function `Fileinfo::fillwithbytes`: returns its return value, the record and the
lines written to `std::cerr`. The files are given by `disk`: the bytes of a file that can be
opened, `none` for a file that cannot. In the mode `READ_LAST_BYTES` the call
`seekg(-SomeByteSize, end)` fails for a file shorter than the buffer, and the `read` on the
failed stream reads nothing. An enumerator without a `case` takes the `default` branch. -/
def Fileinfo.fillwithbytes (f : Fileinfo cap) (disk : String → Option (List Nat))
    (chk : ChecksumOps cap) (filltype lasttype : readtobuffermode) :
    Int × Fileinfo cap × List FillDiag :=
  if lasttype ≠ readtobuffermode.NOT_DEFINED ∧ f.size ≤ (cap : Int) then (0, f, [])
  else
    let f := { f with somebytes := zero_buffer }
    match disk f.name with
    | none => (-1, f, [FillDiag.could_not_open_file f.name])
    | some content =>
        match filltype with
        | readtobuffermode.READ_FIRST_BYTES =>
            (0, { f with somebytes := read_to_buffer content }, [])
        | readtobuffermode.READ_LAST_BYTES =>
            if content.length < cap then (0, f, [])
            else
              (0, { f with somebytes := read_to_buffer (content.drop (content.length - cap)) },
                [])
        | readtobuffermode.NOT_DEFINED => (0, f, [FillDiag.does_not_know_filltype])
        | checksumtype =>
            let digestlength := chk.getDigestLength checksumtype content
            let log1 :=
              if digestlength ≤ 0 ∨ digestlength ≥ (cap : Int) then
                [FillDiag.wrong_answer_from_getDigestLength]
              else []
            let r := chk.printToBuffer checksumtype content f.somebytes
            let log2 := if r.1 ≠ 0 then [FillDiag.failed_writing_digest] else []
            (0, { f with somebytes := r.2 }, log1 ++ log2)

/-- The member function `Rdutil::sortOnDeviceAndInode`. -/
def sortOnDeviceAndInode (sort : SortFn (Fileinfo cap)) (m_list : List (Fileinfo cap)) :
    Int × List (Fileinfo cap) :=
  (0, sort cmpDeviceInode m_list)

/-- The member function `Rdutil::fillwithbytes`: sorts on device and inode and fills the buffer
of every record, one after the other; the return value of `Fileinfo::fillwithbytes` is not
looked at. Returns 0, the list and the lines written to `std::cerr`. The pause of `nsecsleep`
nanoseconds between two files is left out. -/
def fillwithbytes (sort : SortFn (Fileinfo cap)) (disk : String → Option (List Nat))
    (chk : ChecksumOps cap) (type lasttype : readtobuffermode)
    (m_list : List (Fileinfo cap)) : Int × List (Fileinfo cap) × List FillDiag :=
  let m_list := (sortOnDeviceAndInode sort m_list).2
  let filled := m_list.map (fun elem => elem.fillwithbytes disk chk type lasttype)
  (0, filled.map (fun r => r.2.1), (filled.map (fun r => r.2.2)).flatten)

/-- A checksum for sample runs: the digest is the first byte of the file (0 for an empty file),
written to the first byte of the buffer. -/
def sample_checksum : ChecksumOps 2 where
  getDigestLength := fun _ _ => 1
  printToBuffer := fun _ content _ => (0, read_to_buffer (content.take 1))

/-- A file of 10 bytes that cannot be opened; its buffer holds stale bytes. -/
def fileU1 : Fileinfo 2 := sample_file "u1" 10 1 41 0 1 1 5

/-- A second file of 10 bytes that cannot be opened. -/
def fileU2 : Fileinfo 2 := sample_file "u2" 10 1 42 0 1 2 6

/-- A disk on which neither "u1" nor "u2" can be opened. -/
def disk_unreadable : String → Option (List Nat) := fun _ => none

/-- A disk on which "u1" holds ten bytes 1 and "u2" ten bytes 2. -/
def disk_readable : String → Option (List Nat) := fun name =>
  if name = "u1" then some (List.replicate 10 1)
  else if name = "u2" then some (List.replicate 10 2)
  else none

/-! ## Vocabulary for the counts of the applier -/

/-- The return codes of the invocations of `f` on the pairs of a list in turn, each invocation
starting in the state that the one before it left. -/
def return_codes {σ : Type} (f : σ → Fileinfo cap → Fileinfo cap → Int × σ) :
    σ → List (Fileinfo cap × Fileinfo cap) → List Int
  | _, [] => []
  | w, (dup, orig) :: rest => (f w dup orig).1 :: return_codes f (f w dup orig).2 rest

/-- The test of `clone_op` "both files are on APFS and the duplicate is a clone of the original
already" in the state `s`. -/
def already_a_clone (s : World × Bool × Nat) (A B : Fileinfo cap) : Bool :=
  is_on_apfs s.1 A.name.data && is_on_apfs s.1 B.name.data &&
    is_clone_of s.1 A.name.data B.name.data

/-- The number of the invocations of `clone_op` on the pairs of a list in turn that find the
duplicate to be a clone of the original already. -/
def clone_skips : World × Bool × Nat → List (Fileinfo cap × Fileinfo cap) → Nat
  | _, [] => 0
  | s, (A, B) :: rest =>
      (if already_a_clone s A B then 1 else 0) + clone_skips (clone_op s A B).2 rest

/-! ## Theorems: strict weak orders and sorted ranges -/

section Generic

variable {α : Type} {cmp : α → α → Bool}

theorem StrictWeakOrder.asymm (h : StrictWeakOrder cmp) {a b : α} (hab : cmp a b = true) :
    cmp b a = false := by
  by_contra hba
  have hba2 : cmp b a = true := by simpa using hba
  have := h.trans a b a hab hba2
  rw [h.irrefl a] at this
  exact Bool.false_ne_true this

/-- Negative transitivity: "not smaller" composes. -/
theorem StrictWeakOrder.neg_trans (h : StrictWeakOrder cmp) {a b c : α}
    (hab : cmp a b = false) (hbc : cmp b c = false) : cmp a c = false := by
  by_contra hac
  have hac2 : cmp a c = true := by simpa using hac
  cases hba : cmp b a with
  | true =>
      have := h.trans b a c hba hac2
      rw [hbc] at this
      exact Bool.false_ne_true this
  | false =>
      cases hcb : cmp c b with
      | true =>
          have := h.trans a c b hac2 hcb
          rw [hab] at this
          exact Bool.false_ne_true this
      | false =>
          have := (h.incomp_trans a b c hab hba hbc hcb).1
          rw [hac2] at this
          exact Bool.false_ne_true this.symm

theorem is_sorted_iff_pairwise (h : StrictWeakOrder cmp) (l : List α) :
    is_sorted cmp l = true ↔ l.Pairwise (fun a b => cmp b a = false) := by
  induction l with
  | nil => simp [is_sorted]
  | cons a t ih =>
      cases t with
      | nil => simp [is_sorted]
      | cons b rest =>
          rw [is_sorted, Bool.and_eq_true, ih]
          constructor
          · rintro ⟨hba, hp⟩
            refine List.pairwise_cons.2 ⟨?_, hp⟩
            have hba2 : cmp b a = false := by simpa using hba
            intro x hx
            rcases List.mem_cons.1 hx with rfl | hx
            · exact hba2
            · exact h.neg_trans ((List.pairwise_cons.1 hp).1 x hx) hba2
          · intro hp
            obtain ⟨hall, hp2⟩ := List.pairwise_cons.1 hp
            refine ⟨?_, hp2⟩
            simp [hall b (List.mem_cons_self _ _)]

theorem take_length_takeWhile (p : α → Bool) (l : List α) :
    l.take (l.takeWhile p).length = l.takeWhile p := by
  induction l with
  | nil => simp
  | cons a t ih =>
      by_cases hp : p a = true
      · simp [List.takeWhile_cons, hp, ih]
      · simp [List.takeWhile_cons, hp]

theorem drop_length_takeWhile (p : α → Bool) (l : List α) :
    l.drop (l.takeWhile p).length = l.dropWhile p := by
  induction l with
  | nil => simp
  | cons a t ih =>
      by_cases hp : p a = true
      · simp [List.takeWhile_cons, List.dropWhile_cons, hp, ih]
      · simp [List.takeWhile_cons, List.dropWhile_cons, hp]

/-- One iteration of the loop of `apply_on_range` for an irreflexive comparator: the range handed
to the callback is the longest prefix of elements not greater than the first one. -/
theorem apply_on_range_loop_step (hirr : ∀ a, cmp a a = false)
    (callback : List α → Option (List α)) (fuel : Nat) (first : α) (rest : List α) :
    apply_on_range_loop cmp callback (fuel + 1) (first :: rest) =
      (callback ((first :: rest).takeWhile (fun e => !cmp first e))).bind (fun sub =>
        (apply_on_range_loop cmp callback fuel
          ((first :: rest).dropWhile (fun e => !cmp first e))).map (fun tail => sub ++ tail)) := by
  have hlow : (equal_range cmp (first :: rest) first).1 = 0 := by
    simp [equal_range, lower_bound, List.takeWhile_cons, hirr]
  have hup : (equal_range cmp (first :: rest) first).2 =
      ((first :: rest).takeWhile (fun e => !cmp first e)).length := rfl
  rw [apply_on_range_loop]
  simp only [hlow, hup, take_length_takeWhile, drop_length_takeWhile, ne_eq, not_true,
    if_false]
  cases callback ((first :: rest).takeWhile (fun e => !cmp first e)) with
  | none => rfl
  | some sub =>
      cases apply_on_range_loop cmp callback fuel
          ((first :: rest).dropWhile (fun e => !cmp first e)) with
      | none => rfl
      | some tail => rfl

/-- The shape of a sorted non-empty range: the prefix handed to the callback consists of the
elements equivalent to the first one, and every element behind it is greater than every element
of the prefix. -/
theorem sorted_head_range (h : StrictWeakOrder cmp) (first : α) (rest : List α)
    (hs : (first :: rest).Pairwise (fun a b => cmp b a = false)) :
    first ∈ (first :: rest).takeWhile (fun e => !cmp first e) ∧
    (∀ a ∈ (first :: rest).takeWhile (fun e => !cmp first e),
      ∀ b ∈ (first :: rest).takeWhile (fun e => !cmp first e), cmp a b = false) ∧
    (∀ a ∈ (first :: rest).takeWhile (fun e => !cmp first e),
      ∀ b ∈ (first :: rest).dropWhile (fun e => !cmp first e), cmp a b = true) := by
  have hsplit := List.takeWhile_append_dropWhile (fun e => !cmp first e) (first :: rest)
  have hfirst : first ∈ (first :: rest).takeWhile (fun e => !cmp first e) := by
    simp [List.takeWhile_cons, h.irrefl]
  -- every element of the prefix is equivalent to `first`
  have hpre : ∀ a ∈ (first :: rest).takeWhile (fun e => !cmp first e),
      cmp first a = false ∧ cmp a first = false := by
    intro a ha
    have h1 : cmp first a = false := by simpa using List.mem_takeWhile_imp ha
    refine ⟨h1, ?_⟩
    have hmem : a ∈ first :: rest := List.takeWhile_subset _ ha
    rcases List.mem_cons.1 hmem with rfl | hr
    · exact h.irrefl _
    · exact (List.pairwise_cons.1 hs).1 a hr
  -- every element behind the prefix is greater than `first`
  have hpost : ∀ b ∈ (first :: rest).dropWhile (fun e => !cmp first e), cmp first b = true := by
    intro b hb
    cases hd : (first :: rest).dropWhile (fun e => !cmp first e) with
    | nil => rw [hd] at hb; cases hb
    | cons x xs =>
        have hx : cmp first x = true := by
          have := List.head_dropWhile_not (fun e => !cmp first e) (first :: rest)
            (by rw [hd]; simp)
          simp only [hd, List.head_cons] at this
          simpa using this
        rw [hd] at hb
        rcases List.mem_cons.1 hb with rfl | hbx
        · exact hx
        · have hsd : ((first :: rest).dropWhile (fun e => !cmp first e)).Pairwise
              (fun a b => cmp b a = false) :=
            hs.sublist (List.dropWhile_sublist _)
          rw [hd] at hsd
          have hbx2 : cmp b x = false := (List.pairwise_cons.1 hsd).1 b hbx
          by_contra hcon
          have hcon2 : cmp first b = false := by simpa using hcon
          have := h.neg_trans hcon2 hbx2
          rw [hx] at this
          exact Bool.false_ne_true this.symm
  refine ⟨hfirst, ?_, ?_⟩
  · intro a ha b hb
    exact h.neg_trans (hpre a ha).2 (hpre b hb).1
  · intro a ha b hb
    by_contra hcon
    have hcon2 : cmp a b = false := by simpa using hcon
    have := h.neg_trans (hpre a ha).1 hcon2
    rw [hpost b hb] at this
    exact Bool.false_ne_true this.symm

/-- The loop of `apply_on_range` on a sorted list, when the callback succeeds on every range:
the loop returns, and its result replaces each range by the result of the callback. -/
theorem apply_on_range_loop_ranges (h : StrictWeakOrder cmp)
    (callback : List α → Option (List α)) (R : List α → List α → Prop) (fuel : Nat) :
    ∀ l : List α, l.length ≤ fuel → l.Pairwise (fun a b => cmp b a = false) →
      (∀ g, IsRange cmp l g → ∃ g', callback g = some g' ∧ R g g') →
      ∃ out, apply_on_range_loop cmp callback fuel l = some out ∧ Ranges cmp R l out := by
  induction fuel with
  | zero =>
      intro l hl _ _
      have : l = [] := List.length_eq_zero.1 (Nat.le_zero.1 hl)
      subst this
      exact ⟨[], rfl, Ranges.nil⟩
  | succ fuel ih =>
      intro l hl hs hcb
      cases l with
      | nil => exact ⟨[], rfl, Ranges.nil⟩
      | cons first rest =>
          obtain ⟨hfirst, hequiv, hsep⟩ := sorted_head_range h first rest hs
          have hsplit := List.takeWhile_append_dropWhile (fun e => !cmp first e) (first :: rest)
          rw [apply_on_range_loop_step h.irrefl]
          generalize hg : (first :: rest).takeWhile (fun e => !cmp first e) = g at *
          generalize hr : (first :: rest).dropWhile (fun e => !cmp first e) = r at *
          have hgne : g ≠ [] := List.ne_nil_of_mem hfirst
          have hrange : IsRange cmp (first :: rest) g :=
            ⟨hgne, hequiv, [], r, by simpa using hsplit.symm, by simp, hsep⟩
          obtain ⟨g', hg', hRg⟩ := hcb g hrange
          have hlen : r.length ≤ fuel := by
            have h1 : g.length + r.length = (first :: rest).length := by
              rw [← hsplit, List.length_append]
            have h2 : 0 < g.length := List.length_pos.2 hgne
            omega
          have hsr : r.Pairwise (fun a b => cmp b a = false) := by
            rw [← hsplit] at hs
            exact (List.pairwise_append.1 hs).2.1
          have hcbr : ∀ g2, IsRange cmp r g2 → ∃ g2', callback g2 = some g2' ∧ R g2 g2' := by
            intro g2 hg2
            apply hcb g2
            obtain ⟨hne2, heq2, pre, post, hrr, hpre, hpost⟩ := hg2
            refine ⟨hne2, heq2, g ++ pre, post, ?_, ?_, hpost⟩
            · rw [← hsplit, hrr]; simp
            · intro a ha b hb
              rcases List.mem_append.1 ha with ha | ha
              · apply hsep a ha b
                rw [hrr]; simp [hb]
              · exact hpre a ha b hb
          obtain ⟨out, hout, hRanges⟩ := ih r hlen hsr hcbr
          refine ⟨g' ++ out, ?_, ?_⟩
          · rw [hg', hout]; rfl
          · rw [← hsplit]
            exact Ranges.cons g r g' out hgne hequiv hsep hRg hRanges

/-- The function `apply_on_range` on a sorted list, when the callback succeeds on every range. -/
theorem apply_on_range_ranges (h : StrictWeakOrder cmp)
    (callback : List α → Option (List α)) (R : List α → List α → Prop) (l : List α)
    (hs : is_sorted cmp l = true)
    (hcb : ∀ g, IsRange cmp l g → ∃ g', callback g = some g' ∧ R g g') :
    ∃ out, apply_on_range cmp callback l = some out ∧ Ranges cmp R l out := by
  unfold apply_on_range
  rw [if_pos hs]
  exact apply_on_range_loop_ranges h callback R l.length l (le_refl _)
    ((is_sorted_iff_pairwise h l).1 hs) hcb

theorem Ranges.length_eq {R : List α → List α → Prop} {l out : List α}
    (hR : ∀ g g', R g g' → g'.length = g.length) (h : Ranges cmp R l out) :
    out.length = l.length := by
  induction h with
  | nil => rfl
  | cons g r g' r' _ _ _ hg _ ih => simp [List.length_append, hR g g' hg, ih]

theorem Ranges.mono {R S : List α → List α → Prop} {l out : List α}
    (hRS : ∀ g g', g ≠ [] → (∀ a ∈ g, ∀ b ∈ g, cmp a b = false) → R g g' → S g g')
    (h : Ranges cmp R l out) : Ranges cmp S l out := by
  induction h with
  | nil => exact Ranges.nil
  | cons g r g' r' h1 h2 h3 hg _ ih => exact Ranges.cons g r g' r' h1 h2 h3 (hRS g g' h1 h2 hg) ih

end Generic

/-! ## Theorems: the comparators -/

theorem memcmp_self (a : List Nat) (n : Nat) : memcmp a a n = 0 := by
  induction a generalizing n with
  | nil => cases n <;> simp [memcmp]
  | cons x xs ih =>
      cases n with
      | zero => simp [memcmp]
      | succ n => simp [memcmp, ih]

theorem memcmp_eq_zero (n : Nat) :
    ∀ a b : List Nat, a.length = n → b.length = n → memcmp a b n = 0 → a = b := by
  induction n with
  | zero =>
      intro a b ha hb _
      rw [List.length_eq_zero.1 ha, List.length_eq_zero.1 hb]
  | succ n ih =>
      intro a b ha hb h
      cases a with
      | nil => simp at ha
      | cons x xs =>
          cases b with
          | nil => simp at hb
          | cons y ys =>
              simp only [memcmp] at h
              by_cases h1 : x < y
              · simp [h1] at h
              · by_cases h2 : y < x
                · simp [h1, h2] at h
                · simp only [h1, h2, if_false] at h
                  have hxy : x = y := by omega
                  have := ih xs ys (by simpa using ha) (by simpa using hb) h
                  rw [hxy, this]

theorem memcmp_neg_swap (n : Nat) :
    ∀ a b : List Nat, memcmp a b n < 0 → 0 < memcmp b a n := by
  induction n with
  | zero => intro a b h; simp [memcmp] at h
  | succ n ih =>
      intro a b h
      cases a with
      | nil => simp [memcmp] at h
      | cons x xs =>
          cases b with
          | nil => simp [memcmp] at h
          | cons y ys =>
              simp only [memcmp] at h ⊢
              by_cases h1 : x < y
              · have h2 : ¬ y < x := by omega
                simp [h1, h2]
              · by_cases h2 : y < x
                · simp [h1, h2] at h
                · simp only [h1, h2, if_false] at h ⊢
                  exact ih xs ys h

theorem memcmp_pos_swap (n : Nat) :
    ∀ a b : List Nat, 0 < memcmp a b n → memcmp b a n < 0 := by
  induction n with
  | zero => intro a b h; simp [memcmp] at h
  | succ n ih =>
      intro a b h
      cases a with
      | nil => simp [memcmp] at h
      | cons x xs =>
          cases b with
          | nil => simp [memcmp] at h
          | cons y ys =>
              simp only [memcmp] at h ⊢
              by_cases h1 : x < y
              · simp [h1] at h
              · by_cases h2 : y < x
                · simp [h2]
                · simp only [h1, h2, if_false] at h ⊢
                  exact ih xs ys h

theorem memcmp_neg_trans (n : Nat) :
    ∀ a b c : List Nat, memcmp a b n < 0 → memcmp b c n < 0 → memcmp a c n < 0 := by
  induction n with
  | zero => intro a b c h; simp [memcmp] at h
  | succ n ih =>
      intro a b c hab hbc
      cases a with
      | nil => simp [memcmp] at hab
      | cons x xs =>
          cases b with
          | nil => simp [memcmp] at hab
          | cons y ys =>
              cases c with
              | nil => simp [memcmp] at hbc
              | cons z zs =>
                  simp only [memcmp] at hab hbc ⊢
                  by_cases h1 : x < y
                  · by_cases h3 : y < z
                    · have : x < z := by omega
                      simp [this]
                    · by_cases h4 : z < y
                      · simp [h3, h4] at hbc
                      · have : x < z := by omega
                        simp [this]
                  · by_cases h2 : y < x
                    · simp [h1, h2] at hab
                    · simp only [h1, h2, if_false] at hab
                      have hxy : x = y := by omega
                      subst hxy
                      by_cases h3 : x < z
                      · simp [h3]
                      · by_cases h4 : z < x
                        · simp [h3, h4] at hbc
                        · simp only [h3, h4, if_false] at hbc ⊢
                          exact ih xs ys zs hab hbc

section Comparators

variable {cap : Nat}

theorem Fileinfo.somebytes_ext {a b : Fileinfo cap} (h : a.getbyteptr = b.getbyteptr) :
    a.somebytes = b.somebytes := Subtype.ext h

theorem hasEqualBuffers_iff (a b : Fileinfo cap) :
    hasEqualBuffers a b = true ↔ a.somebytes = b.somebytes := by
  unfold hasEqualBuffers Fileinfo.getbuffersize
  rw [decide_eq_true_iff]
  constructor
  · intro h
    exact Fileinfo.somebytes_ext (memcmp_eq_zero cap _ _ a.somebytes.2 b.somebytes.2 h)
  · intro h
    unfold Fileinfo.getbyteptr
    rw [h]
    exact memcmp_self _ _

theorem cmpBuffers_irrefl (a : Fileinfo cap) : cmpBuffers a a = false := by
  unfold cmpBuffers
  rw [memcmp_self]
  decide

theorem cmpBuffers_trans (a b c : Fileinfo cap) (hab : cmpBuffers a b = true)
    (hbc : cmpBuffers b c = true) : cmpBuffers a c = true := by
  unfold cmpBuffers Fileinfo.getbuffersize at *
  rw [decide_eq_true_iff] at *
  exact memcmp_neg_trans cap _ _ _ hab hbc

/-- Two records that `cmpBuffers` does not order have the same sample buffer. -/
theorem cmpBuffers_incomp (a b : Fileinfo cap) (hab : cmpBuffers a b = false)
    (hba : cmpBuffers b a = false) : a.somebytes = b.somebytes := by
  unfold cmpBuffers Fileinfo.getbuffersize at *
  rw [decide_eq_false_iff_not] at *
  apply Fileinfo.somebytes_ext
  apply memcmp_eq_zero cap _ _ a.somebytes.2 b.somebytes.2
  show memcmp a.getbyteptr b.getbyteptr cap = 0
  have h1 : ¬ 0 < memcmp a.getbyteptr b.getbyteptr cap := fun h =>
    hba (memcmp_pos_swap cap _ _ h)
  omega

/-- The comparator `cmpBuffers` reads nothing but the sample buffers. -/
theorem cmpBuffers_congr (a a2 b b2 : Fileinfo cap) (ha : a.somebytes = a2.somebytes)
    (hb : b.somebytes = b2.somebytes) : cmpBuffers a b = cmpBuffers a2 b2 := by
  unfold cmpBuffers Fileinfo.getbuffersize Fileinfo.getbyteptr
  rw [ha, hb]

theorem cmpBuffers_swo : StrictWeakOrder (cmpBuffers : Fileinfo cap → Fileinfo cap → Bool) where
  irrefl := cmpBuffers_irrefl
  trans := cmpBuffers_trans
  incomp_trans := by
    intro a b c hab hba hbc hcb
    have e1 := cmpBuffers_incomp a b hab hba
    have e2 := cmpBuffers_incomp b c hbc hcb
    have e3 : a.somebytes = c.somebytes := e1.trans e2
    constructor
    · rw [cmpBuffers_congr a c c c e3 rfl]; exact cmpBuffers_irrefl c
    · rw [cmpBuffers_congr c c a c rfl e3]; exact cmpBuffers_irrefl c

theorem cmpSize_swo : StrictWeakOrder (cmpSize : Fileinfo cap → Fileinfo cap → Bool) where
  irrefl := by intro a; simp [cmpSize]
  trans := by
    intro a b c hab hbc
    simp only [cmpSize, decide_eq_true_iff] at *
    omega
  incomp_trans := by
    intro a b c hab hba hbc hcb
    simp only [cmpSize, decide_eq_false_iff_not] at *
    omega

theorem cmpDeviceInode_swo :
    StrictWeakOrder (cmpDeviceInode : Fileinfo cap → Fileinfo cap → Bool) where
  irrefl := by intro a; simp [cmpDeviceInode]
  trans := by
    intro a b c hab hbc
    simp only [cmpDeviceInode, decide_eq_true_iff] at *
    omega
  incomp_trans := by
    intro a b c hab hba hbc hcb
    simp only [cmpDeviceInode, decide_eq_false_iff_not] at *
    omega

theorem cmpRank_irrefl (a : Fileinfo cap) : cmpRank a a = false := by
  simp [cmpRank]

theorem cmpRank_trans (a b c : Fileinfo cap) (hab : cmpRank a b = true)
    (hbc : cmpRank b c = true) : cmpRank a c = true := by
  simp only [cmpRank, decide_eq_true_iff] at *
  omega

theorem cmpRank_total (a b : Fileinfo cap) (hid : a.getidentity ≠ b.getidentity) :
    cmpRank a b = true ∨ cmpRank b a = true := by
  simp only [cmpRank, decide_eq_true_iff]
  omega

theorem cmpRank_swo : StrictWeakOrder (cmpRank : Fileinfo cap → Fileinfo cap → Bool) where
  irrefl := cmpRank_irrefl
  trans := cmpRank_trans
  incomp_trans := by
    intro a b c hab hba hbc hcb
    simp only [cmpRank, decide_eq_false_iff_not] at *
    omega

theorem cmpSize_incomp (a b : Fileinfo cap) (hab : cmpSize a b = false)
    (hba : cmpSize b a = false) : a.size = b.size := by
  simp only [cmpSize, decide_eq_false_iff_not] at *
  omega

theorem cmpDeviceInode_incomp (a b : Fileinfo cap) (hab : cmpDeviceInode a b = false)
    (hba : cmpDeviceInode b a = false) : a.device = b.device ∧ a.inode = b.inode := by
  simp only [cmpDeviceInode, decide_eq_false_iff_not] at *
  omega

theorem cmpSizeThenBuffer_true_iff (a b : Fileinfo cap) :
    cmpSizeThenBuffer a b = true ↔
      a.size < b.size ∨ (a.size = b.size ∧ cmpBuffers a b = true) := by
  simp [cmpSizeThenBuffer]

theorem cmpSizeThenBuffer_false_iff (a b : Fileinfo cap) :
    cmpSizeThenBuffer a b = false ↔
      ¬ a.size < b.size ∧ (a.size = b.size → cmpBuffers a b = false) := by
  rw [← Bool.not_eq_true, cmpSizeThenBuffer_true_iff]
  constructor
  · intro h
    refine ⟨fun h1 => h (Or.inl h1), fun h2 => ?_⟩
    cases hc : cmpBuffers a b with
    | false => rfl
    | true => exact absurd (Or.inr ⟨h2, hc⟩) h
  · rintro ⟨h1, h2⟩ h
    rcases h with h | ⟨h3, h4⟩
    · exact h1 h
    · rw [h2 h3] at h4; exact Bool.false_ne_true h4

/-- Two records that `cmpSizeThenBuffer` does not order have the same size and the same sample
buffer. -/
theorem cmpSizeThenBuffer_incomp (a b : Fileinfo cap) (hab : cmpSizeThenBuffer a b = false)
    (hba : cmpSizeThenBuffer b a = false) : a.size = b.size ∧ a.somebytes = b.somebytes := by
  rw [cmpSizeThenBuffer_false_iff] at hab hba
  have hs : a.size = b.size := by omega
  exact ⟨hs, cmpBuffers_incomp a b (hab.2 hs) (hba.2 hs.symm)⟩

theorem cmpSizeThenBuffer_of_eq (a b : Fileinfo cap) (hs : a.size = b.size)
    (hb : a.somebytes = b.somebytes) : cmpSizeThenBuffer a b = false := by
  rw [cmpSizeThenBuffer_false_iff]
  refine ⟨by omega, fun _ => ?_⟩
  rw [cmpBuffers_congr a b b b hb rfl]
  exact cmpBuffers_irrefl b

theorem cmpSizeThenBuffer_swo :
    StrictWeakOrder (cmpSizeThenBuffer : Fileinfo cap → Fileinfo cap → Bool) where
  irrefl := fun a => cmpSizeThenBuffer_of_eq a a rfl rfl
  trans := by
    intro a b c hab hbc
    rw [cmpSizeThenBuffer_true_iff] at *
    rcases hab with h1 | ⟨h1, h2⟩
    · rcases hbc with h3 | ⟨h3, _⟩
      · left; omega
      · left; omega
    · rcases hbc with h3 | ⟨h3, h4⟩
      · left; omega
      · right; exact ⟨by omega, cmpBuffers_trans a b c h2 h4⟩
  incomp_trans := by
    intro a b c hab hba hbc hcb
    obtain ⟨s1, b1⟩ := cmpSizeThenBuffer_incomp a b hab hba
    obtain ⟨s2, b2⟩ := cmpSizeThenBuffer_incomp b c hbc hcb
    exact ⟨cmpSizeThenBuffer_of_eq a c (s1.trans s2) (b1.trans b2),
      cmpSizeThenBuffer_of_eq c a (s1.trans s2).symm (b1.trans b2).symm⟩

end Comparators

/-! ## Theorems: sorting and cleanup -/

section Sorting

variable {α : Type} {cmp : α → α → Bool}

theorem sorted_insert_perm (cmp : α → α → Bool) (x : α) (l : List α) :
    (sorted_insert cmp x l).Perm (x :: l) := by
  induction l with
  | nil => exact List.Perm.refl _
  | cons y ys ih =>
      unfold sorted_insert
      by_cases h : cmp y x = true
      · rw [if_pos h]
        exact (List.Perm.cons y ih).trans (List.Perm.swap x y ys)
      · rw [if_neg h]

theorem insertion_sort_perm (cmp : α → α → Bool) (l : List α) :
    (insertion_sort cmp l).Perm l := by
  induction l with
  | nil => exact List.Perm.refl _
  | cons x xs ih =>
      unfold insertion_sort
      exact (sorted_insert_perm cmp x _).trans (List.Perm.cons x ih)

theorem sorted_insert_pairwise (h : StrictWeakOrder cmp) (x : α) (l : List α)
    (hl : l.Pairwise (fun a b => cmp b a = false)) :
    (sorted_insert cmp x l).Pairwise (fun a b => cmp b a = false) := by
  induction l with
  | nil => simp [sorted_insert]
  | cons y ys ih =>
      obtain ⟨hy, hys⟩ := List.pairwise_cons.1 hl
      unfold sorted_insert
      by_cases hc : cmp y x = true
      · rw [if_pos hc]
        refine List.pairwise_cons.2 ⟨?_, ih hys⟩
        intro z hz
        rcases List.mem_cons.1 ((sorted_insert_perm cmp x ys).subset hz) with rfl | hz
        · exact h.asymm hc
        · exact hy z hz
      · rw [if_neg hc]
        have hc2 : cmp y x = false := by simpa using hc
        refine List.pairwise_cons.2 ⟨?_, hl⟩
        intro z hz
        rcases List.mem_cons.1 hz with rfl | hz
        · exact hc2
        · exact h.neg_trans (hy z hz) hc2

/-- The function `insertion_sort` meets the contract of `std::sort`. -/
theorem insertion_sort_isStdSort : IsStdSort (insertion_sort : SortFn α) where
  perm := fun cmp l _ => insertion_sort_perm cmp l
  sorted := by
    intro cmp l h
    rw [is_sorted_iff_pairwise h]
    induction l with
    | nil => simp [insertion_sort]
    | cons x xs ih =>
        unfold insertion_sort
        exact sorted_insert_pairwise h x _ ih

end Sorting

section Cleanup

variable {cap : Nat}

theorem take_succ_set {α : Type} (x : α) :
    ∀ (v : List α) (n : Nat), n < v.length → (v.set n x).take (n + 1) = v.take n ++ [x] := by
  intro v
  induction v with
  | nil => intro n hn; simp at hn
  | cons a t ih =>
      intro n hn
      cases n with
      | zero => simp
      | succ n =>
          have hn2 : n < t.length := by simpa using hn
          simp [ih n hn2]

/-- What `std::remove_if` keeps before the position it returns, loop part. -/
theorem remove_if_loop_spec {α : Type} (pred : α → Bool) :
    ∀ (unread v : List α) (first : Nat), first + unread.length ≤ v.length →
      (remove_if_loop pred v first unread).1.take (remove_if_loop pred v first unread).2 =
        v.take first ++ unread.filter (fun e => !pred e) ∧
      (remove_if_loop pred v first unread).1.length = v.length ∧
      (remove_if_loop pred v first unread).2 ≤ v.length := by
  intro unread
  induction unread with
  | nil =>
      intro v first h
      simp only [remove_if_loop, List.filter_nil, List.append_nil, true_and]
      simpa using h
  | cons x unread ih =>
      intro v first h
      have hlen : first + unread.length + 1 ≤ v.length := by simpa [Nat.add_assoc] using h
      rw [remove_if_loop]
      by_cases hp : pred x = true
      · simp only [hp, Bool.not_true, Bool.false_eq_true, if_false]
        obtain ⟨h1, h2, h3⟩ := ih v first (by omega)
        refine ⟨?_, h2, h3⟩
        rw [h1]
        simp [List.filter_cons, hp]
      · have hp2 : pred x = false := by simpa using hp
        simp only [hp2, Bool.not_false, if_true]
        obtain ⟨h1, h2, h3⟩ := ih (v.set first x) (first + 1) (by simp; omega)
        refine ⟨?_, by simpa using h2, by simpa using h3⟩
        rw [h1, take_succ_set x v first (by omega)]
        simp [List.filter_cons, hp2]

/-- The elements that `std::remove_if` leaves before the position it returns are the elements
for which the predicate is false, in the order of the input. -/
theorem remove_if_spec {α : Type} (pred : α → Bool) (l : List α) :
    erase_to_end (remove_if pred l).1 (remove_if pred l).2 = l.filter (fun e => !pred e) := by
  unfold erase_to_end remove_if
  simp only []
  have hsplit := List.takeWhile_append_dropWhile (fun e => !pred e) l
  by_cases hfull : (l.takeWhile (fun e => !pred e)).length = l.length
  · rw [if_pos hfull]
    simp only []
    rw [hfull, List.take_length]
    have hd : l.dropWhile (fun e => !pred e) = [] := by
      have := congrArg List.length hsplit
      rw [List.length_append, hfull] at this
      exact List.length_eq_zero.1 (by omega)
    rw [hd, List.append_nil] at hsplit
    symm
    rw [List.filter_eq_self]
    intro a ha
    rw [← hsplit] at ha
    exact List.mem_takeWhile_imp (p := fun e => !pred e) ha
  · rw [if_neg hfull]
    cases hd : l.dropWhile (fun e => !pred e) with
    | nil =>
        rw [hd, List.append_nil] at hsplit
        exact absurd (congrArg List.length hsplit) hfull
    | cons y rest =>
        have hy : pred y = true := by
          have hmem : (l.dropWhile (fun e => !pred e)).head? = some y := by rw [hd]; rfl
          have := List.head?_dropWhile_not (fun e => !pred e) l
          rw [hmem] at this
          simpa using this
        have hdrop : l.drop ((l.takeWhile (fun e => !pred e)).length + 1) = rest := by
          rw [← List.drop_drop, drop_length_takeWhile, hd]
          rfl
        have hlen : l.length = (l.takeWhile (fun e => !pred e)).length + (rest.length + 1) := by
          have := congrArg List.length hsplit
          rw [List.length_append, hd] at this
          simpa using this.symm
        rw [hdrop]
        rw [(remove_if_loop_spec pred rest l _ (by omega)).1, take_length_takeWhile]
        have hfilter : l.filter (fun e => !pred e) =
            (l.takeWhile (fun e => !pred e) ++ y :: rest).filter (fun e => !pred e) := by
          rw [← hd, hsplit]
        rw [hfilter, List.filter_append, List.filter_cons]
        simp only [hy, Bool.not_true, Bool.false_eq_true, if_false]
        congr 1
        symm
        rw [List.filter_eq_self]
        intro a ha
        exact List.mem_takeWhile_imp (p := fun e => !pred e) ha

theorem cleanup_fst (l : List (Fileinfo cap)) :
    (cleanup l).1 = l.filter (fun A => !A.deleteflag) :=
  remove_if_spec (fun A : Fileinfo cap => A.deleteflag) l

theorem cleanup_snd (l : List (Fileinfo cap)) :
    (cleanup l).2 = l.length - (cleanup l).1.length := rfl

theorem cleanup_eq (l : List (Fileinfo cap)) :
    cleanup l = ((cleanup l).1, l.length - (cleanup l).1.length) := rfl

theorem cleanup_fst_append (l1 l2 : List (Fileinfo cap)) :
    (cleanup (l1 ++ l2)).1 = (cleanup l1).1 ++ (cleanup l2).1 := by
  simp [cleanup_fst]

theorem cleanup_fst_map_true (l : List (Fileinfo cap)) :
    (cleanup (l.map (fun f => f.setdeleteflag true))).1 = [] := by
  simp [cleanup_fst, List.filter_eq_nil_iff, Fileinfo.setdeleteflag]

theorem cleanup_fst_map_false (l : List (Fileinfo cap)) :
    (cleanup (l.map (fun f => f.setdeleteflag false))).1 =
      l.map (fun f => f.setdeleteflag false) := by
  simp [cleanup_fst, List.filter_eq_self, Fileinfo.setdeleteflag]

/-- The survivors of `cleanup` after `apply_on_range`, when the survivors of each range are the
records of the range selected by `sel` and the selection in a list of separated parts can be
made part by part. -/
theorem Ranges.cleanup_perm {cmp : Fileinfo cap → Fileinfo cap → Bool}
    {R : List (Fileinfo cap) → List (Fileinfo cap) → Prop}
    (sel : List (Fileinfo cap) → Fileinfo cap → Bool)
    (hloc : ∀ g r : List (Fileinfo cap), (∀ a ∈ g, ∀ b ∈ r, cmp a b = true) →
      (∀ f ∈ g, sel (g ++ r) f = sel g f) ∧ (∀ f ∈ r, sel (g ++ r) f = sel r f))
    (hR : ∀ g g2, g ≠ [] → (∀ a ∈ g, ∀ b ∈ g, cmp a b = false) → R g g2 →
      (cleanup g2).1.Perm ((g.filter (sel g)).map (fun f => f.setdeleteflag false)))
    {l out : List (Fileinfo cap)} (h : Ranges cmp R l out) :
    (cleanup out).1.Perm ((l.filter (sel l)).map (fun f => f.setdeleteflag false)) := by
  induction h with
  | nil => simp [cleanup_fst]
  | cons g r g2 r2 hne heq hsep hg _ ih =>
      obtain ⟨h1, h2⟩ := hloc g r hsep
      rw [cleanup_fst_append, List.filter_append, List.map_append,
        List.filter_congr h1, List.filter_congr h2]
      exact List.Perm.append (hR g g2 hne heq hg) ih

theorem has_partner_perm {α : Type} (K : α → α → Bool) {l1 l2 : List α} (h : l1.Perm l2) :
    has_partner K l1 = has_partner K l2 := by
  funext f
  unfold has_partner
  rw [h.countP_eq]

/-- The selection `has_partner` can be made part by part in a list of separated parts. -/
theorem has_partner_local {α : Type} {cmp : α → α → Bool} (K : α → α → Bool)
    (hK : ∀ a b, cmp a b = true → K a b = false ∧ K b a = false)
    (g r : List α) (hsep : ∀ a ∈ g, ∀ b ∈ r, cmp a b = true) :
    (∀ f ∈ g, has_partner K (g ++ r) f = has_partner K g f) ∧
      (∀ f ∈ r, has_partner K (g ++ r) f = has_partner K r f) := by
  constructor
  · intro f hf
    unfold has_partner
    have : r.countP (fun x => K x f) = 0 := by
      rw [List.countP_eq_zero]
      intro x hx
      simp [(hK f x (hsep f hf x hx)).2]
    rw [List.countP_append, this, Nat.add_zero]
  · intro f hf
    unfold has_partner
    have : g.countP (fun x => K x f) = 0 := by
      rw [List.countP_eq_zero]
      intro x hx
      simp [(hK x f (hsep x hx f hf)).1]
    rw [List.countP_append, this, Nat.zero_add]

/-- In a range of records with one key, every record has a partner exactly if the range has at
least two members. -/
theorem has_partner_of_all {α : Type} (K : α → α → Bool) (g : List α)
    (hK : ∀ a ∈ g, ∀ b ∈ g, K a b = true) (f : α) (hf : f ∈ g) :
    has_partner K g f = decide (2 ≤ g.length) := by
  unfold has_partner
  have : g.countP (fun x => K x f) = g.length := by
    rw [List.countP_eq_length]
    intro x hx
    exact hK x hx f hf
  rw [this]

/-- What `flag_if_single` followed by `cleanup` leaves of a range of records with one key: the
records that have a partner in the range, with the delete flag cleared. -/
theorem flag_if_single_cleanup (K : Fileinfo cap → Fileinfo cap → Bool)
    (g g2 : List (Fileinfo cap)) (hK : ∀ a ∈ g, ∀ b ∈ g, K a b = true)
    (h : flag_if_single g = some g2) :
    (cleanup g2).1 = (g.filter (has_partner K g)).map (fun f => f.setdeleteflag false) := by
  have hsel : g.filter (has_partner K g) = g.filter (fun _ => decide (2 ≤ g.length)) :=
    List.filter_congr (fun f hf => has_partner_of_all K g hK f hf)
  rw [hsel]
  match g, h with
  | [], h =>
      simp only [flag_if_single, Option.some.injEq] at h
      subst h
      simp [cleanup_fst]
  | [x], h =>
      simp only [flag_if_single, Option.some.injEq] at h
      subst h
      simp [cleanup_fst, Fileinfo.setdeleteflag]
  | x :: y :: t, h =>
      simp only [flag_if_single, Option.some.injEq] at h
      subst h
      rw [cleanup_fst_map_false]
      simp

theorem flag_if_single_length (g g2 : List (Fileinfo cap)) (h : flag_if_single g = some g2) :
    g2.length = g.length := by
  match g, h with
  | [], h =>
      simp only [flag_if_single, Option.some.injEq] at h
      subst h; rfl
  | [x], h =>
      simp only [flag_if_single, Option.some.injEq] at h
      subst h; rfl
  | x :: y :: t, h =>
      simp only [flag_if_single, Option.some.injEq] at h
      subst h; simp

theorem flag_if_single_total (g : List (Fileinfo cap)) : ∃ g2, flag_if_single g = some g2 := by
  match g with
  | [] => exact ⟨_, rfl⟩
  | [x] => exact ⟨_, rfl⟩
  | x :: y :: t => exact ⟨_, rfl⟩

end Cleanup

/-! ## Theorems: the filter passes -/

section Passes

variable {cap : Nat}

/-- The common shape of the three filter passes (sort, `apply_on_range`, `cleanup`): when the
callback succeeds on every range of the sorted list, keeps the length of the range and leaves
after `cleanup` the records of the range selected by `sel`, then the pass returns, its survivors
are the records of the input selected by `sel` (delete flag cleared, in some order), and its
return value is the number of records removed. -/
theorem filter_pass_spec {sort : SortFn (Fileinfo cap)} (hsort : IsStdSort sort)
    {cmp : Fileinfo cap → Fileinfo cap → Bool} (hcmp : StrictWeakOrder cmp)
    (callback : List (Fileinfo cap) → Option (List (Fileinfo cap)))
    (sel : List (Fileinfo cap) → Fileinfo cap → Bool)
    (hperm : ∀ l1 l2 : List (Fileinfo cap), l1.Perm l2 → sel l1 = sel l2)
    (hloc : ∀ g r : List (Fileinfo cap), (∀ a ∈ g, ∀ b ∈ r, cmp a b = true) →
      (∀ f ∈ g, sel (g ++ r) f = sel g f) ∧ (∀ f ∈ r, sel (g ++ r) f = sel r f))
    (l : List (Fileinfo cap))
    (hcb : ∀ g, IsRange cmp (sort cmp l) g → ∃ g2, callback g = some g2 ∧
      (g2.length = g.length ∧
        (cleanup g2).1.Perm ((g.filter (sel g)).map (fun f => f.setdeleteflag false)))) :
    ∃ marked, apply_on_range cmp callback (sort cmp l) = some marked ∧
      cleanup marked = ((cleanup marked).1, l.length - (cleanup marked).1.length) ∧
      (cleanup marked).1.Perm ((l.filter (sel l)).map (fun f => f.setdeleteflag false)) := by
  obtain ⟨marked, hm, hr⟩ := apply_on_range_ranges hcmp callback
    (fun g g2 => g2.length = g.length ∧
      (cleanup g2).1.Perm ((g.filter (sel g)).map (fun f => f.setdeleteflag false)))
    (sort cmp l) (hsort.sorted cmp l hcmp) hcb
  refine ⟨marked, hm, ?_, ?_⟩
  · have hlen : marked.length = l.length := by
      rw [Ranges.length_eq (fun g g2 h => h.1) hr]
      exact (hsort.perm cmp l hcmp).length_eq
    rw [cleanup_eq marked, hlen]
  · have h1 := Ranges.cleanup_perm sel hloc (fun g g2 _ _ h => h.2) hr
    refine h1.trans (List.Perm.map _ ?_)
    rw [hperm _ _ (hsort.perm cmp l hcmp)]
    exact (hsort.perm cmp l hcmp).filter _

theorem cmpSize_true_same_size (a b : Fileinfo cap) (h : cmpSize a b = true) :
    same_size a b = false ∧ same_size b a = false := by
  simp only [cmpSize, same_size, decide_eq_true_iff, decide_eq_false_iff_not] at *
  omega

theorem cmpSize_true_same_size_and_buffer (a b : Fileinfo cap) (h : cmpSize a b = true) :
    same_size_and_buffer a b = false ∧ same_size_and_buffer b a = false := by
  simp only [cmpSize, decide_eq_true_iff] at h
  have h1 : ¬ a.size = b.size := by omega
  have h2 : ¬ b.size = a.size := by omega
  simp [same_size_and_buffer, h1, h2]

theorem cmpBuffers_true_ne (a b : Fileinfo cap) (h : cmpBuffers a b = true) :
    a.somebytes ≠ b.somebytes := by
  intro e
  rw [cmpBuffers_congr a b b b e rfl, cmpBuffers_irrefl] at h
  exact Bool.false_ne_true h

/-- The pass `removeUniqueSizes` returns; the survivors are the input records that have a partner
of the same size. -/
theorem removeUniqueSizes_survivors {sort : SortFn (Fileinfo cap)} (hsort : IsStdSort sort)
    (l : List (Fileinfo cap)) :
    ∃ out, removeUniqueSizes sort l = some (out, l.length - out.length) ∧
      out.Perm ((l.filter (has_partner same_size l)).map (fun f => f.setdeleteflag false)) := by
  obtain ⟨marked, hm, hc, hp⟩ := filter_pass_spec hsort cmpSize_swo flag_if_single
    (has_partner same_size) (fun _ _ h => has_partner_perm same_size h)
    (has_partner_local same_size cmpSize_true_same_size) l (by
      intro g hg
      obtain ⟨g2, hg2⟩ := flag_if_single_total g
      refine ⟨g2, hg2, flag_if_single_length g g2 hg2, ?_⟩
      rw [flag_if_single_cleanup same_size g g2 ?_ hg2]
      intro a ha b hb
      have := cmpSize_incomp a b (hg.2.1 a ha b hb) (hg.2.1 b hb a ha)
      simp [same_size, this])
  refine ⟨(cleanup marked).1, ?_, hp⟩
  unfold removeUniqueSizes
  rw [hm]
  exact congrArg some hc

/-- The callback `flag_unique_buffers` on a range of records of one size: it returns, keeps the
length, and after `cleanup` the records that have a partner with the same size and buffer are
left. -/
theorem flag_unique_buffers_spec {sort : SortFn (Fileinfo cap)} (hsort : IsStdSort sort)
    (g : List (Fileinfo cap)) (hg : ∀ a ∈ g, ∀ b ∈ g, cmpSize a b = false) :
    ∃ g2, flag_unique_buffers sort g = some g2 ∧ (g2.length = g.length ∧
      (cleanup g2).1.Perm
        ((g.filter (has_partner same_size_and_buffer g)).map
          (fun f => f.setdeleteflag false))) := by
  let K : Fileinfo cap → Fileinfo cap → Bool := fun a b => decide (a.somebytes = b.somebytes)
  have hK : ∀ a b : Fileinfo cap, cmpBuffers a b = true → K a b = false ∧ K b a = false := by
    intro a b h
    have := cmpBuffers_true_ne a b h
    simp [K, this, Ne.symm this]
  obtain ⟨g2, hg2, hr⟩ := apply_on_range_ranges cmpBuffers_swo flag_if_single
    (fun r r2 => flag_if_single r = some r2) (sort cmpBuffers g)
    (hsort.sorted cmpBuffers g cmpBuffers_swo)
    (fun r _ => by
      obtain ⟨r2, hr2⟩ := flag_if_single_total r
      exact ⟨r2, hr2, hr2⟩)
  refine ⟨g2, hg2, ?_, ?_⟩
  · rw [Ranges.length_eq (fun r r2 h => flag_if_single_length r r2 h) hr]
    exact (hsort.perm cmpBuffers g cmpBuffers_swo).length_eq
  · have h1 := Ranges.cleanup_perm (has_partner K) (has_partner_local K hK)
      (fun r r2 _ hinc h => by
        rw [flag_if_single_cleanup K r r2 ?_ h]
        intro a ha b hb
        have := cmpBuffers_incomp a b (hinc a ha b hb) (hinc b hb a ha)
        simp [K, this]) hr
    refine h1.trans (List.Perm.map _ ?_)
    rw [has_partner_perm K (hsort.perm cmpBuffers g cmpBuffers_swo)]
    have hsel : g.filter (has_partner K g) = g.filter (has_partner same_size_and_buffer g) := by
      apply List.filter_congr
      intro f hf
      unfold has_partner
      congr 2
      apply List.countP_congr
      intro x hx
      have := cmpSize_incomp x f (hg x hx f hf) (hg f hf x hx)
      simp [K, same_size_and_buffer, this]
    rw [← hsel]
    exact (hsort.perm cmpBuffers g cmpBuffers_swo).filter _

/-- The pass `removeUniqSizeAndBuffer` returns; the survivors are the input records that have a
partner with the same size and the same sample buffer. -/
theorem removeUniqSizeAndBuffer_survivors {sort : SortFn (Fileinfo cap)}
    (hsort : IsStdSort sort) (l : List (Fileinfo cap)) :
    ∃ out, removeUniqSizeAndBuffer sort l = some (out, l.length - out.length) ∧
      out.Perm
        ((l.filter (has_partner same_size_and_buffer l)).map
          (fun f => f.setdeleteflag false)) := by
  obtain ⟨marked, hm, hc, hp⟩ := filter_pass_spec hsort cmpSize_swo (flag_unique_buffers sort)
    (has_partner same_size_and_buffer) (fun _ _ h => has_partner_perm same_size_and_buffer h)
    (has_partner_local same_size_and_buffer cmpSize_true_same_size_and_buffer) l
    (fun g hg => flag_unique_buffers_spec hsort g hg.2.1)
  refine ⟨(cleanup marked).1, ?_, hp⟩
  unfold removeUniqSizeAndBuffer
  rw [hm]
  exact congrArg some hc

end Passes

/-! ## Theorems: `min_element` and the inode filter -/

section MinElement

variable {α : Type} {cmp : α → α → Bool}

theorem split_at_get (l : List α) :
    ∀ (i : Nat) (b : α), l.get? i = some b →
      i < l.length ∧ l = l.take i ++ b :: l.drop (i + 1) := by
  induction l with
  | nil => intro i b h; simp at h
  | cons x xs ih =>
      intro i b h
      cases i with
      | zero =>
          simp at h
          subst h
          simp
      | succ i =>
          have h2 : xs.get? i = some b := by simpa using h
          obtain ⟨h3, h4⟩ := ih i b h2
          refine ⟨by simpa using h3, ?_⟩
          simp only [List.take_succ_cons, List.drop_succ_cons, List.cons_append]
          rw [← h4]

theorem min_element_from_spec (h : StrictWeakOrder cmp) (xs : List α) :
    ∀ (pre : List α) (smallest : α) (si : Nat), pre.get? si = some smallest →
      (∀ y ∈ pre, cmp y smallest = false) →
      ∃ b, (pre ++ xs).get? (min_element_from cmp smallest si xs pre.length) = some b ∧
        ∀ y ∈ pre ++ xs, cmp y b = false := by
  induction xs with
  | nil =>
      intro pre smallest si hget hmin
      exact ⟨smallest, by simpa [min_element_from] using hget, by simpa using hmin⟩
  | cons x xs ih =>
      intro pre smallest si hget hmin
      have hsi : si < pre.length := (split_at_get pre si smallest hget).1
      have happ : pre ++ x :: xs = (pre ++ [x]) ++ xs := by simp
      have hlen : (pre ++ [x]).length = pre.length + 1 := by simp
      unfold min_element_from
      by_cases hc : cmp x smallest = true
      · rw [if_pos hc, happ, ← hlen]
        apply ih (pre ++ [x]) x pre.length
        · simp
        · intro y hy
          rcases List.mem_append.1 hy with hy | hy
          · exact h.neg_trans (hmin y hy) (h.asymm hc)
          · rw [List.mem_singleton.1 hy]; exact h.irrefl x
      · rw [if_neg hc, happ, ← hlen]
        apply ih (pre ++ [x]) smallest si
        · rw [List.get?_eq_getElem?, List.getElem?_append_left hsi, ← List.get?_eq_getElem?]
          exact hget
        · intro y hy
          rcases List.mem_append.1 hy with hy | hy
          · exact hmin y hy
          · rw [List.mem_singleton.1 hy]; simpa using hc

/-- The algorithm `min_element` on a non-empty range returns the index of an element that no
element of the range is smaller than. -/
theorem min_element_spec (h : StrictWeakOrder cmp) (g : List α) (hne : g ≠ []) :
    ∃ b, g.get? (min_element cmp g) = some b ∧ ∀ y ∈ g, cmp y b = false := by
  cases g with
  | nil => exact absurd rfl hne
  | cons x xs =>
      have := min_element_from_spec h xs [x] x 0 rfl (by
        intro y hy
        rw [List.mem_singleton.1 hy]; exact h.irrefl x)
      simpa [min_element] using this

end MinElement

section Inodes

variable {cap : Nat}

theorem cmpDeviceInode_true_same_inode (a b : Fileinfo cap) (h : cmpDeviceInode a b = true) :
    same_inode a b = false ∧ same_inode b a = false := by
  simp only [cmpDeviceInode, decide_eq_true_iff] at h
  simp only [same_inode, Bool.and_eq_false_iff, decide_eq_false_iff_not]
  omega

theorem same_inode_setdeleteflag (a b : Fileinfo cap) (flag : Bool) :
    same_inode (a.setdeleteflag flag) b = same_inode a b := rfl

theorem is_rank_minimal_on_inode_perm {l1 l2 : List (Fileinfo cap)} (h : l1.Perm l2) :
    is_rank_minimal_on_inode l1 = is_rank_minimal_on_inode l2 := by
  funext f
  unfold is_rank_minimal_on_inode
  rw [Bool.eq_iff_iff, List.all_eq_true, List.all_eq_true]
  exact ⟨fun hh x hx => hh x (h.mem_iff.2 hx), fun hh x hx => hh x (h.mem_iff.1 hx)⟩

theorem is_rank_minimal_on_inode_local (g r : List (Fileinfo cap))
    (hsep : ∀ a ∈ g, ∀ b ∈ r, cmpDeviceInode a b = true) :
    (∀ f ∈ g, is_rank_minimal_on_inode (g ++ r) f = is_rank_minimal_on_inode g f) ∧
      (∀ f ∈ r, is_rank_minimal_on_inode (g ++ r) f = is_rank_minimal_on_inode r f) := by
  constructor
  · intro f hf
    unfold is_rank_minimal_on_inode
    rw [List.all_append]
    have : r.all (fun h => !same_inode h f || decide (h = f) || cmpRank f h) = true := by
      rw [List.all_eq_true]
      intro x hx
      simp [(cmpDeviceInode_true_same_inode f x (hsep f hf x hx)).2]
    rw [this, Bool.and_true]
  · intro f hf
    unfold is_rank_minimal_on_inode
    rw [List.all_append]
    have : g.all (fun h => !same_inode h f || decide (h = f) || cmpRank f h) = true := by
      rw [List.all_eq_true]
      intro x hx
      simp [(cmpDeviceInode_true_same_inode x f (hsep x hx f hf)).1]
    rw [this, Bool.true_and]

theorem is_rank_minimal_on_inode_iff (l : List (Fileinfo cap)) (f : Fileinfo cap) :
    is_rank_minimal_on_inode l f = true ↔
      ∀ h ∈ l, h.device = f.device → h.inode = f.inode → h = f ∨ cmpRank f h = true := by
  unfold is_rank_minimal_on_inode
  rw [List.all_eq_true]
  constructor
  · intro hh x hx hd hi
    have := hh x hx
    simp only [same_inode, hd, hi, decide_True, Bool.and_self, Bool.not_true, Bool.false_or,
      Bool.or_eq_true, decide_eq_true_iff] at this
    exact this
  · intro hh x hx
    by_cases hs : same_inode x f = true
    · have hs2 := hs
      simp only [same_inode, Bool.and_eq_true, decide_eq_true_iff] at hs2
      rcases hh x hx hs2.1 hs2.2 with h1 | h1
      · simp [h1]
      · simp [h1]
    · have : same_inode x f = false := by simpa using hs
      simp [this]

/-- The callback `keep_best` on a range of records of one inode with distinct identities: it
returns, keeps the length, and after `cleanup` exactly the rank-minimal record is left. -/
theorem keep_best_spec (g : List (Fileinfo cap)) (hne : g ≠ [])
    (hg : ∀ a ∈ g, ∀ b ∈ g, cmpDeviceInode a b = false)
    (hid : (g.map (fun f => f.getidentity)).Nodup) :
    ∃ g2, keep_best g = some g2 ∧ (g2.length = g.length ∧
      (cleanup g2).1.Perm
        ((g.filter (is_rank_minimal_on_inode g)).map (fun f => f.setdeleteflag false))) := by
  obtain ⟨b, hget, hmin⟩ := min_element_spec cmpRank_swo g hne
  obtain ⟨hlt, hsplit⟩ := split_at_get g _ b hget
  have hk : keep_best g = some
      ((g.take (min_element cmpRank g)).map (fun f => f.setdeleteflag true) ++
        b.setdeleteflag false ::
        (g.drop (min_element cmpRank g + 1)).map (fun f => f.setdeleteflag true)) := by
    unfold keep_best
    simp only [hget]
  generalize min_element cmpRank g = best at hget hlt hsplit hk
  refine ⟨_, hk, ?_, ?_⟩
  · simp only [List.length_append, List.length_map, List.length_cons, List.length_take,
      List.length_drop]
    omega
  · have hpw : g.Pairwise (fun a c => a.getidentity ≠ c.getidentity) :=
      List.pairwise_map.1 hid
    rw [hsplit] at hpw
    obtain ⟨_, hpw2, hpw3⟩ := List.pairwise_append.1 hpw
    have hpw4 := (List.pairwise_cons.1 hpw2).1
    have hbmem : b ∈ g := by rw [hsplit]; simp
    -- the identity of every other member of the range differs from that of `b`
    have hother : ∀ y, y ∈ g.take best ∨ y ∈ g.drop (best + 1) →
        y ∈ g ∧ y.getidentity ≠ b.getidentity := by
      intro y hy
      rcases hy with hy | hy
      · exact ⟨List.take_subset _ _ hy, hpw3 y hy b (List.mem_cons_self _ _)⟩
      · exact ⟨List.drop_subset _ _ hy, (hpw4 y hy).symm⟩
    have hsame : ∀ y ∈ g, y.device = b.device ∧ y.inode = b.inode := fun y hy =>
      cmpDeviceInode_incomp y b (hg y hy b hbmem) (hg b hbmem y hy)
    have hnot : ∀ y, y ∈ g.take best ∨ y ∈ g.drop (best + 1) →
        is_rank_minimal_on_inode g y = false := by
      intro y hy
      obtain ⟨hyg, hyid⟩ := hother y hy
      rw [← Bool.not_eq_true, is_rank_minimal_on_inode_iff]
      intro hcon
      rcases hcon b hbmem (hsame y hyg).1.symm (hsame y hyg).2.symm with h1 | h1
      · exact hyid (by rw [h1])
      · rw [hmin y hyg] at h1; exact Bool.false_ne_true h1
    have hb : is_rank_minimal_on_inode g b = true := by
      rw [is_rank_minimal_on_inode_iff]
      intro y hy _ _
      have hy2 : y ∈ g.take best ++ b :: g.drop (best + 1) := by rw [← hsplit]; exact hy
      rcases List.mem_append.1 hy2 with h1 | h1
      · right
        rcases cmpRank_total b y (hother y (Or.inl h1)).2.symm with h2 | h2
        · exact h2
        · rw [hmin y hy] at h2; exact absurd h2 Bool.false_ne_true
      · rcases List.mem_cons.1 h1 with h1 | h1
        · left; exact h1
        · right
          rcases cmpRank_total b y (hother y (Or.inr h1)).2.symm with h2 | h2
          · exact h2
          · rw [hmin y hy] at h2; exact absurd h2 Bool.false_ne_true
    have hfilter : g.filter (is_rank_minimal_on_inode g) = [b] := by
      have e0 : g.filter (is_rank_minimal_on_inode g) =
          (g.take best ++ b :: g.drop (best + 1)).filter (is_rank_minimal_on_inode g) := by
        rw [← hsplit]
      rw [e0, List.filter_append, List.filter_cons, if_pos hb]
      have e1 : (g.take best).filter (is_rank_minimal_on_inode g) = [] := by
        rw [List.filter_eq_nil_iff]
        intro y hy
        rw [hnot y (Or.inl hy)]
        exact Bool.false_ne_true
      have e2 : (g.drop (best + 1)).filter (is_rank_minimal_on_inode g) = [] := by
        rw [List.filter_eq_nil_iff]
        intro y hy
        rw [hnot y (Or.inr hy)]
        exact Bool.false_ne_true
      rw [e1, e2]
      rfl
    rw [hfilter, cleanup_fst_append, cleanup_fst_map_true]
    have : b.setdeleteflag false :: (g.drop (best + 1)).map (fun f => f.setdeleteflag true) =
        [b.setdeleteflag false] ++ (g.drop (best + 1)).map (fun f => f.setdeleteflag true) := rfl
    rw [this, cleanup_fst_append, cleanup_fst_map_true]
    simp [cleanup_fst, Fileinfo.setdeleteflag]

/-- The pass `removeIdenticalInodes` on records with distinct identities returns; the survivors
are the input records that are rank-minimal on their inode. -/
theorem removeIdenticalInodes_survivors {sort : SortFn (Fileinfo cap)} (hsort : IsStdSort sort)
    (l : List (Fileinfo cap)) (hid : (l.map (fun f => f.getidentity)).Nodup) :
    ∃ out, removeIdenticalInodes sort l = some (out, l.length - out.length) ∧
      out.Perm
        ((l.filter (is_rank_minimal_on_inode l)).map (fun f => f.setdeleteflag false)) := by
  obtain ⟨marked, hm, hc, hp⟩ := filter_pass_spec hsort cmpDeviceInode_swo keep_best
    is_rank_minimal_on_inode (fun _ _ h => is_rank_minimal_on_inode_perm h)
    is_rank_minimal_on_inode_local l (by
      intro g hg
      obtain ⟨hne, hinc, pre, post, hl, _, _⟩ := hg
      apply keep_best_spec g hne hinc
      have h1 : ((sort cmpDeviceInode l).map (fun f => f.getidentity)).Nodup :=
        ((hsort.perm cmpDeviceInode l cmpDeviceInode_swo).map _).nodup_iff.2 hid
      rw [hl] at h1
      simp only [List.map_append] at h1
      exact (List.nodup_append.1 (List.nodup_append.1 h1).1).2.1)
  refine ⟨(cleanup marked).1, ?_, hp⟩
  unfold removeIdenticalInodes
  rw [hm]
  exact congrArg some hc

end Inodes

/-! ## Theorems: the final marking -/

section Decompose

variable {α : Type} {cmp : α → α → Bool}

/-- Every element of the result of `apply_on_range` lies in the image of one range, which splits
both the input and the result in three parts. -/
theorem Ranges.decompose {R : List α → List α → Prop} {l out : List α}
    (h : Ranges cmp R l out) :
    ∀ f ∈ out, ∃ pre g post pre2 g2 post2,
      l = pre ++ g ++ post ∧ out = pre2 ++ g2 ++ post2 ∧ f ∈ g2 ∧ R g g2 ∧ g ≠ [] ∧
      (∀ a ∈ g, ∀ b ∈ g, cmp a b = false) ∧
      (∀ a ∈ pre, ∀ b ∈ g, cmp a b = true) ∧ (∀ a ∈ g, ∀ b ∈ post, cmp a b = true) ∧
      Ranges cmp R pre pre2 ∧ Ranges cmp R post post2 := by
  induction h with
  | nil => intro f hf; cases hf
  | cons g r g2 r2 hne heq hsep hg hr ih =>
      intro f hf
      rcases List.mem_append.1 hf with hf | hf
      · exact ⟨[], g, r, [], g2, r2, by simp, by simp, hf, hg, hne, heq, by simp, hsep,
          Ranges.nil, hr⟩
      · obtain ⟨pre, g1, post, pre2, g12, post2, hl, ho, hfm, hR, hne1, heq1, hpre, hpost,
          hrpre, hrpost⟩ := ih f hf
        have hsub : ∀ b ∈ pre, b ∈ r := by
          intro b hb; rw [hl]; simp [hb]
        have hsub1 : ∀ b ∈ g1, b ∈ r := by
          intro b hb; rw [hl]; simp [hb]
        refine ⟨g ++ pre, g1, post, g2 ++ pre2, g12, post2, ?_, ?_, hfm, hR, hne1, heq1, ?_,
          hpost, ?_, hrpost⟩
        · rw [hl]; simp
        · rw [ho]; simp
        · intro a ha b hb
          rcases List.mem_append.1 ha with ha | ha
          · exact hsep a ha b (hsub1 b hb)
          · exact hpre a ha b hb
        · exact Ranges.cons g pre g2 pre2 hne heq (fun a ha b hb => hsep a ha b (hsub b hb))
            hg hrpre

/-- Every element of the input of `apply_on_range` lies in one range, which splits both the
input and the result in three parts. -/
theorem Ranges.decompose_input {R : List α → List α → Prop} {l out : List α}
    (h : Ranges cmp R l out) :
    ∀ x ∈ l, ∃ pre g post pre2 g2 post2,
      l = pre ++ g ++ post ∧ out = pre2 ++ g2 ++ post2 ∧ x ∈ g ∧ R g g2 ∧ g ≠ [] ∧
      (∀ a ∈ g, ∀ b ∈ g, cmp a b = false) ∧
      (∀ a ∈ pre, ∀ b ∈ g, cmp a b = true) ∧ (∀ a ∈ g, ∀ b ∈ post, cmp a b = true) ∧
      Ranges cmp R pre pre2 ∧ Ranges cmp R post post2 := by
  induction h with
  | nil => intro x hx; cases hx
  | cons g r g2 r2 hne heq hsep hg hr ih =>
      intro x hx
      rcases List.mem_append.1 hx with hx | hx
      · exact ⟨[], g, r, [], g2, r2, by simp, by simp, hx, hg, hne, heq, by simp, hsep,
          Ranges.nil, hr⟩
      · obtain ⟨pre, g1, post, pre2, g12, post2, hl, ho, hxm, hR, hne1, heq1, hpre, hpost,
          hrpre, hrpost⟩ := ih x hx
        have hsub : ∀ b ∈ pre, b ∈ r := by
          intro b hb; rw [hl]; simp [hb]
        have hsub1 : ∀ b ∈ g1, b ∈ r := by
          intro b hb; rw [hl]; simp [hb]
        refine ⟨g ++ pre, g1, post, g2 ++ pre2, g12, post2, ?_, ?_, hxm, hR, hne1, heq1, ?_,
          hpost, ?_, hrpost⟩
        · rw [hl]; simp
        · rw [ho]; simp
        · intro a ha b hb
          rcases List.mem_append.1 ha with ha | ha
          · exact hsep a ha b (hsub1 b hb)
          · exact hpre a ha b hb
        · exact Ranges.cons g pre g2 pre2 hne heq (fun a ha b hb => hsep a ha b (hsub b hb))
            hg hrpre

theorem Ranges.mem_rel {R : List α → List α → Prop} (P : α → α → Prop) {l out : List α}
    (hR : ∀ g g2, R g g2 → ∀ x ∈ g2, ∃ y ∈ g, P x y) (h : Ranges cmp R l out) :
    ∀ x ∈ out, ∃ y ∈ l, P x y := by
  induction h with
  | nil => intro x hx; cases hx
  | cons g r g2 r2 _ _ _ hg _ ih =>
      intro x hx
      rcases List.mem_append.1 hx with hx | hx
      · obtain ⟨y, hy, hp⟩ := hR g g2 hg x hx
        exact ⟨y, List.mem_append_left _ hy, hp⟩
      · obtain ⟨y, hy, hp⟩ := ih x hx
        exact ⟨y, List.mem_append_right _ hy, hp⟩

theorem iter_swap_zero (g : List α) (k : Nat) (b : α) (hget : g.get? k = some b) :
    ∃ rest, iter_swap g 0 k = b :: rest ∧ (b :: rest).Perm g := by
  cases g with
  | nil => simp at hget
  | cons x t =>
      cases k with
      | zero =>
          have hb : x = b := by simpa using hget
          subst hb
          exact ⟨t, by simp [iter_swap], List.Perm.refl _⟩
      | succ k =>
          have hget2 : t.get? k = some b := by simpa using hget
          obtain ⟨hlt, hsplit⟩ := split_at_get t k b hget2
          refine ⟨t.set k x, ?_, ?_⟩
          · unfold iter_swap
            rw [hget]
            simp
          · rw [List.set_eq_take_append_cons_drop, if_pos hlt]
            have h1 : (b :: (t.take k ++ x :: t.drop (k + 1))).Perm
                (b :: x :: (t.take k ++ t.drop (k + 1))) :=
              List.Perm.cons b List.perm_middle
            have h2 : (x :: t).Perm (x :: b :: (t.take k ++ t.drop (k + 1))) := by
              apply List.Perm.cons x
              conv_lhs => rw [hsplit]
              exact List.perm_middle
            exact h1.trans ((List.Perm.swap x b _).trans h2.symm)

end Decompose

section Marking

variable {cap : Nat}

theorem marker_size (o x : Fileinfo cap) : (marker o x).size = x.size := by
  unfold marker; simp only []; split <;> rfl

theorem marker_somebytes (o x : Fileinfo cap) : (marker o x).somebytes = x.somebytes := by
  unfold marker; simp only []; split <;> rfl

theorem marker_getidentity (o x : Fileinfo cap) : (marker o x).getidentity = -o.getidentity := by
  unfold marker; simp only []; split <;> rfl

theorem marker_get_cmdline_index (o x : Fileinfo cap) :
    (marker o x).get_cmdline_index = x.get_cmdline_index := by
  unfold marker; simp only []; split <;> rfl

theorem marker_getduptype (o x : Fileinfo cap) :
    (marker o x).getduptype =
      if x.get_cmdline_index = o.get_cmdline_index then duptype.DUPTYPE_WITHIN_SAME_TREE
      else duptype.DUPTYPE_OUTSIDE_TREE := by
  unfold marker; simp only []
  have e : (x.setidentity (-o.getidentity)).get_cmdline_index = x.get_cmdline_index := rfl
  rw [e]
  by_cases h : x.get_cmdline_index = o.get_cmdline_index
  · rw [if_pos h, if_pos h]; rfl
  · rw [if_neg h, if_neg h]; rfl

theorem same_size_and_buffer_iff (a b : Fileinfo cap) :
    same_size_and_buffer a b = true ↔ a.size = b.size ∧ a.somebytes = b.somebytes := by
  simp [same_size_and_buffer]

theorem cmpSizeThenBuffer_true_same (a b : Fileinfo cap) (h : cmpSizeThenBuffer a b = true) :
    same_size_and_buffer a b = false ∧ same_size_and_buffer b a = false := by
  have key : ¬ (a.size = b.size ∧ a.somebytes = b.somebytes) := by
    rintro ⟨h1, h2⟩
    rw [cmpSizeThenBuffer_of_eq a b h1 h2] at h
    exact Bool.false_ne_true h
  constructor
  · rw [← Bool.not_eq_true, same_size_and_buffer_iff]; exact key
  · rw [← Bool.not_eq_true, same_size_and_buffer_iff]
    rintro ⟨h1, h2⟩
    exact key ⟨h1.symm, h2.symm⟩

/-- The callback `mark_range` on a range of at least two records of one size and buffer: all
its assertions hold and it returns the marked range. -/
theorem mark_range_spec (g : List (Fileinfo cap)) (hlen : 2 ≤ g.length)
    (hg : ∀ a ∈ g, ∀ b ∈ g, cmpSizeThenBuffer a b = false) :
    ∃ g2, mark_range g = some g2 ∧ MarkedRange g g2 := by
  have hne : g ≠ [] := by
    intro h; rw [h] at hlen; simp at hlen
  obtain ⟨b, hget, hmin⟩ := min_element_spec cmpRank_swo g hne
  obtain ⟨hlt, _⟩ := split_at_get g _ b hget
  obtain ⟨rest, hswap, hperm⟩ := iter_swap_zero g _ b hget
  refine ⟨_, ?_, b, rest, hget, hmin, hswap, hperm, rfl⟩
  unfold mark_range
  have h1 : ¬ g.length < 2 := by omega
  have h2 : ¬ min_element cmpRank g = g.length := by omega
  simp only [h1, h2, if_false, hswap]
  have hall : ((b :: rest).all
      (fun a => decide (b.size = a.size) && hasEqualBuffers b a)) = true := by
    rw [List.all_eq_true]
    intro a ha
    have hbg : b ∈ g := hperm.subset (List.mem_cons_self _ _)
    have hag : a ∈ g := hperm.subset ha
    obtain ⟨e1, e2⟩ := cmpSizeThenBuffer_incomp b a (hg b hbg a hag) (hg a hag b hbg)
    rw [Bool.and_eq_true, decide_eq_true_iff, hasEqualBuffers_iff]
    exact ⟨e1, e2⟩
  rw [if_pos hall]

theorem MarkedRange.marked_length_eq {g g2 : List (Fileinfo cap)} (h : MarkedRange g g2) :
    g2.length = g.length := by
  obtain ⟨b, rest, _, _, _, hperm, rfl⟩ := h
  rw [← hperm.length_eq]
  simp

theorem MarkedRange.mem_key {g g2 : List (Fileinfo cap)} (h : MarkedRange g g2) :
    ∀ x ∈ g2, ∃ y ∈ g, x.size = y.size ∧ x.somebytes = y.somebytes := by
  obtain ⟨b, rest, _, _, _, hperm, rfl⟩ := h
  intro x hx
  rcases List.mem_cons.1 hx with rfl | hx
  · exact ⟨b, hperm.subset (List.mem_cons_self _ _), rfl, rfl⟩
  · obtain ⟨y, hy, rfl⟩ := List.mem_map.1 hx
    exact ⟨y, hperm.subset (List.mem_cons_of_mem _ hy), marker_size _ _, marker_somebytes _ _⟩

/-- The function `markduplicates` on a list that is sorted by (size, buffer) and in which every
record has a partner of the same size and buffer: all assertions hold, the function returns,
and the result replaces every range by its marked range. -/
theorem markduplicates_ranges (l : List (Fileinfo cap))
    (hs : is_sorted cmpSizeThenBuffer l = true)
    (h2 : ∀ f ∈ l, has_partner same_size_and_buffer l f = true) :
    ∃ out, markduplicates l = some out ∧ Ranges cmpSizeThenBuffer MarkedRange l out := by
  unfold markduplicates
  rw [if_pos hs]
  apply apply_on_range_ranges cmpSizeThenBuffer_swo mark_range MarkedRange l hs
  intro g hg
  obtain ⟨hne, hinc, pre, post, hl, hpre, hpost⟩ := hg
  apply mark_range_spec g _ hinc
  obtain ⟨f, hf⟩ := List.exists_mem_of_ne_nil g hne
  have hfl : f ∈ l := by rw [hl]; simp [hf]
  have hcount := h2 f hfl
  unfold has_partner at hcount
  rw [decide_eq_true_iff, hl, List.countP_append, List.countP_append] at hcount
  have e1 : pre.countP (fun x => same_size_and_buffer x f) = 0 := by
    rw [List.countP_eq_zero]
    intro x hx
    simp [(cmpSizeThenBuffer_true_same x f (hpre x hx f hf)).1]
  have e2 : post.countP (fun x => same_size_and_buffer x f) = 0 := by
    rw [List.countP_eq_zero]
    intro x hx
    simp [(cmpSizeThenBuffer_true_same f x (hpost f hf x hx)).2]
  have e3 := List.countP_le_length (fun x => same_size_and_buffer x f) (l := g)
  omega

end Marking

section MarkingGroups

variable {cap : Nat}

theorem same_size_and_buffer_congr (a a2 b b2 : Fileinfo cap) (h1 : a.size = a2.size)
    (h2 : a.somebytes = a2.somebytes) (h3 : b.size = b2.size)
    (h4 : b.somebytes = b2.somebytes) :
    same_size_and_buffer a b = same_size_and_buffer a2 b2 := by
  unfold same_size_and_buffer
  rw [h1, h2, h3, h4]

/-- The result of `markduplicates` seen from one of its records `f`: the input and the result
split at the same places into the part before the range of `f`, the range, and the part behind
it; the range of the result is the rank-minimal record `b` of the input range, marked as first
occurrence, followed by the other records, rewritten by `marker`; the range holds all records
with the size and buffer of `f`. -/
theorem markduplicates_groups (l : List (Fileinfo cap))
    (hs : is_sorted cmpSizeThenBuffer l = true)
    (h2 : ∀ f ∈ l, has_partner same_size_and_buffer l f = true) :
    ∃ out, markduplicates l = some out ∧ ∀ f ∈ out, ∃ pre g post pre2 b rest post2,
      l = pre ++ g ++ post ∧
      out = pre2 ++ (b.setduptype duptype.DUPTYPE_FIRST_OCCURRENCE ::
        rest.map (marker (b.setduptype duptype.DUPTYPE_FIRST_OCCURRENCE))) ++ post2 ∧
      f ∈ (b.setduptype duptype.DUPTYPE_FIRST_OCCURRENCE ::
        rest.map (marker (b.setduptype duptype.DUPTYPE_FIRST_OCCURRENCE))) ∧
      pre2.length = pre.length ∧ post2.length = post.length ∧
      g.get? (min_element cmpRank g) = some b ∧ (∀ y ∈ g, cmpRank y b = false) ∧
      iter_swap g 0 (min_element cmpRank g) = b :: rest ∧ (b :: rest).Perm g ∧
      (∀ x ∈ g, same_size_and_buffer x f = true) ∧
      (∀ x ∈ pre ++ post, same_size_and_buffer x f = false) ∧
      (∀ x ∈ pre2 ++ post2, same_size_and_buffer x f = false) := by
  obtain ⟨out, hout, hr⟩ := markduplicates_ranges l hs h2
  refine ⟨out, hout, ?_⟩
  intro f hf
  obtain ⟨pre, g, post, pre2, g2, post2, hl, ho, hfm, hR, hne, heq, hpre, hpost, hrpre,
    hrpost⟩ := hr.decompose f hf
  obtain ⟨y, hy, hys, hyb⟩ := hR.mem_key f hfm
  obtain ⟨b, rest, hget, hmin, hswap, hperm, rfl⟩ := hR
  have hkey : ∀ x ∈ g, same_size_and_buffer x f = true := by
    intro x hx
    obtain ⟨e1, e2⟩ := cmpSizeThenBuffer_incomp x y (heq x hx y hy) (heq y hy x hx)
    rw [same_size_and_buffer_iff]
    exact ⟨e1.trans hys.symm, e2.trans hyb.symm⟩
  have hpre1 : ∀ x ∈ pre, same_size_and_buffer x f = false := by
    intro x hx
    rw [same_size_and_buffer_congr x x f y rfl rfl hys hyb]
    exact (cmpSizeThenBuffer_true_same x y (hpre x hx y hy)).1
  have hpost1 : ∀ x ∈ post, same_size_and_buffer x f = false := by
    intro x hx
    rw [same_size_and_buffer_congr x x f y rfl rfl hys hyb]
    exact (cmpSizeThenBuffer_true_same y x (hpost y hy x hx)).2
  refine ⟨pre, g, post, pre2, b, rest, post2, hl, ho, hfm,
    Ranges.length_eq (fun _ _ h => h.marked_length_eq) hrpre,
    Ranges.length_eq (fun _ _ h => h.marked_length_eq) hrpost, hget, hmin, hswap, hperm, hkey,
    ?_, ?_⟩
  · intro x hx
    rcases List.mem_append.1 hx with hx | hx
    · exact hpre1 x hx
    · exact hpost1 x hx
  · intro x hx
    rcases List.mem_append.1 hx with hx | hx
    · obtain ⟨z, hz, e1, e2⟩ := Ranges.mem_rel
        (fun x z : Fileinfo cap => x.size = z.size ∧ x.somebytes = z.somebytes)
        (fun _ _ h => h.mem_key) hrpre x hx
      rw [same_size_and_buffer_congr x z f f e1 e2 rfl rfl]
      exact hpre1 z hz
    · obtain ⟨z, hz, e1, e2⟩ := Ranges.mem_rel
        (fun x z : Fileinfo cap => x.size = z.size ∧ x.somebytes = z.somebytes)
        (fun _ _ h => h.mem_key) hrpost x hx
      rw [same_size_and_buffer_congr x z f f e1 e2 rfl rfl]
      exact hpost1 z hz

/-- The result of `markduplicates` seen from a record `x` of the input: the result has the
length of the input, and the input and the result split at the same places into the part before
the range of `x`, the range (all records with the size and buffer of `x`, at least two), and
the part behind it; the range of the result is the rank-minimal record `b` of the input range,
marked as first occurrence, followed by the other records, rewritten by `marker`. -/
theorem markduplicates_groups_input (l : List (Fileinfo cap))
    (hs : is_sorted cmpSizeThenBuffer l = true)
    (h2 : ∀ f ∈ l, has_partner same_size_and_buffer l f = true) :
    ∃ out, markduplicates l = some out ∧ out.length = l.length ∧
      ∀ x ∈ l, ∃ pre g post pre2 b rest post2,
      l = pre ++ g ++ post ∧
      out = pre2 ++ (b.setduptype duptype.DUPTYPE_FIRST_OCCURRENCE ::
        rest.map (marker (b.setduptype duptype.DUPTYPE_FIRST_OCCURRENCE))) ++ post2 ∧
      x ∈ g ∧ 2 ≤ g.length ∧
      pre2.length = pre.length ∧ post2.length = post.length ∧
      g.get? (min_element cmpRank g) = some b ∧ (∀ y ∈ g, cmpRank y b = false) ∧
      iter_swap g 0 (min_element cmpRank g) = b :: rest ∧ (b :: rest).Perm g ∧
      (∀ y ∈ g, same_size_and_buffer y x = true) ∧
      (∀ y ∈ pre ++ post, same_size_and_buffer y x = false) ∧
      (∀ y ∈ pre2 ++ post2, same_size_and_buffer y x = false) := by
  obtain ⟨out, hout, hr⟩ := markduplicates_ranges l hs h2
  refine ⟨out, hout, Ranges.length_eq (fun _ _ h => h.marked_length_eq) hr, ?_⟩
  intro x hx
  obtain ⟨pre, g, post, pre2, g2, post2, hl, ho, hxg, hR, hne, heq, hpre, hpost, hrpre,
    hrpost⟩ := hr.decompose_input x hx
  obtain ⟨b, rest, hget, hmin, hswap, hperm, rfl⟩ := hR
  have hkey : ∀ y ∈ g, same_size_and_buffer y x = true := by
    intro y hy
    rw [same_size_and_buffer_iff]
    exact cmpSizeThenBuffer_incomp y x (heq y hy x hxg) (heq x hxg y hy)
  have hpre1 : ∀ y ∈ pre, same_size_and_buffer y x = false := fun y hy =>
    (cmpSizeThenBuffer_true_same y x (hpre y hy x hxg)).1
  have hpost1 : ∀ y ∈ post, same_size_and_buffer y x = false := fun y hy =>
    (cmpSizeThenBuffer_true_same x y (hpost x hxg y hy)).2
  have hlen : 2 ≤ g.length := by
    have hcount := h2 x hx
    unfold has_partner at hcount
    rw [decide_eq_true_iff, hl, List.countP_append, List.countP_append] at hcount
    have e1 : pre.countP (fun y => same_size_and_buffer y x) = 0 := by
      rw [List.countP_eq_zero]
      intro y hy
      simp [hpre1 y hy]
    have e2 : post.countP (fun y => same_size_and_buffer y x) = 0 := by
      rw [List.countP_eq_zero]
      intro y hy
      simp [hpost1 y hy]
    have e3 := List.countP_le_length (fun y => same_size_and_buffer y x) (l := g)
    omega
  refine ⟨pre, g, post, pre2, b, rest, post2, hl, ho, hxg, hlen,
    Ranges.length_eq (fun _ _ h => h.marked_length_eq) hrpre,
    Ranges.length_eq (fun _ _ h => h.marked_length_eq) hrpost, hget, hmin, hswap, hperm, hkey,
    ?_, ?_⟩
  · intro y hy
    rcases List.mem_append.1 hy with hy | hy
    · exact hpre1 y hy
    · exact hpost1 y hy
  · intro y hy
    rcases List.mem_append.1 hy with hy | hy
    · obtain ⟨z, hz, e1, e2⟩ := Ranges.mem_rel
        (fun y z : Fileinfo cap => y.size = z.size ∧ y.somebytes = z.somebytes)
        (fun _ _ h => h.mem_key) hrpre y hy
      rw [same_size_and_buffer_congr y z x x e1 e2 rfl rfl]
      exact hpre1 z hz
    · obtain ⟨z, hz, e1, e2⟩ := Ranges.mem_rel
        (fun y z : Fileinfo cap => y.size = z.size ∧ y.somebytes = z.somebytes)
        (fun _ _ h => h.mem_key) hrpost y hy
      rw [same_size_and_buffer_congr y z x x e1 e2 rfl rfl]
      exact hpost1 z hz

/-- Simple facts about a marked range `o :: ds` made from the range `g`: it has the length of
`g`, it has duplicates when `g` has two records, and its records have the size and buffer of the
records of `g`. -/
theorem marked_range_facts (g rest : List (Fileinfo cap)) (b x : Fileinfo cap)
    (hperm : (b :: rest).Perm g) (hlen : 2 ≤ g.length)
    (hkey : ∀ y ∈ g, same_size_and_buffer y x = true) :
    (b.setduptype duptype.DUPTYPE_FIRST_OCCURRENCE ::
      rest.map (marker (b.setduptype duptype.DUPTYPE_FIRST_OCCURRENCE))).length = g.length ∧
    rest.map (marker (b.setduptype duptype.DUPTYPE_FIRST_OCCURRENCE)) ≠ [] ∧
    b ∈ g ∧
    ∀ y ∈ (b.setduptype duptype.DUPTYPE_FIRST_OCCURRENCE ::
      rest.map (marker (b.setduptype duptype.DUPTYPE_FIRST_OCCURRENCE))),
      y.size = x.size ∧ y.somebytes = x.somebytes := by
  have hl := hperm.length_eq
  simp only [List.length_cons] at hl
  refine ⟨by simp [hl], ?_, hperm.subset (List.mem_cons_self _ _), ?_⟩
  · intro h
    have : rest = [] := List.map_eq_nil_iff.1 h
    rw [this] at hl
    simp at hl
    omega
  · intro y hy
    rcases List.mem_cons.1 hy with rfl | hy
    · exact (same_size_and_buffer_iff _ _).1
        (hkey b (hperm.subset (List.mem_cons_self _ _)))
    · obtain ⟨r, hr, rfl⟩ := List.mem_map.1 hy
      rw [marker_size, marker_somebytes]
      exact (same_size_and_buffer_iff _ _).1
        (hkey r (hperm.subset (List.mem_cons_of_mem _ hr)))

theorem not_same_of_false (L : List (Fileinfo cap)) (x : Fileinfo cap)
    (h : ∀ y ∈ L, same_size_and_buffer y x = false) :
    ∀ y ∈ L, ¬ (y.size = x.size ∧ y.somebytes = x.somebytes) := by
  intro y hy hcon
  have := h y hy
  rw [(same_size_and_buffer_iff y x).2 hcon] at this
  exact Bool.false_ne_true this.symm

theorem same_of_true (L : List (Fileinfo cap)) (x : Fileinfo cap)
    (h : ∀ y ∈ L, same_size_and_buffer y x = true) :
    ∀ y ∈ L, y.size = x.size ∧ y.somebytes = x.somebytes :=
  fun y hy => (same_size_and_buffer_iff y x).1 (h y hy)

/-- The kinds and identities of the duplicates of a marked range. -/
theorem marked_duplicates_facts (o : Fileinfo cap) (rest : List (Fileinfo cap)) :
    ∀ d ∈ rest.map (marker o),
      d.getduptype ≠ duptype.DUPTYPE_FIRST_OCCURRENCE ∧
      d.getduptype ≠ duptype.DUPTYPE_UNKNOWN ∧
      d.getidentity = -o.getidentity ∧
      (d.get_cmdline_index = o.get_cmdline_index →
        d.getduptype = duptype.DUPTYPE_WITHIN_SAME_TREE) ∧
      (d.get_cmdline_index ≠ o.get_cmdline_index →
        d.getduptype = duptype.DUPTYPE_OUTSIDE_TREE) := by
  intro d hd
  obtain ⟨r, _, rfl⟩ := List.mem_map.1 hd
  rw [marker_getduptype, marker_get_cmdline_index]
  refine ⟨?_, ?_, marker_getidentity _ _, ?_, ?_⟩
  · split <;> simp
  · split <;> simp
  · intro h; rw [if_pos h]
  · intro h; rw [if_neg h]

/-- A range of the input that holds all records with the size and buffer of `k` has at least two
records when every record of the input has a partner. -/
theorem range_has_two (l pre g post : List (Fileinfo cap)) (k b : Fileinfo cap)
    (h2 : ∀ f ∈ l, has_partner same_size_and_buffer l f = true)
    (hl : l = pre ++ g ++ post) (hb : b ∈ g)
    (hkey : ∀ y ∈ g, same_size_and_buffer y k = true)
    (hout : ∀ y ∈ pre ++ post, same_size_and_buffer y k = false) : 2 ≤ g.length := by
  have hbl : b ∈ l := by rw [hl]; simp [hb]
  obtain ⟨e1, e2⟩ := (same_size_and_buffer_iff b k).1 (hkey b hb)
  have hcount := h2 b hbl
  unfold has_partner at hcount
  rw [decide_eq_true_iff, hl, List.countP_append, List.countP_append] at hcount
  have c1 : pre.countP (fun y => same_size_and_buffer y b) = 0 := by
    rw [List.countP_eq_zero]
    intro y hy
    rw [same_size_and_buffer_congr y y b k rfl rfl e1 e2]
    simp [hout y (List.mem_append_left _ hy)]
  have c2 : post.countP (fun y => same_size_and_buffer y b) = 0 := by
    rw [List.countP_eq_zero]
    intro y hy
    rw [same_size_and_buffer_congr y y b k rfl rfl e1 e2]
    simp [hout y (List.mem_append_right _ hy)]
  have c3 := List.countP_le_length (fun y => same_size_and_buffer y b) (l := g)
  omega

/-- The result of `markduplicates`, seen from every record of the input and from every record
of the result. -/
theorem markduplicates_report (l : List (Fileinfo cap))
    (hs : is_sorted cmpSizeThenBuffer l = true)
    (h2 : ∀ f ∈ l, has_partner same_size_and_buffer l f = true) :
    ∃ out, markduplicates l = some out ∧ out.length = l.length ∧
      ∀ k, (k ∈ l ∨ k ∈ out) → ∃ pre g post pre2 b rest post2,
      l = pre ++ g ++ post ∧
      out = pre2 ++ (b.setduptype duptype.DUPTYPE_FIRST_OCCURRENCE ::
        rest.map (marker (b.setduptype duptype.DUPTYPE_FIRST_OCCURRENCE))) ++ post2 ∧
      (k ∈ l → k ∈ g) ∧
      (k ∈ out → k ∈ (b.setduptype duptype.DUPTYPE_FIRST_OCCURRENCE ::
        rest.map (marker (b.setduptype duptype.DUPTYPE_FIRST_OCCURRENCE)))) ∧
      2 ≤ g.length ∧ pre2.length = pre.length ∧ post2.length = post.length ∧
      (∀ y ∈ g, cmpRank y b = false) ∧ (b :: rest).Perm g ∧
      (∀ y ∈ g, same_size_and_buffer y k = true) ∧
      (∀ y ∈ pre ++ post, same_size_and_buffer y k = false) ∧
      (∀ y ∈ pre2 ++ post2, same_size_and_buffer y k = false) := by
  obtain ⟨out, hout, hlen, hin⟩ := markduplicates_groups_input l hs h2
  obtain ⟨out2, hout2, hres⟩ := markduplicates_groups l hs h2
  have e : out2 = out := by
    rw [hout] at hout2
    exact (Option.some.inj hout2).symm
  subst e
  refine ⟨out2, hout, hlen, ?_⟩
  intro k hk
  by_cases hkl : k ∈ l
  · obtain ⟨pre, g, post, pre2, b, rest, post2, hl, ho, hkg, hlen2, hp1, hp2, _, hmin, _,
      hperm, hkey, ho1, ho2⟩ := hin k hkl
    refine ⟨pre, g, post, pre2, b, rest, post2, hl, ho, fun _ => hkg, ?_, hlen2, hp1, hp2,
      hmin, hperm, hkey, ho1, ho2⟩
    intro hko
    rw [ho] at hko
    rcases List.mem_append.1 hko with hko | hko
    · rcases List.mem_append.1 hko with hko | hko
      · have h1 := ho2 k (List.mem_append_left _ hko)
        have h3 : same_size_and_buffer k k = true := (same_size_and_buffer_iff k k).2 ⟨rfl, rfl⟩
        rw [h3] at h1
        exact absurd h1 (by decide)
      · exact hko
    · have h1 := ho2 k (List.mem_append_right _ hko)
      have h3 : same_size_and_buffer k k = true := (same_size_and_buffer_iff k k).2 ⟨rfl, rfl⟩
      rw [h3] at h1
      exact absurd h1 (by decide)
  · have hko : k ∈ out2 := hk.resolve_left hkl
    obtain ⟨pre, g, post, pre2, b, rest, post2, hl, ho, hkm, hp1, hp2, _, hmin, _, hperm,
      hkey, ho1, ho2⟩ := hres k hko
    exact ⟨pre, g, post, pre2, b, rest, post2, hl, ho, fun h => absurd h hkl, fun _ => hkm,
      range_has_two l pre g post k b h2 hl (hperm.subset (List.mem_cons_self _ _)) hkey ho1,
      hp1, hp2, hmin, hperm, hkey, ho1, ho2⟩

end MarkingGroups

/-! ## Theorems: the report formatter -/

theorem shiftRight_nine_cast (m : Nat) : ((m : Int) >>> (9 : Nat)) = ((m / 512 : Nat) : Int) := by
  rw [Int.shiftRight_eq_div_pow]
  norm_num

theorem shiftRight_ten_cast (m : Nat) :
    (((m : Int) >>> (9 : Nat)) >>> (1 : Nat)) = ((m / 1024 : Nat) : Int) := by
  rw [shiftRight_nine_cast, Int.shiftRight_eq_div_pow]
  norm_num
  omega

theorem land_one_cast (t : Nat) : Int.land (t : Int) 1 = ((t % 2 : Nat) : Int) := by
  show ((t &&& 1 : Nat) : Int) = _
  rw [Nat.and_one_is_mod]

theorem calcrange_loop_unfold (fuel : Nat) (size tmp range : Int) :
    calcrange_loop fuel size tmp range =
      if size > 1024 then
        match fuel with
        | 0 => none
        | fuel + 1 =>
            calcrange_loop fuel ((size >>> (9 : Nat)) >>> (1 : Nat)) (size >>> (9 : Nat))
              (range + 1)
      else some (size, tmp, range) := by
  cases fuel <;> rfl

/-- The loop of `calcrange` started on a natural number `m` with enough iterations allowed: it
stops after `k` divisions by 1024, where `k` is the least exponent with `m / 1024 ^ k ≤ 1024`,
and `tmp` holds the previous value divided by 512. -/
theorem calcrange_loop_spec (fuel : Nat) :
    ∀ (m : Nat) (tmp range : Int), m ≤ fuel →
      ∃ k : Nat,
        calcrange_loop fuel (m : Int) tmp range =
          some (((m / 1024 ^ k : Nat) : Int),
            (if k = 0 then tmp else ((m / 1024 ^ (k - 1) / 512 : Nat) : Int)),
            range + (k : Int)) ∧
        m / 1024 ^ k ≤ 1024 ∧ ∀ j, j < k → 1024 < m / 1024 ^ j := by
  induction fuel with
  | zero =>
      intro m tmp range hm
      refine ⟨0, ?_, ?_, ?_⟩
      · rw [calcrange_loop_unfold]
        have : ¬ ((m : Int) > 1024) := by omega
        simp [this]
      · simp; omega
      · intro j hj; omega
  | succ fuel ih =>
      intro m tmp range hm
      by_cases hbig : (m : Int) > 1024
      · have hm2 : m / 1024 ≤ fuel := by omega
        obtain ⟨k, hk, hle, hlt⟩ := ih (m / 1024) (((m / 512 : Nat) : Int)) (range + 1) hm2
        refine ⟨k + 1, ?_, ?_, ?_⟩
        · rw [calcrange_loop_unfold]
          simp only [hbig, if_true]
          rw [shiftRight_ten_cast, shiftRight_nine_cast, hk]
          have e1 : m / 1024 / 1024 ^ k = m / 1024 ^ (k + 1) := by
            rw [Nat.div_div_eq_div_mul, pow_succ, mul_comm]
          rw [e1]
          by_cases hk0 : k = 0
          · subst hk0
            simp
          · have e2 : m / 1024 / 1024 ^ (k - 1) = m / 1024 ^ (k + 1 - 1) := by
              rw [Nat.div_div_eq_div_mul]
              congr 1
              have : k + 1 - 1 = (k - 1) + 1 := by omega
              rw [this, pow_succ, mul_comm]
            simp only [hk0, if_false, Nat.succ_ne_zero, e2]
            have e3 : range + 1 + (k : Int) = range + ((k + 1 : Nat) : Int) := by
              push_cast; omega
            rw [e3]
        · have e1 : m / 1024 / 1024 ^ k = m / 1024 ^ (k + 1) := by
            rw [Nat.div_div_eq_div_mul, pow_succ, mul_comm]
          rw [← e1]; exact hle
        · intro j hj
          cases j with
          | zero => simp; omega
          | succ j =>
              have := hlt j (by omega)
              have e1 : m / 1024 / 1024 ^ j = m / 1024 ^ (j + 1) := by
                rw [Nat.div_div_eq_div_mul, pow_succ, mul_comm]
              rw [← e1]; exact this
      · refine ⟨0, ?_, ?_, ?_⟩
        · rw [calcrange_loop_unfold]
          simp [hbig]
        · simp; omega
        · intro j hj; omega

/-- The result of `calcrange` on a natural number: the least exponent `r` with
`m / 1024 ^ r ≤ 1024`, and the value `m` itself for `r = 0`, else the previous value divided by
1024 and rounded half up. -/
theorem calcrange_nat (m : Nat) :
    ∃ r : Nat,
      calcrange (m : Int) =
        some ((r : Int),
          if r = 0 then (m : Int) else (((m / 1024 ^ (r - 1) + 512) / 1024 : Nat) : Int)) ∧
      m / 1024 ^ r ≤ 1024 ∧ ∀ j, j < r → 1024 < m / 1024 ^ j := by
  obtain ⟨k, hk, hle, hlt⟩ := calcrange_loop_spec m m 0 0 (le_refl m)
  refine ⟨k, ?_, hle, hlt⟩
  unfold calcrange
  rw [Int.toNat_natCast, hk]
  by_cases hk0 : k = 0
  · subst hk0
    simp
    decide
  · simp only [hk0, if_false, zero_add]
    rw [land_one_cast]
    have e : m / 1024 ^ k = m / 1024 ^ (k - 1) / 1024 := by
      rw [Nat.div_div_eq_div_mul]
      congr 1
      have : k = (k - 1) + 1 := by omega
      conv_lhs => rw [this, pow_succ]
    rw [e]
    generalize m / 1024 ^ (k - 1) = q
    by_cases hodd : q / 512 % 2 = 0
    · have : ¬ (((q / 512 % 2 : Nat) : Int) ≠ 0) := by simp [hodd]
      rw [if_neg this]
      congr 2
      norm_cast
      omega
    · have : (((q / 512 % 2 : Nat) : Int) ≠ 0) := by
        intro h; apply hodd; exact_mod_cast h
      rw [if_pos this]
      congr 2
      norm_cast
      omega

/-! ## Claims: the final marking -/

section ClaimsMarking

variable {cap : Nat}

/-- C1: for every collection that is sorted by (size, buffer) and in which every record has a
partner of the same size and buffer (every maximal range has at least 2 members),
`markduplicates` returns a collection of the same length, and for every record `k` of the input
or of the result the input and the result split at the same positions into the part before the
range of `k`, the range, and the part behind it: the range `g` of the input holds all input
records with the size and buffer of `k`, the range `o :: ds` of the result holds all records of
the result with that size and buffer, it has duplicates (`ds` is not empty), exactly one record
of it has kind `DUPTYPE_FIRST_OCCURRENCE`, namely `o`, and every other record of it has the
negation of the identity of `o` as identity. -/
theorem markduplicates_one_first_occurrence_per_range (l : List (Fileinfo cap))
    (hs : is_sorted cmpSizeThenBuffer l = true)
    (h2 : ∀ f ∈ l, has_partner same_size_and_buffer l f = true) :
    ∃ out, markduplicates l = some out ∧ out.length = l.length ∧
      ∀ k, (k ∈ l ∨ k ∈ out) → ∃ pre g post pre2 o ds post2,
        l = pre ++ g ++ post ∧ out = pre2 ++ (o :: ds) ++ post2 ∧
        pre2.length = pre.length ∧ (o :: ds).length = g.length ∧
        post2.length = post.length ∧
        (k ∈ l → k ∈ g) ∧ (k ∈ out → k ∈ o :: ds) ∧ ds ≠ [] ∧
        (∀ y ∈ g, y.size = k.size ∧ y.somebytes = k.somebytes) ∧
        (∀ y ∈ pre ++ post, ¬ (y.size = k.size ∧ y.somebytes = k.somebytes)) ∧
        (∀ y ∈ o :: ds, y.size = k.size ∧ y.somebytes = k.somebytes) ∧
        (∀ y ∈ pre2 ++ post2, ¬ (y.size = k.size ∧ y.somebytes = k.somebytes)) ∧
        o.getduptype = duptype.DUPTYPE_FIRST_OCCURRENCE ∧
        ∀ d ∈ ds, d.getduptype ≠ duptype.DUPTYPE_FIRST_OCCURRENCE ∧
          d.getidentity = -o.getidentity := by
  obtain ⟨out, hout, hlen, hrep⟩ := markduplicates_report l hs h2
  refine ⟨out, hout, hlen, ?_⟩
  intro k hk
  obtain ⟨pre, g, post, pre2, b, rest, post2, hl, ho, hkl, hko, hlen2, hp1, hp2, _, hperm,
    hkey, ho1, ho2⟩ := hrep k hk
  obtain ⟨f1, f2, _, f4⟩ := marked_range_facts g rest b k hperm hlen2 hkey
  refine ⟨pre, g, post, pre2, _, _, post2, hl, ho, hp1, f1, hp2, hkl, hko, f2,
    same_of_true g k hkey, not_same_of_false _ k ho1, f4, not_same_of_false _ k ho2, rfl, ?_⟩
  intro d hd
  obtain ⟨g1, _, g3, _, _⟩ := marked_duplicates_facts _ rest d hd
  exact ⟨g1, g3⟩

/-- Witness for C1: the three identical files A, B, C. -/
theorem markduplicates_one_first_occurrence_per_range_witness :
    is_sorted cmpSizeThenBuffer [fileA, fileB, fileC] = true ∧
    (∀ f ∈ [fileA, fileB, fileC],
      has_partner same_size_and_buffer [fileA, fileB, fileC] f = true) ∧
    markduplicates [fileA, fileB, fileC] =
      some [fileA.setduptype duptype.DUPTYPE_FIRST_OCCURRENCE,
        (fileB.setidentity (-fileA.getidentity)).setduptype duptype.DUPTYPE_WITHIN_SAME_TREE,
        (fileC.setidentity (-fileA.getidentity)).setduptype duptype.DUPTYPE_OUTSIDE_TREE] ∧
    ∃ out, markduplicates [fileA, fileB, fileC] = some out ∧
      out.length = [fileA, fileB, fileC].length ∧
      ∀ k, (k ∈ [fileA, fileB, fileC] ∨ k ∈ out) → ∃ pre g post pre2 o ds post2,
        [fileA, fileB, fileC] = pre ++ g ++ post ∧ out = pre2 ++ (o :: ds) ++ post2 ∧
        pre2.length = pre.length ∧ (o :: ds).length = g.length ∧
        post2.length = post.length ∧
        (k ∈ [fileA, fileB, fileC] → k ∈ g) ∧ (k ∈ out → k ∈ o :: ds) ∧ ds ≠ [] ∧
        (∀ y ∈ g, y.size = k.size ∧ y.somebytes = k.somebytes) ∧
        (∀ y ∈ pre ++ post, ¬ (y.size = k.size ∧ y.somebytes = k.somebytes)) ∧
        (∀ y ∈ o :: ds, y.size = k.size ∧ y.somebytes = k.somebytes) ∧
        (∀ y ∈ pre2 ++ post2, ¬ (y.size = k.size ∧ y.somebytes = k.somebytes)) ∧
        o.getduptype = duptype.DUPTYPE_FIRST_OCCURRENCE ∧
        ∀ d ∈ ds, d.getduptype ≠ duptype.DUPTYPE_FIRST_OCCURRENCE ∧
          d.getidentity = -o.getidentity :=
  ⟨by decide, by decide, by decide,
    markduplicates_one_first_occurrence_per_range [fileA, fileB, fileC] (by decide)
      (by decide)⟩

/-- C2: for every collection as in C1 whose identities are unique and positive, `markduplicates`
returns a collection of the same length, and for every record `k` of the input or of the result
the input and the result split at the same positions around the range of `k` (the range `g` of
the input holds all input records with the size and buffer of `k`); the record `o` at the first
position of the range of the result is the record `b` of `g` that ranks before every other
record of `g` under `cmpRank` (input index, then depth, then identity), marked
`DUPTYPE_FIRST_OCCURRENCE`: it keeps its identity (it differs from `b` in the kind only), which
is positive, while the other records of the range are not marked as first occurrence and carry
a negative identity. In the scenario of the three identical files A, B, C (input indices
0, 0, 1 and depths 1, 2, 1) the original is A, B is a duplicate in the same tree and C a
duplicate outside the tree. -/
theorem markduplicates_original_is_rank_minimum (l : List (Fileinfo cap))
    (hs : is_sorted cmpSizeThenBuffer l = true)
    (h2 : ∀ f ∈ l, has_partner same_size_and_buffer l f = true)
    (hid : (l.map (fun f => f.getidentity)).Nodup)
    (hpos : ∀ f ∈ l, 0 < f.getidentity) :
    (∃ out, markduplicates l = some out ∧ out.length = l.length ∧
      ∀ k, (k ∈ l ∨ k ∈ out) → ∃ pre g post pre2 o ds post2 b,
        l = pre ++ g ++ post ∧ out = pre2 ++ (o :: ds) ++ post2 ∧
        pre2.length = pre.length ∧ (o :: ds).length = g.length ∧
        post2.length = post.length ∧
        (k ∈ l → k ∈ g) ∧ (k ∈ out → k ∈ o :: ds) ∧ ds ≠ [] ∧
        (∀ y ∈ g, y.size = k.size ∧ y.somebytes = k.somebytes) ∧
        (∀ y ∈ pre ++ post, ¬ (y.size = k.size ∧ y.somebytes = k.somebytes)) ∧
        (∀ y ∈ pre2 ++ post2, ¬ (y.size = k.size ∧ y.somebytes = k.somebytes)) ∧
        b ∈ g ∧ (∀ y ∈ g, y = b ∨ cmpRank b y = true) ∧
        o = b.setduptype duptype.DUPTYPE_FIRST_OCCURRENCE ∧
        o.getidentity = b.getidentity ∧ 0 < o.getidentity ∧
        ∀ d ∈ ds, d.getduptype ≠ duptype.DUPTYPE_FIRST_OCCURRENCE ∧ d.getidentity < 0) ∧
    markduplicates [fileA, fileB, fileC] =
      some [fileA.setduptype duptype.DUPTYPE_FIRST_OCCURRENCE,
        (fileB.setidentity (-fileA.getidentity)).setduptype duptype.DUPTYPE_WITHIN_SAME_TREE,
        (fileC.setidentity (-fileA.getidentity)).setduptype duptype.DUPTYPE_OUTSIDE_TREE] := by
  refine ⟨?_, by decide⟩
  obtain ⟨out, hout, hlen, hrep⟩ := markduplicates_report l hs h2
  refine ⟨out, hout, hlen, ?_⟩
  intro k hk
  obtain ⟨pre, g, post, pre2, b, rest, post2, hl, ho, hkl, hko, hlen2, hp1, hp2, hmin, hperm,
    hkey, ho1, ho2⟩ := hrep k hk
  obtain ⟨f1, f2, hbg, _⟩ := marked_range_facts g rest b k hperm hlen2 hkey
  have hgl : ∀ y ∈ g, y ∈ l := by
    intro y hy; rw [hl]; simp [hy]
  have hbpos : 0 < b.getidentity := hpos b (hgl b hbg)
  refine ⟨pre, g, post, pre2, _, _, post2, b, hl, ho, hp1, f1, hp2, hkl, hko, f2,
    same_of_true g k hkey, not_same_of_false _ k ho1, not_same_of_false _ k ho2, hbg, ?_, rfl,
    rfl, hbpos, ?_⟩
  · intro y hy
    by_cases hyb : y.getidentity = b.getidentity
    · left
      exact List.inj_on_of_nodup_map hid (hgl y hy) (hgl b hbg) hyb
    · right
      rcases cmpRank_total b y (Ne.symm hyb) with h | h
      · exact h
      · rw [hmin y hy] at h; exact absurd h Bool.false_ne_true
  · intro d hd
    obtain ⟨g1, _, g3, _, _⟩ := marked_duplicates_facts _ rest d hd
    refine ⟨g1, ?_⟩
    rw [g3]
    show -b.getidentity < 0
    omega

/-- Witness for C2: the three identical files A, B, C, listed with the original last. -/
theorem markduplicates_original_is_rank_minimum_witness :
    is_sorted cmpSizeThenBuffer [fileC, fileB, fileA] = true ∧
    (∀ f ∈ [fileC, fileB, fileA],
      has_partner same_size_and_buffer [fileC, fileB, fileA] f = true) ∧
    ([fileC, fileB, fileA].map (fun f => f.getidentity)).Nodup ∧
    (∀ f ∈ [fileC, fileB, fileA], 0 < f.getidentity) ∧
    markduplicates [fileC, fileB, fileA] =
      some [fileA.setduptype duptype.DUPTYPE_FIRST_OCCURRENCE,
        (fileB.setidentity (-fileA.getidentity)).setduptype duptype.DUPTYPE_WITHIN_SAME_TREE,
        (fileC.setidentity (-fileA.getidentity)).setduptype duptype.DUPTYPE_OUTSIDE_TREE] ∧
    ((∃ out, markduplicates [fileC, fileB, fileA] = some out ∧
      out.length = [fileC, fileB, fileA].length ∧
      ∀ k, (k ∈ [fileC, fileB, fileA] ∨ k ∈ out) → ∃ pre g post pre2 o ds post2 b,
        [fileC, fileB, fileA] = pre ++ g ++ post ∧ out = pre2 ++ (o :: ds) ++ post2 ∧
        pre2.length = pre.length ∧ (o :: ds).length = g.length ∧
        post2.length = post.length ∧
        (k ∈ [fileC, fileB, fileA] → k ∈ g) ∧ (k ∈ out → k ∈ o :: ds) ∧ ds ≠ [] ∧
        (∀ y ∈ g, y.size = k.size ∧ y.somebytes = k.somebytes) ∧
        (∀ y ∈ pre ++ post, ¬ (y.size = k.size ∧ y.somebytes = k.somebytes)) ∧
        (∀ y ∈ pre2 ++ post2, ¬ (y.size = k.size ∧ y.somebytes = k.somebytes)) ∧
        b ∈ g ∧ (∀ y ∈ g, y = b ∨ cmpRank b y = true) ∧
        o = b.setduptype duptype.DUPTYPE_FIRST_OCCURRENCE ∧
        o.getidentity = b.getidentity ∧ 0 < o.getidentity ∧
        ∀ d ∈ ds, d.getduptype ≠ duptype.DUPTYPE_FIRST_OCCURRENCE ∧ d.getidentity < 0) ∧
      markduplicates [fileA, fileB, fileC] =
        some [fileA.setduptype duptype.DUPTYPE_FIRST_OCCURRENCE,
          (fileB.setidentity (-fileA.getidentity)).setduptype duptype.DUPTYPE_WITHIN_SAME_TREE,
          (fileC.setidentity (-fileA.getidentity)).setduptype
            duptype.DUPTYPE_OUTSIDE_TREE]) :=
  ⟨by decide, by decide, by decide, by decide, by decide,
    markduplicates_original_is_rank_minimum [fileC, fileB, fileA] (by decide) (by decide)
      (by decide) (by decide)⟩

/-- C3: for every collection as in C1, `markduplicates` returns a collection of the same length,
and for every record `k` of the input or of the result the input and the result split at the
same positions around the range of `k`; every record `d` of the range of the result other than
the original `o` has kind `DUPTYPE_WITHIN_SAME_TREE` if its command line index equals that of
`o` and `DUPTYPE_OUTSIDE_TREE` otherwise, and no record of the result has kind
`DUPTYPE_UNKNOWN`. -/
theorem markduplicates_duplicate_kinds (l : List (Fileinfo cap))
    (hs : is_sorted cmpSizeThenBuffer l = true)
    (h2 : ∀ f ∈ l, has_partner same_size_and_buffer l f = true) :
    ∃ out, markduplicates l = some out ∧ out.length = l.length ∧
      (∀ k, (k ∈ l ∨ k ∈ out) → ∃ pre g post pre2 o ds post2,
        l = pre ++ g ++ post ∧ out = pre2 ++ (o :: ds) ++ post2 ∧
        pre2.length = pre.length ∧ (o :: ds).length = g.length ∧
        post2.length = post.length ∧
        (k ∈ l → k ∈ g) ∧ (k ∈ out → k ∈ o :: ds) ∧ ds ≠ [] ∧
        (∀ y ∈ g, y.size = k.size ∧ y.somebytes = k.somebytes) ∧
        (∀ y ∈ pre ++ post, ¬ (y.size = k.size ∧ y.somebytes = k.somebytes)) ∧
        (∀ y ∈ o :: ds, y.size = k.size ∧ y.somebytes = k.somebytes) ∧
        (∀ y ∈ pre2 ++ post2, ¬ (y.size = k.size ∧ y.somebytes = k.somebytes)) ∧
        o.getduptype = duptype.DUPTYPE_FIRST_OCCURRENCE ∧
        ∀ d ∈ ds,
          (d.get_cmdline_index = o.get_cmdline_index →
            d.getduptype = duptype.DUPTYPE_WITHIN_SAME_TREE) ∧
          (d.get_cmdline_index ≠ o.get_cmdline_index →
            d.getduptype = duptype.DUPTYPE_OUTSIDE_TREE)) ∧
      ∀ x ∈ out, x.getduptype ≠ duptype.DUPTYPE_UNKNOWN := by
  obtain ⟨out, hout, hlen, hrep⟩ := markduplicates_report l hs h2
  refine ⟨out, hout, hlen, ?_, ?_⟩
  · intro k hk
    obtain ⟨pre, g, post, pre2, b, rest, post2, hl, ho, hkl, hko, hlen2, hp1, hp2, _, hperm,
      hkey, ho1, ho2⟩ := hrep k hk
    obtain ⟨f1, f2, _, f4⟩ := marked_range_facts g rest b k hperm hlen2 hkey
    refine ⟨pre, g, post, pre2, _, _, post2, hl, ho, hp1, f1, hp2, hkl, hko, f2,
      same_of_true g k hkey, not_same_of_false _ k ho1, f4, not_same_of_false _ k ho2, rfl,
      ?_⟩
    intro d hd
    obtain ⟨_, _, _, g4, g5⟩ := marked_duplicates_facts _ rest d hd
    exact ⟨g4, g5⟩
  · intro x hx
    obtain ⟨pre, g, post, pre2, b, rest, post2, _, _, _, hko, _⟩ := hrep x (Or.inr hx)
    rcases List.mem_cons.1 (hko hx) with rfl | hxm
    · simp [Fileinfo.setduptype]
    · exact (marked_duplicates_facts _ rest x hxm).2.1

/-- Witness for C3: the three identical files A, B, C. -/
theorem markduplicates_duplicate_kinds_witness :
    is_sorted cmpSizeThenBuffer [fileB, fileC, fileA] = true ∧
    (∀ f ∈ [fileB, fileC, fileA],
      has_partner same_size_and_buffer [fileB, fileC, fileA] f = true) ∧
    markduplicates [fileB, fileC, fileA] =
      some [fileA.setduptype duptype.DUPTYPE_FIRST_OCCURRENCE,
        (fileC.setidentity (-fileA.getidentity)).setduptype duptype.DUPTYPE_OUTSIDE_TREE,
        (fileB.setidentity (-fileA.getidentity)).setduptype duptype.DUPTYPE_WITHIN_SAME_TREE] ∧
    ∃ out, markduplicates [fileB, fileC, fileA] = some out ∧
      out.length = [fileB, fileC, fileA].length ∧
      (∀ k, (k ∈ [fileB, fileC, fileA] ∨ k ∈ out) → ∃ pre g post pre2 o ds post2,
        [fileB, fileC, fileA] = pre ++ g ++ post ∧ out = pre2 ++ (o :: ds) ++ post2 ∧
        pre2.length = pre.length ∧ (o :: ds).length = g.length ∧
        post2.length = post.length ∧
        (k ∈ [fileB, fileC, fileA] → k ∈ g) ∧ (k ∈ out → k ∈ o :: ds) ∧ ds ≠ [] ∧
        (∀ y ∈ g, y.size = k.size ∧ y.somebytes = k.somebytes) ∧
        (∀ y ∈ pre ++ post, ¬ (y.size = k.size ∧ y.somebytes = k.somebytes)) ∧
        (∀ y ∈ o :: ds, y.size = k.size ∧ y.somebytes = k.somebytes) ∧
        (∀ y ∈ pre2 ++ post2, ¬ (y.size = k.size ∧ y.somebytes = k.somebytes)) ∧
        o.getduptype = duptype.DUPTYPE_FIRST_OCCURRENCE ∧
        ∀ d ∈ ds,
          (d.get_cmdline_index = o.get_cmdline_index →
            d.getduptype = duptype.DUPTYPE_WITHIN_SAME_TREE) ∧
          (d.get_cmdline_index ≠ o.get_cmdline_index →
            d.getduptype = duptype.DUPTYPE_OUTSIDE_TREE)) ∧
      ∀ x ∈ out, x.getduptype ≠ duptype.DUPTYPE_UNKNOWN :=
  ⟨by decide, by decide, by decide,
    markduplicates_duplicate_kinds [fileB, fileC, fileA] (by decide) (by decide)⟩

end ClaimsMarking

/-! ## Claims: the filter passes and the ranking -/

section ClaimsPasses

variable {cap : Nat}

theorem has_partner_same_size_congr (l : List (Fileinfo cap)) (x f : Fileinfo cap)
    (h : x.size = f.size) : has_partner same_size l x = has_partner same_size l f := by
  unfold has_partner same_size
  rw [h]

/-- C4: for every input collection `removeUniqueSizes` returns; the records remaining are
exactly the input records whose size is shared by at least one other input record (in some
order, with the delete flag cleared), whatever the size, zero included; the return value is the
number of records removed; and the size of every surviving record occurs at least 2 times among
the survivors. -/
theorem removeUniqueSizes_keeps_shared_sizes (sort : SortFn (Fileinfo cap))
    (hsort : IsStdSort sort) (l : List (Fileinfo cap)) :
    ∃ out, removeUniqueSizes sort l = some (out, l.length - out.length) ∧
      out.Perm ((l.filter (has_partner same_size l)).map (fun f => f.setdeleteflag false)) ∧
      ∀ o ∈ out, 2 ≤ out.countP (fun g => decide (g.size = o.size)) := by
  obtain ⟨out, hout, hperm⟩ := removeUniqueSizes_survivors hsort l
  refine ⟨out, hout, hperm, ?_⟩
  intro o ho
  obtain ⟨f, hf, rfl⟩ := List.mem_map.1 (hperm.subset ho)
  obtain ⟨hfl, hsel⟩ := List.mem_filter.1 hf
  rw [hperm.countP_eq, List.countP_map, List.countP_filter]
  have hcongr : l.countP (fun a => ((fun g : Fileinfo cap =>
        decide (g.size = (f.setdeleteflag false).size)) ∘
        fun f => f.setdeleteflag false) a && has_partner same_size l a) =
      l.countP (fun g => same_size g f) := by
    apply List.countP_congr
    intro x _
    by_cases hx : x.size = f.size
    · have e := has_partner_same_size_congr l x f hx
      simp [same_size, Fileinfo.setdeleteflag, hx, e, hsel]
    · simp [same_size, Fileinfo.setdeleteflag, hx]
  rw [hcongr]
  unfold has_partner at hsel
  exact of_decide_eq_true hsel

/-- Witness for C4: two empty files and one file of 20 bytes; the two empty files survive. -/
theorem removeUniqueSizes_keeps_shared_sizes_witness :
    IsStdSort (insertion_sort : SortFn (Fileinfo 2)) ∧
    removeUniqueSizes insertion_sort [fileZ1, fileT2, fileZ2] = some ([fileZ1, fileZ2], 1) ∧
    ∃ out, removeUniqueSizes insertion_sort [fileZ1, fileT2, fileZ2] =
        some (out, [fileZ1, fileT2, fileZ2].length - out.length) ∧
      out.Perm (([fileZ1, fileT2, fileZ2].filter
        (has_partner same_size [fileZ1, fileT2, fileZ2])).map
          (fun f => f.setdeleteflag false)) ∧
      ∀ o ∈ out, 2 ≤ out.countP (fun g => decide (g.size = o.size)) :=
  ⟨insertion_sort_isStdSort, by decide,
    removeUniqueSizes_keeps_shared_sizes insertion_sort insertion_sort_isStdSort
      [fileZ1, fileT2, fileZ2]⟩

/-- C5: for every input collection `removeUniqSizeAndBuffer` returns, and a record survives
exactly if some other record of the input has the same size and a byte-for-byte equal sample
buffer (the survivors are those input records, in some order, with the delete flag cleared).
For three files of sizes 10, 20, 10 of which the two of size 10 have different buffers,
`removeUniqueSizes` followed by `removeUniqSizeAndBuffer` leaves the collection empty. -/
theorem removeUniqSizeAndBuffer_keeps_shared_buffers (sort : SortFn (Fileinfo cap))
    (hsort : IsStdSort sort) (l : List (Fileinfo cap)) :
    (∃ out, removeUniqSizeAndBuffer sort l = some (out, l.length - out.length) ∧
      out.Perm
        ((l.filter (has_partner same_size_and_buffer l)).map
          (fun f => f.setdeleteflag false))) ∧
    (∀ a b c : Fileinfo cap, a.size = 10 → b.size = 20 → c.size = 10 →
      a.somebytes ≠ c.somebytes →
      ∃ out1 n1, removeUniqueSizes sort [a, b, c] = some (out1, n1) ∧
        ∃ n2, removeUniqSizeAndBuffer sort out1 = some ([], n2)) := by
  refine ⟨removeUniqSizeAndBuffer_survivors hsort l, ?_⟩
  intro a b c ha hb hc hne
  obtain ⟨out1, hout1, hperm1⟩ := removeUniqueSizes_survivors hsort [a, b, c]
  obtain ⟨out2, hout2, hperm2⟩ := removeUniqSizeAndBuffer_survivors hsort out1
  have e1 : ([a, b, c].filter (has_partner same_size [a, b, c])).map
      (fun f => f.setdeleteflag false) = [a.setdeleteflag false, c.setdeleteflag false] := by
    simp [List.filter_cons, has_partner, same_size, List.countP_cons, ha, hb, hc]
  rw [e1] at hperm1
  have e2 : out1.filter (has_partner same_size_and_buffer out1) = [] := by
    rw [List.filter_eq_nil_iff]
    intro x hx
    rw [has_partner_perm same_size_and_buffer hperm1]
    have hne2 : ¬ c.somebytes = a.somebytes := fun h => hne h.symm
    rcases List.mem_cons.1 (hperm1.subset hx) with rfl | hx2
    · simp [has_partner, same_size_and_buffer, List.countP_cons, Fileinfo.setdeleteflag, hne2]
    · rw [List.mem_singleton.1 hx2]
      simp [has_partner, same_size_and_buffer, List.countP_cons, Fileinfo.setdeleteflag, hne]
  rw [e2] at hperm2
  have e3 : out2 = [] := List.Perm.eq_nil hperm2
  rw [e3] at hout2
  exact ⟨out1, _, hout1, _, hout2⟩

/-- Witness for C5: the files of sizes 10, 20, 10 with different buffers, and the three
identical files together with a file of another size. -/
theorem removeUniqSizeAndBuffer_keeps_shared_buffers_witness :
    IsStdSort (insertion_sort : SortFn (Fileinfo 2)) ∧
    removeUniqueSizes insertion_sort [fileT1, fileT2, fileT3] = some ([fileT1, fileT3], 1) ∧
    removeUniqSizeAndBuffer insertion_sort [fileT1, fileT3] = some ([], 2) ∧
    removeUniqSizeAndBuffer insertion_sort [fileA, fileT1, fileB, fileC] =
      some ([fileA, fileB, fileC], 1) ∧
    ((∃ out, removeUniqSizeAndBuffer insertion_sort [fileA, fileT1, fileB, fileC] =
        some (out, [fileA, fileT1, fileB, fileC].length - out.length) ∧
      out.Perm
        (([fileA, fileT1, fileB, fileC].filter
          (has_partner same_size_and_buffer [fileA, fileT1, fileB, fileC])).map
          (fun f => f.setdeleteflag false))) ∧
    (∀ a b c : Fileinfo 2, a.size = 10 → b.size = 20 → c.size = 10 →
      a.somebytes ≠ c.somebytes →
      ∃ out1 n1, removeUniqueSizes insertion_sort [a, b, c] = some (out1, n1) ∧
        ∃ n2, removeUniqSizeAndBuffer insertion_sort out1 = some ([], n2))) :=
  ⟨insertion_sort_isStdSort, by decide, by decide, by decide,
    removeUniqSizeAndBuffer_keeps_shared_buffers insertion_sort insertion_sort_isStdSort
      [fileA, fileT1, fileB, fileC]⟩

/-- C6: for every input collection with unique identities `removeIdenticalInodes` returns;
exactly one record survives for each (device, inode) pair occurring in the input; every survivor
is an input record (with the delete flag cleared) that ranks before every other input record
with its device and inode under `cmpRank` (input index, then depth, then identity); and the
returned value is the number of records removed. -/
theorem removeIdenticalInodes_keeps_rank_minimum (sort : SortFn (Fileinfo cap))
    (hsort : IsStdSort sort) (l : List (Fileinfo cap))
    (hid : (l.map (fun f => f.getidentity)).Nodup) :
    ∃ out n, removeIdenticalInodes sort l = some (out, n) ∧
      n = l.length - out.length ∧ n + out.length = l.length ∧
      (∀ f ∈ l,
        out.countP (fun o => decide (o.device = f.device) && decide (o.inode = f.inode)) = 1) ∧
      (∀ o ∈ out, ∃ f ∈ l, o = f.setdeleteflag false ∧
        ∀ h ∈ l, h.device = f.device → h.inode = f.inode → h = f ∨ cmpRank f h = true) := by
  obtain ⟨out, hout, hperm⟩ := removeIdenticalInodes_survivors hsort l hid
  have hlen : out.length ≤ l.length := by
    rw [hperm.length_eq, List.length_map]
    exact List.length_filter_le _ _
  refine ⟨out, _, hout, rfl, by omega, ?_, ?_⟩
  · intro f hf
    rw [hperm.countP_eq, List.countP_map, List.countP_filter]
    -- the rank-minimal record of the class of `f`
    have hcne : l.filter (fun x => same_inode x f) ≠ [] := by
      apply List.ne_nil_of_mem (a := f)
      rw [List.mem_filter]
      exact ⟨hf, by simp [same_inode]⟩
    obtain ⟨b, hget, hmin⟩ := min_element_spec cmpRank_swo _ hcne
    have hbc : b ∈ l.filter (fun x => same_inode x f) := by
      have := (split_at_get _ _ b hget).2
      rw [this]; simp
    obtain ⟨hbl, hbf⟩ := List.mem_filter.1 hbc
    have hbf2 : b.device = f.device ∧ b.inode = f.inode := by
      simpa [same_inode] using hbf
    have hcongr : l.countP (fun a =>
        ((fun o : Fileinfo cap => decide (o.device = f.device) && decide (o.inode = f.inode)) ∘
          fun f => f.setdeleteflag false) a && is_rank_minimal_on_inode l a) =
        l.countP (fun a => decide (a = b)) := by
      apply List.countP_congr
      intro x hx
      have hfun : ((fun o : Fileinfo cap =>
          decide (o.device = f.device) && decide (o.inode = f.inode)) ∘
          fun f => f.setdeleteflag false) x = same_inode x f := rfl
      rw [hfun]
      by_cases hxb : x = b
      · subst hxb
        have hsel : is_rank_minimal_on_inode l x = true := by
          rw [is_rank_minimal_on_inode_iff]
          intro h hh hd hi
          by_cases hhb : h.getidentity = x.getidentity
          · left
            exact List.inj_on_of_nodup_map hid hh hx hhb
          · right
            have hhc : h ∈ l.filter (fun y => same_inode y f) := by
              rw [List.mem_filter]
              exact ⟨hh, by simp [same_inode, hd, hi, hbf2.1, hbf2.2]⟩
            rcases cmpRank_total x h (Ne.symm hhb) with h3 | h3
            · exact h3
            · rw [hmin h hhc] at h3; exact absurd h3 Bool.false_ne_true
        rw [hbf, hsel, decide_eq_true rfl]
        rfl
      · rw [decide_eq_false hxb]
        cases h1 : same_inode x f with
        | false => rfl
        | true =>
            cases h2 : is_rank_minimal_on_inode l x with
            | false => rfl
            | true =>
                exfalso
                have h1b : x.device = f.device ∧ x.inode = f.inode := by
                  simpa [same_inode] using h1
                have hxc : x ∈ l.filter (fun x => same_inode x f) := by
                  rw [List.mem_filter]
                  exact ⟨hx, h1⟩
                rcases (is_rank_minimal_on_inode_iff l x).1 h2 b hbl
                  (hbf2.1.trans h1b.1.symm) (hbf2.2.trans h1b.2.symm) with h3 | h3
                · exact hxb h3.symm
                · rw [hmin x hxc] at h3; exact absurd h3 Bool.false_ne_true
    rw [hcongr]
    exact List.count_eq_one_of_mem (List.Nodup.of_map _ hid) hbl
  · intro o ho
    obtain ⟨f, hf, rfl⟩ := List.mem_map.1 (hperm.subset ho)
    obtain ⟨hfl, hsel⟩ := List.mem_filter.1 hf
    exact ⟨f, hfl, rfl, (is_rank_minimal_on_inode_iff l f).1 hsel⟩

/-- Witness for C6: the file A, a hard link to it found deeper in the tree, and the file B. -/
theorem removeIdenticalInodes_keeps_rank_minimum_witness :
    IsStdSort (insertion_sort : SortFn (Fileinfo 2)) ∧
    ([fileA_link, fileB, fileA].map (fun f => f.getidentity)).Nodup ∧
    removeIdenticalInodes insertion_sort [fileA_link, fileB, fileA] =
      some ([fileA, fileB], 1) ∧
    ∃ out n, removeIdenticalInodes insertion_sort [fileA_link, fileB, fileA] = some (out, n) ∧
      n = [fileA_link, fileB, fileA].length - out.length ∧
      n + out.length = [fileA_link, fileB, fileA].length ∧
      (∀ f ∈ [fileA_link, fileB, fileA],
        out.countP (fun o => decide (o.device = f.device) && decide (o.inode = f.inode)) = 1) ∧
      (∀ o ∈ out, ∃ f ∈ [fileA_link, fileB, fileA], o = f.setdeleteflag false ∧
        ∀ h ∈ [fileA_link, fileB, fileA], h.device = f.device → h.inode = f.inode →
          h = f ∨ cmpRank f h = true) :=
  ⟨insertion_sort_isStdSort, by decide, by decide,
    removeIdenticalInodes_keeps_rank_minimum insertion_sort insertion_sort_isStdSort
      [fileA_link, fileB, fileA] (by decide)⟩

/-- C7: `cmpRank` is a strict total order on records with distinct identities: of two records
whose identities differ exactly one ranks before the other; no record ranks before itself; and
`cmpRank` is transitive. -/
theorem cmpRank_strict_total_order :
    (∀ a b : Fileinfo cap, a.getidentity ≠ b.getidentity →
      (cmpRank a b = true ∧ cmpRank b a = false) ∨
        (cmpRank a b = false ∧ cmpRank b a = true)) ∧
    (∀ a : Fileinfo cap, cmpRank a a = false) ∧
    (∀ a b c : Fileinfo cap, cmpRank a b = true → cmpRank b c = true →
      cmpRank a c = true) := by
  refine ⟨?_, cmpRank_irrefl, cmpRank_trans⟩
  intro a b hid
  rcases cmpRank_total a b hid with h | h
  · exact Or.inl ⟨h, cmpRank_swo.asymm h⟩
  · exact Or.inr ⟨cmpRank_swo.asymm h, h⟩

/-- Witness for C7: the file A ranks before the file B, and B does not rank before A. -/
theorem cmpRank_strict_total_order_witness :
    fileA.getidentity ≠ fileB.getidentity ∧
    ((cmpRank fileA fileB = true ∧ cmpRank fileB fileA = false) ∨
      (cmpRank fileA fileB = false ∧ cmpRank fileB fileA = true)) :=
  ⟨by decide, cmpRank_strict_total_order.1 fileA fileB (by decide)⟩

end ClaimsPasses

/-! ## Claims: the report formatter -/

/-- C8 (as stated, refuted): for 1024 bytes the converter prints "1024 B", not "1 KiB", and for
1024 * 1024 bytes it prints "1024 KiB", not "1 MiB". -/
theorem format_size_claimed_values_refuted :
    format_size 1024 = some "1024 B" ∧ format_size 1024 ≠ some "1 KiB" ∧
      format_size (1024 * 1024) = some "1024 KiB" ∧
      format_size (1024 * 1024) ≠ some "1 MiB" := by
  decide

/-- C8 (amended): `calcrange` followed by `byteprefix`, as printed by `totalsize`, yields "0 B"
for 0 bytes, "1023 B" for 1023 bytes, "1024 B" for 1024 bytes and "1024 KiB" for 1024 * 1024
bytes: a value of exactly 1024 is not carried to the next unit. -/
theorem format_size_boundary_values :
    format_size 0 = some "0 B" ∧ format_size 1023 = some "1023 B" ∧
      format_size 1024 = some "1024 B" ∧ format_size (1024 * 1024) = some "1024 KiB" := by
  decide

/-- C9 (as stated, refuted): for 1049088 bytes (1 MiB + 512 B) `calcrange` returns range 1 and
leaves 1025 in its argument, which exceeds 1024. -/
theorem calcrange_value_exceeds_1024 :
    calcrange 1049088 = some (1, 1025) ∧ ¬ ((1025 : Int) ≤ 1024) := by
  decide

/-- C9 (amended): for every non-negative byte count `calcrange` returns, and the scaled value it
leaves in its argument is at most 1025 (the truncated value is at most 1024 and the final
rounding adds at most one). -/
theorem calcrange_value_le_1025 (n : Int) (hn : 0 ≤ n) :
    ∃ range value, calcrange n = some (range, value) ∧ value ≤ 1025 := by
  obtain ⟨m, rfl⟩ := Int.eq_ofNat_of_zero_le hn
  obtain ⟨r, hr, hle, _⟩ := calcrange_nat m
  refine ⟨_, _, hr, ?_⟩
  by_cases h0 : r = 0
  · subst h0
    simp at hle
    simp
    omega
  · rw [if_neg h0]
    have e : m / 1024 ^ r = m / 1024 ^ (r - 1) / 1024 := by
      rw [Nat.div_div_eq_div_mul]
      congr 1
      have : r = (r - 1) + 1 := by omega
      conv_lhs => rw [this, pow_succ]
    rw [e] at hle
    norm_cast
    omega

/-- Witness for C9 (amended) at 1049088 bytes, where the bound 1025 is attained. -/
theorem calcrange_value_le_1025_witness :
    (0 : Int) ≤ 1049088 ∧
      ∃ range value, calcrange 1049088 = some (range, value) ∧ value ≤ 1025 :=
  ⟨by decide, calcrange_value_le_1025 1049088 (by decide)⟩

/-- C10: for every non-negative 64 bit byte count `n`, `calcrange` returns the least `r` with
`n / 1024 ^ r ≤ 1024` (floor division); for `r = 0` the value is `n` unchanged and for `r ≥ 1`
the value is `(n / 1024 ^ (r - 1) + 512) / 1024`, the half-up rounding of the truncated
intermediate value. -/
theorem calcrange_least_range_and_rounding (n : Int) (hn : 0 ≤ n) (h64 : n < 2 ^ 63) :
    ∃ (r : Nat) (value : Int),
      calcrange n = some ((r : Int), value) ∧
      n / 1024 ^ r ≤ 1024 ∧
      (∀ j : Nat, j < r → ¬ n / 1024 ^ j ≤ 1024) ∧
      (r = 0 → value = n) ∧
      (1 ≤ r → value = (n / 1024 ^ (r - 1) + 512) / 1024) := by
  obtain ⟨m, rfl⟩ := Int.eq_ofNat_of_zero_le hn
  obtain ⟨r, hr, hle, hlt⟩ := calcrange_nat m
  refine ⟨r, _, hr, ?_, ?_, ?_, ?_⟩
  · exact_mod_cast hle
  · intro j hj hcon
    have h1 := hlt j hj
    have h2 : m / 1024 ^ j ≤ 1024 := by exact_mod_cast hcon
    omega
  · intro h0
    simp [h0]
  · intro h1
    have h0 : r ≠ 0 := by omega
    rw [if_neg h0]
    generalize r - 1 = s
    push_cast
    rfl

/-- Witness for C10 at 1049088 bytes. -/
theorem calcrange_least_range_and_rounding_witness :
    (0 : Int) ≤ 1049088 ∧ (1049088 : Int) < 2 ^ 63 ∧
      ∃ (r : Nat) (value : Int),
        calcrange 1049088 = some ((r : Int), value) ∧
        (1049088 : Int) / 1024 ^ r ≤ 1024 ∧
        (∀ j : Nat, j < r → ¬ (1049088 : Int) / 1024 ^ j ≤ 1024) ∧
        (r = 0 → value = 1049088) ∧
        (1 ≤ r → value = ((1049088 : Int) / 1024 ^ (r - 1) + 512) / 1024) :=
  ⟨by decide, by decide, calcrange_least_range_and_rounding 1049088 (by decide) (by decide)⟩

/-! ## Theorems: `simplifyPath` -/

section Paths

theorem starts_with_iff (s sub : List Char) :
    starts_with s sub = true ↔ ∃ b, s = sub ++ b := by
  induction sub generalizing s with
  | nil => simp [starts_with]
  | cons d ds ih =>
      cases s with
      | nil => simp [starts_with]
      | cons c cs =>
          simp only [starts_with, Bool.and_eq_true, decide_eq_true_iff, ih, List.cons_append,
            List.cons.injEq]
          constructor
          · rintro ⟨h1, b, h2⟩
            exact ⟨b, h1, h2⟩
          · rintro ⟨b, h1, h2⟩
            exact ⟨h1, b, h2⟩

theorem string_find_none_iff (s sub : List Char) :
    string_find s sub = none ↔ ∀ i, starts_with (s.drop i) sub = false := by
  induction s with
  | nil =>
      unfold string_find
      cases h : starts_with [] sub with
      | true =>
          simp only [if_true]
          constructor
          · intro hh; cases hh
          · intro hh
            have := hh 0
            rw [List.drop_zero, h] at this
            cases this
      | false => simp [h]
  | cons c cs ih =>
      unfold string_find
      cases h : starts_with (c :: cs) sub with
      | true =>
          simp only [if_true]
          constructor
          · intro hh; cases hh
          · intro hh
            have := hh 0
            rw [List.drop_zero, h] at this
            cases this
      | false =>
          simp only [Bool.false_eq_true, if_false]
          constructor
          · intro hh i
            have hcs : string_find cs sub = none := by
              cases hf : string_find cs sub with
              | none => rfl
              | some pos => rw [hf] at hh; cases hh
            cases i with
            | zero => simpa using h
            | succ i => simpa using (ih.1 hcs) i
          · intro hh
            have hcs : string_find cs sub = none := ih.2 (fun i => by simpa using hh (i + 1))
            rw [hcs]

theorem string_find_some (s sub : List Char) :
    ∀ pos, string_find s sub = some pos → starts_with (s.drop pos) sub = true := by
  induction s with
  | nil =>
      intro pos h
      unfold string_find at h
      by_cases hs : starts_with [] sub = true
      · simpa using hs
      · rw [if_neg hs] at h; cases h
  | cons c cs ih =>
      intro pos h
      unfold string_find at h
      by_cases hs : starts_with (c :: cs) sub = true
      · rw [if_pos hs] at h
        cases h
        simpa using hs
      · rw [if_neg hs] at h
        cases hf : string_find cs sub with
        | none => rw [hf] at h; cases h
        | some q =>
            rw [hf] at h
            cases h
            simpa using ih q hf

theorem has_substring_iff (s sub : List Char) :
    has_substring s sub ↔ ∃ i, starts_with (s.drop i) sub = true := by
  constructor
  · rintro ⟨a, b, rfl⟩
    refine ⟨a.length, ?_⟩
    rw [starts_with_iff]
    exact ⟨b, by simp⟩
  · rintro ⟨i, hi⟩
    obtain ⟨b, hb⟩ := (starts_with_iff _ _).1 hi
    refine ⟨s.take i, b, ?_⟩
    rw [List.append_assoc, ← hb, List.take_append_drop]

theorem string_find_none_iff_not_has_substring (s sub : List Char) :
    string_find s sub = none ↔ ¬ has_substring s sub := by
  rw [string_find_none_iff, has_substring_iff]
  constructor
  · rintro h ⟨i, hi⟩
    rw [h i] at hi
    exact Bool.false_ne_true hi
  · intro h i
    cases hs : starts_with (s.drop i) sub with
    | false => rfl
    | true => exact absurd ⟨i, hs⟩ h

/-- The effect of one replacement in `simplifyPath`: the path is `a ++ sub ++ b` and becomes
`a ++ "/" ++ b`. -/
theorem string_replace_found (s sub : List Char) (pos : Nat)
    (h : string_find s sub = some pos) :
    ∃ a b, s = a ++ sub ++ b ∧ string_replace s pos sub.length ['/'] = a ++ ['/'] ++ b := by
  obtain ⟨b, hb⟩ := (starts_with_iff _ _).1 (string_find_some s sub pos h)
  refine ⟨s.take pos, b, ?_, ?_⟩
  · rw [List.append_assoc, ← hb, List.take_append_drop]
  · unfold string_replace
    have : s.drop (pos + sub.length) = b := by
      rw [← List.drop_drop, hb]
      simp
    rw [this]

/-- Each loop of `simplifyPath` returns, with a path in which `sub` does not occur and which
has every property `P` of the start that a single replacement preserves; a path in which `sub`
does not occur is left as it is. -/
theorem simplifyPath_loop_spec (sub : List Char) (hsub : 2 ≤ sub.length)
    (P : List Char → Prop) (hstep : ∀ a b, P (a ++ sub ++ b) → P (a ++ ['/'] ++ b))
    (fuel : Nat) :
    ∀ s : List Char, s.length ≤ fuel → P s →
      ∃ out, simplifyPath_loop sub fuel s = some out ∧ string_find out sub = none ∧ P out ∧
        (string_find s sub = none → out = s) := by
  induction fuel with
  | zero =>
      intro s hs hP
      have hnil : s = [] := List.length_eq_zero.1 (Nat.le_zero.1 hs)
      subst hnil
      have hnone : string_find [] sub = none := by
        unfold string_find
        cases sub with
        | nil => simp at hsub
        | cons d ds => simp [starts_with]
      refine ⟨[], ?_, hnone, hP, fun _ => rfl⟩
      unfold simplifyPath_loop
      rw [hnone]
  | succ fuel ih =>
      intro s hs hP
      cases hf : string_find s sub with
      | none =>
          refine ⟨s, ?_, hf, hP, fun _ => rfl⟩
          unfold simplifyPath_loop
          rw [hf]
      | some pos =>
          obtain ⟨a, b, hs1, hs2⟩ := string_replace_found s sub pos hf
          have hlen : (string_replace s pos sub.length ['/']).length ≤ fuel := by
            rw [hs2]
            rw [hs1] at hs
            simp only [List.length_append, List.length_cons, List.length_nil] at hs ⊢
            omega
          have hP2 : P (string_replace s pos sub.length ['/']) := by
            rw [hs2]
            apply hstep
            rw [← hs1]
            exact hP
          obtain ⟨out, h1, h2, h3, _⟩ := ih _ hlen hP2
          refine ⟨out, ?_, h2, h3, ?_⟩
          · unfold simplifyPath_loop
            rw [hf]
            exact h1
          · intro hcon
            cases hcon

/-- Collapsing a double slash does not create an occurrence of "/./". -/
theorem collapse_slashes_keeps_no_dot (a b : List Char)
    (h : ¬ has_substring (a ++ ['/', '/'] ++ b) ['/', '.', '/']) :
    ¬ has_substring (a ++ ['/'] ++ b) ['/', '.', '/'] := by
  rw [has_substring_iff] at h ⊢
  rintro ⟨i, hi⟩
  apply h
  by_cases hia : i ≤ a.length
  · -- the occurrence starts in `a` or at the slash
    have e1 : (a ++ ['/'] ++ b).drop i = a.drop i ++ '/' :: b := by
      rw [List.append_assoc, List.drop_append_of_le_length hia]
      rfl
    have e2 : ∀ j, j ≤ a.length →
        (a ++ ['/', '/'] ++ b).drop j = a.drop j ++ '/' :: '/' :: b := by
      intro j hj
      rw [List.append_assoc, List.drop_append_of_le_length hj]
      rfl
    have e3 : (a ++ ['/', '/'] ++ b).drop (a.length + 1) = '/' :: b := by
      rw [List.append_assoc, List.drop_append_eq_append_drop]
      simp
    rw [e1] at hi
    match hu : a.drop i, hi with
    | [], hi =>
        refine ⟨a.length + 1, ?_⟩
        rw [e3]
        simpa using hi
    | [c], hi =>
        simp [starts_with] at hi
    | [c, d], hi =>
        refine ⟨i, ?_⟩
        rw [e2 i hia, hu]
        simpa [starts_with] using hi
    | c :: d :: e :: rest, hi =>
        refine ⟨i, ?_⟩
        rw [e2 i hia, hu]
        simpa [starts_with] using hi
  · -- the occurrence starts behind the slash
    refine ⟨i + 1, ?_⟩
    have hia2 : a.length < i := by omega
    have e1 : (a ++ ['/'] ++ b).drop i = b.drop (i - a.length - 1) := by
      rw [List.append_assoc, List.drop_append_eq_append_drop]
      have : a.drop i = [] := List.drop_eq_nil_of_le (by omega)
      rw [this, List.nil_append]
      have e : i - a.length = (i - a.length - 1) + 1 := by omega
      rw [e]
      rfl
    have e2 : (a ++ ['/', '/'] ++ b).drop (i + 1) = b.drop (i - a.length - 1) := by
      rw [List.append_assoc, List.drop_append_eq_append_drop]
      have : a.drop (i + 1) = [] := List.drop_eq_nil_of_le (by omega)
      rw [this, List.nil_append]
      have e : i + 1 - a.length = (i - a.length - 1) + 2 := by omega
      rw [e]
      rfl
    rw [e2, ← e1]
    exact hi

theorem segments_cons (c : Char) (cs : List Char) :
    segments (c :: cs) =
      if c = '/' then [] :: segments cs
      else
        match segments cs with
        | [] => [[c]]
        | seg :: rest => (c :: seg) :: rest := rfl

theorem segments_ne_nil (s : List Char) : segments s ≠ [] := by
  cases s with
  | nil => simp [segments]
  | cons c cs =>
      rw [segments_cons]
      by_cases hc : c = '/'
      · simp [hc]
      · rw [if_neg hc]
        cases segments cs <;> simp

theorem segments_append_slash (a b : List Char) :
    segments (a ++ '/' :: b) = segments a ++ segments b := by
  induction a with
  | nil =>
      rw [List.nil_append, segments_cons, if_pos rfl]
      rfl
  | cons c cs ih =>
      rw [List.cons_append, segments_cons c (cs ++ '/' :: b), segments_cons c cs]
      by_cases hc : c = '/'
      · rw [if_pos hc, if_pos hc, ih]
        rfl
      · rw [if_neg hc, if_neg hc, ih]
        cases hs : segments cs with
        | nil => exact absurd hs (segments_ne_nil cs)
        | cons seg rest => rfl

theorem proper_segments_append_slash (a b : List Char) :
    proper_segments (a ++ '/' :: b) = proper_segments a ++ proper_segments b := by
  unfold proper_segments
  rw [segments_append_slash, List.filter_append]

/-- Replacing "/./" by "/" keeps the proper segments. -/
theorem proper_segments_drop_dot (a b : List Char) :
    proper_segments (a ++ ['/'] ++ b) = proper_segments (a ++ ['/', '.', '/'] ++ b) := by
  have e1 : a ++ ['/'] ++ b = a ++ '/' :: b := by simp
  have e2 : a ++ ['/', '.', '/'] ++ b = a ++ '/' :: ('.' :: '/' :: b) := by simp
  have e3 : '.' :: '/' :: b = ['.'] ++ '/' :: b := rfl
  rw [e1, e2, proper_segments_append_slash, proper_segments_append_slash, e3,
    proper_segments_append_slash]
  have : proper_segments ['.'] = [] := by decide
  rw [this, List.nil_append]

/-- Replacing "//" by "/" keeps the proper segments. -/
theorem proper_segments_drop_empty (a b : List Char) :
    proper_segments (a ++ ['/'] ++ b) = proper_segments (a ++ ['/', '/'] ++ b) := by
  have e1 : a ++ ['/'] ++ b = a ++ '/' :: b := by simp
  have e2 : a ++ ['/', '/'] ++ b = a ++ '/' :: ([] ++ '/' :: b) := by simp
  rw [e1, e2, proper_segments_append_slash, proper_segments_append_slash,
    proper_segments_append_slash]
  have : proper_segments [] = [] := by decide
  rw [this, List.nil_append]

/-- The function `simplifyPath` in one statement: it returns 0 and a path without "/./" and
without "//" that has the proper segments and the first character of the input, and a path
without "/./" and "//" is returned unchanged. -/
theorem simplifyPath_spec (path : List Char) :
    ∃ out, simplifyPath path = some (0, out) ∧
      ¬ has_substring out ['/', '.', '/'] ∧ ¬ has_substring out ['/', '/'] ∧
      proper_segments out = proper_segments path ∧
      (path.head? = some '/' → out.head? = some '/') ∧
      (¬ has_substring path ['/', '.', '/'] → ¬ has_substring path ['/', '/'] →
        out = path) := by
  have hhead : ∀ (sub : List Char), sub.head? = some '/' → ∀ a b : List Char,
      (a ++ sub ++ b).head? = some '/' → (a ++ ['/'] ++ b).head? = some '/' := by
    intro sub hsub a b h
    cases a with
    | nil => rfl
    | cons c cs => simpa using h
  obtain ⟨p1, h1, hn1, ⟨hseg1, hhd1⟩, hid1⟩ := simplifyPath_loop_spec ['/', '.', '/'] (by simp)
    (fun s => proper_segments s = proper_segments path ∧
      (path.head? = some '/' → s.head? = some '/'))
    (fun a b h => ⟨by rw [proper_segments_drop_dot]; exact h.1,
      fun hp => hhead ['/', '.', '/'] rfl a b (h.2 hp)⟩)
    path.length path (le_refl _) ⟨rfl, fun h => h⟩
  rw [string_find_none_iff_not_has_substring] at hn1 hid1
  obtain ⟨p2, h2, hn2, ⟨hseg2, hhd2, hdot2⟩, hid2⟩ := simplifyPath_loop_spec ['/', '/']
    (by simp)
    (fun s => proper_segments s = proper_segments path ∧
      (path.head? = some '/' → s.head? = some '/') ∧ ¬ has_substring s ['/', '.', '/'])
    (fun a b h => ⟨by rw [proper_segments_drop_empty]; exact h.1,
      fun hp => hhead ['/', '/'] rfl a b (h.2.1 hp),
      collapse_slashes_keeps_no_dot a b h.2.2⟩)
    p1.length p1 (le_refl _) ⟨hseg1, hhd1, hn1⟩
  rw [string_find_none_iff_not_has_substring] at hn2 hid2
  refine ⟨p2, ?_, hdot2, hn2, hseg2, hhd2, ?_⟩
  · unfold simplifyPath
    rw [h1]
    simp only []
    rw [h2]
  · intro hd hs
    have e1 : p1 = path := hid1 hd
    rw [e1] at hid2
    exact hid2 hs

end Paths

/-! ## Theorems: `applyactiononfile` -/

section Applier

variable {cap : Nat} {σ : Type}

theorem well_marked_cons (original : Option (Fileinfo cap)) (x : Fileinfo cap)
    (rest : List (Fileinfo cap)) :
    well_marked original (x :: rest) =
      if x.getduptype = duptype.DUPTYPE_FIRST_OCCURRENCE then
        decide (0 ≤ x.getidentity) && well_marked (some x) rest
      else if is_duplicate x then
        match original with
        | none => false
        | some orig => decide (x.getidentity = -orig.getidentity) && well_marked original rest
      else false := rfl

theorem duplicate_pairs_cons (original : Option (Fileinfo cap)) (x : Fileinfo cap)
    (rest : List (Fileinfo cap)) :
    duplicate_pairs original (x :: rest) =
      if x.getduptype = duptype.DUPTYPE_FIRST_OCCURRENCE then duplicate_pairs (some x) rest
      else if is_duplicate x then
        match original with
        | none => duplicate_pairs original rest
        | some orig => (x, orig) :: duplicate_pairs original rest
      else duplicate_pairs original rest := rfl

/-- The loop of `applyactiononfile` on a well marked list passes all assertions and does what
`run_actions` does on the pairs of `duplicate_pairs`. -/
theorem applyactiononfile_loop_eq (f : σ → Fileinfo cap → Fileinfo cap → Int × σ)
    (l : List (Fileinfo cap)) :
    ∀ (original : Option (Fileinfo cap)) (n : Nat) (w : σ), well_marked original l = true →
      applyactiononfile_loop f l original n w =
        some (run_actions f (n, w) (duplicate_pairs original l)) := by
  induction l with
  | nil => intro original n w _; rfl
  | cons x rest ih =>
      intro original n w hw
      rw [well_marked_cons] at hw
      rw [duplicate_pairs_cons, applyactiononfile_loop]
      unfold applyactiononfile_step
      cases hk : x.getduptype with
      | DUPTYPE_UNKNOWN =>
          simp [hk, is_duplicate] at hw
      | DUPTYPE_FIRST_OCCURRENCE =>
          simp only [hk, if_true, Bool.and_eq_true, decide_eq_true_iff] at hw
          simp only [ge_iff_le, hw.1, if_true]
          exact ih (some x) n w hw.2
      | DUPTYPE_WITHIN_SAME_TREE =>
          have hd : is_duplicate x = true := by simp [is_duplicate, hk]
          simp only [hk, reduceCtorEq, if_false, hd, if_true] at hw
          cases original with
          | none => cases hw
          | some orig =>
              simp only [Bool.and_eq_true, decide_eq_true_iff] at hw
              simp only [hw.1, if_true, hd, reduceCtorEq, if_false]
              by_cases hr : (f w x orig).1 = 0
              · simp only [hr, ne_eq, not_true, if_false, if_true, run_actions]
                exact ih (some orig) (n + 1) _ hw.2
              · simp only [hr, ne_eq, not_false_eq_true, if_true, if_false, run_actions]
                exact ih (some orig) n _ hw.2
      | DUPTYPE_OUTSIDE_TREE =>
          have hd : is_duplicate x = true := by simp [is_duplicate, hk]
          simp only [hk, reduceCtorEq, if_false, hd, if_true] at hw
          cases original with
          | none => cases hw
          | some orig =>
              simp only [Bool.and_eq_true, decide_eq_true_iff] at hw
              simp only [hw.1, if_true, hd, reduceCtorEq, if_false]
              by_cases hr : (f w x orig).1 = 0
              · simp only [hr, ne_eq, not_true, if_false, if_true, run_actions]
                exact ih (some orig) (n + 1) _ hw.2
              · simp only [hr, ne_eq, not_false_eq_true, if_true, if_false, run_actions]
                exact ih (some orig) n _ hw.2

theorem applyactiononfile_eq (f : σ → Fileinfo cap → Fileinfo cap → Int × σ)
    (l : List (Fileinfo cap)) (w : σ) (hw : well_marked none l = true) :
    applyactiononfile l f w = some (run_actions f (0, w) (duplicate_pairs none l)) :=
  applyactiononfile_loop_eq f l none 0 w hw

/-- On a well marked list every duplicate record is paired exactly once, in list order. -/
theorem duplicate_pairs_fst (l : List (Fileinfo cap)) :
    ∀ original : Option (Fileinfo cap), well_marked original l = true →
      (duplicate_pairs original l).map Prod.fst = l.filter is_duplicate := by
  induction l with
  | nil => intro _ _; rfl
  | cons x rest ih =>
      intro original hw
      rw [well_marked_cons] at hw
      rw [duplicate_pairs_cons]
      by_cases hk : x.getduptype = duptype.DUPTYPE_FIRST_OCCURRENCE
      · have hd : is_duplicate x = false := by simp [is_duplicate, hk]
        simp only [hk, if_true, Bool.and_eq_true] at hw
        rw [if_pos hk, List.filter_cons, hd]
        exact ih (some x) hw.2
      · rw [if_neg hk] at hw ⊢
        by_cases hd : is_duplicate x = true
        · rw [if_pos hd] at hw ⊢
          cases original with
          | none => cases hw
          | some orig =>
              simp only [Bool.and_eq_true] at hw
              rw [List.filter_cons, hd]
              simp only [if_true, List.map_cons]
              rw [ih (some orig) hw.2]
        · rw [if_neg hd] at hw
          cases hw

theorem run_actions_count_le (f : σ → Fileinfo cap → Fileinfo cap → Int × σ)
    (ps : List (Fileinfo cap × Fileinfo cap)) :
    ∀ (n : Nat) (w : σ), n ≤ (run_actions f (n, w) ps).1 ∧
      (run_actions f (n, w) ps).1 ≤ n + ps.length := by
  induction ps with
  | nil => intro n w; simp [run_actions]
  | cons p rest ih =>
      intro n w
      obtain ⟨dup, orig⟩ := p
      rw [run_actions]
      by_cases hr : (f w dup orig).1 = 0
      · rw [if_pos hr]
        have := ih (n + 1) (f w dup orig).2
        simp only [List.length_cons]
        omega
      · rw [if_neg hr]
        have := ih n (f w dup orig).2
        simp only [List.length_cons]
        omega

theorem run_actions_count_of_success (f : σ → Fileinfo cap → Fileinfo cap → Int × σ)
    (hf : ∀ w a b, (f w a b).1 = 0) (ps : List (Fileinfo cap × Fileinfo cap)) :
    ∀ (n : Nat) (w : σ), (run_actions f (n, w) ps).1 = n + ps.length := by
  induction ps with
  | nil => intro n w; simp [run_actions]
  | cons p rest ih =>
      intro n w
      obtain ⟨dup, orig⟩ := p
      rw [run_actions, if_pos (hf w dup orig), ih]
      simp only [List.length_cons]
      omega

theorem duplicate_pairs_length (l : List (Fileinfo cap)) (hw : well_marked none l = true) :
    (duplicate_pairs none l).length = l.countP is_duplicate := by
  rw [List.countP_eq_length_filter, ← duplicate_pairs_fst l none hw, List.length_map]

theorem duplicate_pairs_append (a b : List (Fileinfo cap)) :
    ∀ original : Option (Fileinfo cap),
      duplicate_pairs original (a ++ b) =
        duplicate_pairs original a ++ duplicate_pairs (current_original original a) b := by
  induction a with
  | nil => intro _; rfl
  | cons x rest ih =>
      intro original
      rw [List.cons_append, duplicate_pairs_cons, duplicate_pairs_cons, current_original]
      by_cases hk : x.getduptype = duptype.DUPTYPE_FIRST_OCCURRENCE
      · rw [if_pos hk, if_pos hk, if_pos hk, ih]
      · rw [if_neg hk, if_neg hk, if_neg hk]
        by_cases hd : is_duplicate x = true
        · rw [if_pos hd, if_pos hd]
          cases original with
          | none => exact ih none
          | some orig =>
              simp only [List.cons_append]
              rw [ih]
        · rw [if_neg hd, if_neg hd, ih]

theorem well_marked_append (a b : List (Fileinfo cap)) :
    ∀ original : Option (Fileinfo cap), well_marked original (a ++ b) = true →
      well_marked (current_original original a) b = true := by
  induction a with
  | nil => intro _ h; exact h
  | cons x rest ih =>
      intro original h
      rw [List.cons_append, well_marked_cons] at h
      rw [current_original]
      by_cases hk : x.getduptype = duptype.DUPTYPE_FIRST_OCCURRENCE
      · rw [if_pos hk] at h ⊢
        simp only [Bool.and_eq_true] at h
        exact ih _ h.2
      · rw [if_neg hk] at h ⊢
        by_cases hd : is_duplicate x = true
        · rw [if_pos hd] at h
          cases original with
          | none => cases h
          | some orig =>
              simp only [Bool.and_eq_true] at h
              exact ih _ h.2
        · rw [if_neg hd] at h
          cases h

/-- On a well marked list the duplicate at any position is paired with the current original at
that position, between the pairs of the records before it and the pairs of the records behind
it. -/
theorem duplicate_pairs_at (l pre post : List (Fileinfo cap)) (x : Fileinfo cap)
    (hw : well_marked none l = true) (hl : l = pre ++ x :: post)
    (hx : is_duplicate x = true) :
    ∃ o, current_original none pre = some o ∧
      o.getduptype = duptype.DUPTYPE_FIRST_OCCURRENCE ∧
      duplicate_pairs none l =
        duplicate_pairs none pre ++ (x, o) :: duplicate_pairs (some o) post := by
  subst hl
  have hw2 := well_marked_append pre (x :: post) none hw
  have hk : x.getduptype ≠ duptype.DUPTYPE_FIRST_OCCURRENCE := by
    intro h
    simp [is_duplicate, h] at hx
  rw [well_marked_cons, if_neg hk, if_pos hx] at hw2
  have hfirst : ∀ (a : List (Fileinfo cap)) (orig : Option (Fileinfo cap)),
      (∀ o, orig = some o → o.getduptype = duptype.DUPTYPE_FIRST_OCCURRENCE) →
      ∀ o, current_original orig a = some o →
        o.getduptype = duptype.DUPTYPE_FIRST_OCCURRENCE := by
    intro a
    induction a with
    | nil => intro orig h o ho; exact h o ho
    | cons y rest ih =>
        intro orig h o ho
        rw [current_original] at ho
        apply ih _ _ o ho
        intro o2 ho2
        by_cases hy : y.getduptype = duptype.DUPTYPE_FIRST_OCCURRENCE
        · rw [if_pos hy] at ho2
          cases ho2
          exact hy
        · rw [if_neg hy] at ho2
          exact h o2 ho2
  cases hc : current_original none pre with
  | none => rw [hc] at hw2; cases hw2
  | some o =>
      refine ⟨o, rfl, hfirst pre none (fun _ h => by cases h) o hc, ?_⟩
      rw [duplicate_pairs_append, hc, duplicate_pairs_cons, if_neg hk, if_pos hx]

/-- The count that `applyactiononfile` returns on a well marked list: at most the number of
duplicate records, and exactly that number for an action that always returns 0. -/
theorem applyactiononfile_count (f : σ → Fileinfo cap → Fileinfo cap → Int × σ)
    (l : List (Fileinfo cap)) (w : σ) (hw : well_marked none l = true) :
    ∃ n w2, applyactiononfile l f w = some (n, w2) ∧ n ≤ l.countP is_duplicate ∧
      ((∀ s a b, (f s a b).1 = 0) → n = l.countP is_duplicate) := by
  refine ⟨_, _, applyactiononfile_eq f l w hw, ?_, ?_⟩
  · have := (run_actions_count_le f (duplicate_pairs none l) 0 w).2
    rw [duplicate_pairs_length l hw] at this
    omega
  · intro hf
    rw [run_actions_count_of_success f hf, duplicate_pairs_length l hw]
    omega

theorem run_actions_count_eq (f : σ → Fileinfo cap → Fileinfo cap → Int × σ)
    (ps : List (Fileinfo cap × Fileinfo cap)) :
    ∀ (n : Nat) (w : σ),
      (run_actions f (n, w) ps).1 = n + (return_codes f w ps).count 0 ∧
      (return_codes f w ps).length = ps.length := by
  induction ps with
  | nil => intro n w; simp [run_actions, return_codes]
  | cons p rest ih =>
      intro n w
      obtain ⟨dup, orig⟩ := p
      rw [run_actions, return_codes]
      by_cases hr : (f w dup orig).1 = 0
      · rw [if_pos hr]
        obtain ⟨h1, h2⟩ := ih (n + 1) (f w dup orig).2
        refine ⟨?_, by simp [h2]⟩
        rw [h1, hr, List.count_cons_self]
        omega
      · rw [if_neg hr]
        obtain ⟨h1, h2⟩ := ih n (f w dup orig).2
        refine ⟨?_, by simp [h2]⟩
        rw [h1, List.count_cons_of_ne (Ne.symm hr)]

/-- The count of `applyactiononfile` on a well marked list is the number of return codes 0 among
its invocations, one per duplicate record; it is the number of duplicate records exactly when
all return codes are 0. -/
theorem applyactiononfile_counts_zero_codes (f : σ → Fileinfo cap → Fileinfo cap → Int × σ)
    (l : List (Fileinfo cap)) (w : σ) (hw : well_marked none l = true) :
    (∃ w2, applyactiononfile l f w =
      some ((return_codes f w (duplicate_pairs none l)).count 0, w2)) ∧
    (return_codes f w (duplicate_pairs none l)).length = l.countP is_duplicate ∧
    (return_codes f w (duplicate_pairs none l)).count 0 ≤ l.countP is_duplicate ∧
    ((return_codes f w (duplicate_pairs none l)).count 0 = l.countP is_duplicate ↔
      ∀ c ∈ return_codes f w (duplicate_pairs none l), c = 0) := by
  obtain ⟨h1, h2⟩ := run_actions_count_eq f (duplicate_pairs none l) 0 w
  have hlen : (return_codes f w (duplicate_pairs none l)).length = l.countP is_duplicate := by
    rw [h2, duplicate_pairs_length l hw]
  refine ⟨⟨(run_actions f (0, w) (duplicate_pairs none l)).2, ?_⟩, hlen, ?_, ?_⟩
  · rw [applyactiononfile_eq f l w hw]
    congr 1
    apply Prod.ext
    · simpa using h1
    · rfl
  · rw [← hlen]
    exact List.count_le_length _ _
  · rw [← hlen, List.count_eq_length]
    constructor
    · intro h c hc
      exact (h c hc).symm
    · intro h c hc
      exact (h c hc).symm

end Applier

/-! ## Theorems: the file operations -/

section FileOps

theorem take_fault_fs (w : World) : (take_fault w).2.fs = w.fs := by
  unfold take_fault
  cases w.faults <;> rfl

theorem take_fault_cerr (w : World) : (take_fault w).2.cerr = w.cerr := by
  unfold take_fault
  cases w.faults <;> rfl

theorem fs_set_same (fs : List Char → Option Node) (path : List Char) (node : Option Node) :
    fs_set fs path node path = node := by
  simp [fs_set]

theorem fs_set_other (fs : List Char → Option Node) (path p : List Char) (node : Option Node)
    (h : p ≠ path) : fs_set fs path node p = fs p := by
  simp [fs_set, h]

/-- The system call `rename` as the model has it: it returns 0 or -1; when it fails the file
system stays as it is; when it succeeds `old` held a node, which `new` holds afterwards. -/
theorem sys_rename_spec (w : World) (old new : List Char) :
    ((sys_rename w old new).1 = 0 ∨ (sys_rename w old new).1 = -1) ∧
    ((sys_rename w old new).2.cerr = w.cerr) ∧
    ((sys_rename w old new).1 ≠ 0 → (sys_rename w old new).2.fs = w.fs) ∧
    ((sys_rename w old new).1 = 0 → ∃ node, w.fs old = some node ∧
      (sys_rename w old new).2.fs =
        if old = new then w.fs else fs_set (fs_set w.fs new (some node)) old none) := by
  have hfs := take_fault_fs w
  have hce := take_fault_cerr w
  unfold sys_rename
  generalize take_fault w = t at hfs hce
  obtain ⟨fault, w2⟩ := t
  simp only [] at hfs hce
  cases fault with
  | true => simp [hfs, hce]
  | false =>
      simp only [Bool.false_eq_true, if_false]
      cases hn : w2.fs old with
      | none => simp [hfs, hce]
      | some node =>
          rw [hfs] at hn
          by_cases he : old = new
          · subst he
            simp [hfs, hce, hn]
          · simp [hfs, hce, hn, he]

/-- The system call `unlink` as the model has it. -/
theorem sys_unlink_spec (w : World) (path : List Char) :
    ((sys_unlink w path).2.cerr = w.cerr) ∧
    ((sys_unlink w path).1 ≠ 0 → (sys_unlink w path).2.fs = w.fs) ∧
    ((sys_unlink w path).1 = 0 → (sys_unlink w path).2.fs = fs_set w.fs path none) := by
  have hfs := take_fault_fs w
  have hce := take_fault_cerr w
  unfold sys_unlink
  generalize take_fault w = t at hfs hce
  obtain ⟨fault, w2⟩ := t
  simp only [] at hfs hce
  cases fault with
  | true => simp [hfs, hce]
  | false =>
      simp only [Bool.false_eq_true, if_false]
      cases hn : w2.fs path with
      | none => simp [hfs, hce]
      | some node => simp [hfs, hce]

/-- The system call `clonefile` as the model has it. -/
theorem sys_clonefile_spec (w : World) (src dst : List Char) :
    ((sys_clonefile w src dst).2.cerr = w.cerr) ∧
    ((sys_clonefile w src dst).1 ≠ 0 → (sys_clonefile w src dst).2.fs = w.fs) ∧
    ((sys_clonefile w src dst).1 = 0 → ∃ f, w.fs src = some (Node.file f) ∧ w.fs dst = none ∧
      (sys_clonefile w src dst).2.fs = fs_set w.fs dst (some (Node.file f))) := by
  have hfs := take_fault_fs w
  have hce := take_fault_cerr w
  unfold sys_clonefile
  generalize take_fault w = t at hfs hce
  obtain ⟨fault, w2⟩ := t
  simp only [] at hfs hce
  cases fault with
  | true => simp [hfs, hce]
  | false =>
      simp only [Bool.false_eq_true, if_false]
      rw [hfs]
      split
      · rename_i f hs hd
        simp [hfs, hce, hs, hd]
      · simp [hfs, hce]

/-- The library call `copyfile` for the metadata as the model has it. -/
theorem sys_copyfile_metadata_spec (w : World) (src dst : List Char) :
    ((sys_copyfile_metadata w src dst).2.cerr = w.cerr) ∧
    ((sys_copyfile_metadata w src dst).1 ≠ 0 → (sys_copyfile_metadata w src dst).2.fs = w.fs) ∧
    ((sys_copyfile_metadata w src dst).1 = 0 → ∃ s d, w.fs src = some (Node.file s) ∧
      w.fs dst = some (Node.file d) ∧
      (sys_copyfile_metadata w src dst).2.fs =
        fs_set w.fs dst (some (Node.file { d with metadata := s.metadata }))) := by
  have hfs := take_fault_fs w
  have hce := take_fault_cerr w
  unfold sys_copyfile_metadata
  generalize take_fault w = t at hfs hce
  obtain ⟨fault, w2⟩ := t
  simp only [] at hfs hce
  cases fault with
  | true => simp [hfs, hce]
  | false =>
      simp only [Bool.false_eq_true, if_false]
      rw [hfs]
      split
      · rename_i s d hs hd
        simp [hfs, hce, hs, hd]
      · simp [hfs, hce]

/-- The library call `mkstemp` as the model has it: a name it returns was free, and holds a new
empty file afterwards. -/
theorem sys_mkstemp_spec (w : World) (template name : List Char)
    (h : (sys_mkstemp w template).1 = some name) :
    w.fs name = none ∧
    (sys_mkstemp w template).2.fs =
      fs_set w.fs name (some (Node.file { content := [], metadata := 0, cow_id := -1 })) := by
  have hfs := take_fault_fs w
  revert h
  unfold sys_mkstemp
  generalize take_fault w = t at hfs
  obtain ⟨fault, w2⟩ := t
  simp only [] at hfs
  cases fault with
  | true => simp
  | false =>
      simp only [Bool.false_eq_true, if_false]
      cases ht : w2.temps with
      | nil => simp
      | cons suffix rest =>
          simp only []
          rw [hfs]
          cases hn : w.fs (template.take (template.length - 6) ++ suffix) with
          | some node => simp
          | none =>
              simp only [Option.some.injEq]
              intro hname
              subst hname
              exact ⟨hn, rfl⟩

/-- The function `make_temp_file_nearby` when it returns a name: the name was free, and it
holds a new empty file afterwards. -/
theorem make_temp_file_nearby_spec (w : World) (basePath : List Char)
    (h : (make_temp_file_nearby w basePath).1 ≠ []) :
    w.fs (make_temp_file_nearby w basePath).1 = none ∧
    (make_temp_file_nearby w basePath).2.fs =
      fs_set w.fs (make_temp_file_nearby w basePath).1
        (some (Node.file { content := [], metadata := 0, cow_id := -1 })) := by
  revert h
  unfold make_temp_file_nearby
  simp only []
  generalize hdir : (match string_rfind basePath '/' with
    | some pos => List.take pos basePath
    | none => ['.']) ++ "/.clonebackup.XXXXXX".data = tmpl
  have hspec := sys_mkstemp_spec w tmpl
  generalize sys_mkstemp w tmpl = r at hspec
  obtain ⟨name, w2⟩ := r
  cases name with
  | none => simp
  | some name =>
      intro _
      exact hspec name rfl

/-- The function `makeclone` written with the named steps. -/
theorem makeclone_eq (w : World) (target other : List Char) :
    makeclone w target other =
      if (clone_backup w target).isEmpty then (-1, (make_temp_file_nearby w target).2)
      else if (clone_step1 w target).1 ≠ 0 then
        (-1, (sys_unlink
          (log_cerr (clone_step1 w target).2
            (Diag.failed_to_rename target (clone_backup w target)))
          (clone_backup w target)).2)
      else if (clone_step2 w target other).1 ≠ 0 then
        (-1, if (clone_restore2 w target other).1 ≠ 0 then
          log_cerr (clone_restore2 w target other).2
            (Diag.rollback_failed_to_restore target (clone_backup w target))
          else (clone_restore2 w target other).2)
      else if (clone_step3 w target other).1 ≠ 0 then
        (-1, if (clone_restore3 w target other).1 ≠ 0 then
          log_cerr (clone_restore3 w target other).2
            (Diag.rollback_failed_to_restore target (clone_backup w target))
          else (clone_restore3 w target other).2)
      else if (clone_step4 w target other).1 ≠ 0 then
        (0, log_cerr (clone_step4 w target other).2
          (Diag.warning_failed_to_remove_backup (clone_backup w target)))
      else (0, (clone_step4 w target other).2) := by
  unfold makeclone makeclone_after_clone_failure makeclone_after_copyfile_failure
    clone_step4 clone_restore3 clone_remove3 clone_step3 clone_restore2 clone_step2 clone_step1
    clone_backup
  simp only []
  split_ifs <;> rfl

theorem log_cerr_fs (w : World) (d : Diag) : (log_cerr w d).fs = w.fs := rfl

/-- The start of `makeclone` on an existing target when the backup name could be made: the
backup name was free and differs from the target, and it holds an empty file. -/
theorem clone_backup_spec (w : World) (target : List Char) (node : Node)
    (htarget : w.fs target = some node) (htemp : clone_backup w target ≠ []) :
    w.fs (clone_backup w target) = none ∧ clone_backup w target ≠ target ∧
    (make_temp_file_nearby w target).2.fs =
      fs_set w.fs (clone_backup w target)
        (some (Node.file { content := [], metadata := 0, cow_id := -1 })) := by
  obtain ⟨h1, h2⟩ := make_temp_file_nearby_spec w target htemp
  refine ⟨h1, ?_, h2⟩
  intro he
  unfold clone_backup at he
  rw [he, htarget] at h1
  cases h1

/-- The file system after step 1 of `makeclone`: when the rename succeeded the backup holds the
original and the target is gone; when it failed the target is untouched. -/
theorem clone_step1_fs (w : World) (target : List Char) (node : Node)
    (htarget : w.fs target = some node) (htemp : clone_backup w target ≠ []) :
    ((clone_step1 w target).1 = 0 →
      (clone_step1 w target).2.fs =
        fs_set (fs_set w.fs (clone_backup w target) (some node)) target none) ∧
    ((clone_step1 w target).1 ≠ 0 → (clone_step1 w target).2.fs target = some node) := by
  obtain ⟨hfree, hne, hfs0⟩ := clone_backup_spec w target node htarget htemp
  obtain ⟨_, _, hfail, hok⟩ := sys_rename_spec (make_temp_file_nearby w target).2 target
    (clone_backup w target)
  constructor
  · intro h1
    obtain ⟨n2, hn2, hfs1⟩ := hok h1
    rw [hfs0, fs_set_other _ _ _ _ (Ne.symm hne), htarget] at hn2
    cases hn2
    show (sys_rename _ _ _).2.fs = _
    rw [hfs1, if_neg (Ne.symm hne), hfs0]
    funext p
    simp only [fs_set]
    split_ifs <;> rfl
  · intro h1
    show (sys_rename _ _ _).2.fs target = _
    rw [hfail h1, hfs0, fs_set_other _ _ _ _ (Ne.symm hne), htarget]

/-- The rollback of `makeclone` after a failed clone step: when the restoring rename succeeds
the file system is what it was before the call. -/
theorem clone_restore2_fs (w : World) (target other : List Char) (node : Node)
    (htarget : w.fs target = some node) (htemp : clone_backup w target ≠ [])
    (h1 : (clone_step1 w target).1 = 0) (h2 : (clone_step2 w target other).1 ≠ 0)
    (hrestore : (clone_restore2 w target other).1 = 0) :
    (clone_restore2 w target other).2.fs = w.fs := by
  obtain ⟨hfree, hne, _⟩ := clone_backup_spec w target node htarget htemp
  have hfs1 := (clone_step1_fs w target node htarget htemp).1 h1
  have hfs2 : (clone_step2 w target other).2.fs = (clone_step1 w target).2.fs :=
    (sys_clonefile_spec _ _ _).2.1 h2
  obtain ⟨n2, hn2, hfs3⟩ := (sys_rename_spec
    (log_cerr (clone_step2 w target other).2 (Diag.failed_to_clone other target))
    (clone_backup w target) target).2.2.2 hrestore
  rw [log_cerr_fs, hfs2, hfs1, fs_set_other _ _ _ _ hne, fs_set_same] at hn2
  cases hn2
  show (sys_rename _ _ _).2.fs = _
  rw [hfs3, if_neg hne, log_cerr_fs, hfs2, hfs1]
  funext p
  simp only [fs_set]
  by_cases hp1 : p = clone_backup w target
  · simp [hp1, hfree]
  · by_cases hp2 : p = target
    · subst hp2
      simp [hp1, htarget]
    · simp [hp1, hp2]

/-- The file system after a successful step 2 of `makeclone`: the target holds a clone of the
source, the backup still holds the original. -/
theorem clone_step2_fs (w : World) (target other : List Char) (node : Node)
    (htarget : w.fs target = some node) (htemp : clone_backup w target ≠ [])
    (h1 : (clone_step1 w target).1 = 0) (h2 : (clone_step2 w target other).1 = 0) :
    ∃ f, (clone_step1 w target).2.fs other = some (Node.file f) ∧
      (clone_step2 w target other).2.fs =
        fs_set (fs_set w.fs (clone_backup w target) (some node)) target
          (some (Node.file f)) := by
  have hfs1 := (clone_step1_fs w target node htarget htemp).1 h1
  obtain ⟨f, hf, _, hfs2⟩ := (sys_clonefile_spec (clone_step1 w target).2 other target).2.2 h2
  refine ⟨f, hf, ?_⟩
  show (sys_clonefile _ _ _).2.fs = _
  rw [hfs2, hfs1]
  funext p
  simp only [fs_set]
  split_ifs <;> rfl

/-- The rollback of `makeclone` after a failed metadata copy: when the restoring rename
succeeds the file system is what it was before the call. -/
theorem clone_restore3_fs (w : World) (target other : List Char) (node : Node)
    (htarget : w.fs target = some node) (htemp : clone_backup w target ≠ [])
    (h1 : (clone_step1 w target).1 = 0) (h2 : (clone_step2 w target other).1 = 0)
    (h3 : (clone_step3 w target other).1 ≠ 0)
    (hrestore : (clone_restore3 w target other).1 = 0) :
    (clone_restore3 w target other).2.fs = w.fs := by
  obtain ⟨hfree, hne, _⟩ := clone_backup_spec w target node htarget htemp
  obtain ⟨f, _, hfs2⟩ := clone_step2_fs w target other node htarget htemp h1 h2
  have hfs3 : (clone_step3 w target other).2.fs = (clone_step2 w target other).2.fs :=
    (sys_copyfile_metadata_spec _ _ _).2.1 h3
  -- the removal of the clone touches the target only
  have hrem : ∀ p, p ≠ target →
      (clone_remove3 w target other).fs p = (clone_step3 w target other).2.fs p := by
    intro p hp
    unfold clone_remove3
    simp only []
    obtain ⟨_, hfail, hok⟩ := sys_unlink_spec
      (log_cerr (clone_step3 w target other).2
        (Diag.warning_failed_to_restore_metadata (clone_backup w target) target)) target
    split_ifs with hr
    · rw [log_cerr_fs, hfail hr, log_cerr_fs]
    · have hr0 : (sys_unlink
          (log_cerr (clone_step3 w target other).2
            (Diag.warning_failed_to_restore_metadata (clone_backup w target) target))
          target).1 = 0 := by
        by_contra hcon
        exact hr hcon
      rw [hok hr0, log_cerr_fs, fs_set_other _ _ _ _ hp]
  obtain ⟨n2, hn2, hfs4⟩ := (sys_rename_spec (clone_remove3 w target other)
    (clone_backup w target) target).2.2.2 hrestore
  rw [hrem _ hne, hfs3, hfs2, fs_set_other _ _ _ _ hne, fs_set_same] at hn2
  cases hn2
  show (sys_rename _ _ _).2.fs = _
  rw [hfs4, if_neg hne]
  funext p
  by_cases hp1 : p = clone_backup w target
  · rw [hp1, fs_set_same, hfree]
  · rw [fs_set_other _ _ _ _ hp1]
    by_cases hp2 : p = target
    · rw [hp2, fs_set_same, htarget]
    · rw [fs_set_other _ _ _ _ hp2, hrem p hp2, hfs3, hfs2, fs_set_other _ _ _ _ hp2,
        fs_set_other _ _ _ _ hp1]

/-- The file system after a failed step 4 of `makeclone`: the original is still in the backup
file, and the target holds the clone of the source with the metadata of the original. -/
theorem clone_step4_failed_fs (w : World) (target other : List Char) (node : Node)
    (htarget : w.fs target = some node) (htemp : clone_backup w target ≠ [])
    (h1 : (clone_step1 w target).1 = 0) (h2 : (clone_step2 w target other).1 = 0)
    (h3 : (clone_step3 w target other).1 = 0) (h4 : (clone_step4 w target other).1 ≠ 0) :
    (clone_step4 w target other).2.fs (clone_backup w target) = some node ∧
    ∃ s f, node = Node.file s ∧ (clone_step1 w target).2.fs other = some (Node.file f) ∧
      (clone_step4 w target other).2.fs target =
        some (Node.file { f with metadata := s.metadata }) := by
  obtain ⟨hfree, hne, _⟩ := clone_backup_spec w target node htarget htemp
  obtain ⟨f, hf, hfs2⟩ := clone_step2_fs w target other node htarget htemp h1 h2
  obtain ⟨s, d, hs, hd, hfs3⟩ := (sys_copyfile_metadata_spec (clone_step2 w target other).2
    (clone_backup w target) target).2.2 h3
  have hfs4 : (clone_step4 w target other).2.fs = (clone_step3 w target other).2.fs :=
    (sys_unlink_spec _ _).2.1 h4
  rw [hfs2, fs_set_other _ _ _ _ hne, fs_set_same] at hs
  rw [hfs2, fs_set_same] at hd
  cases hs
  cases hd
  have hfs3b : (clone_step3 w target other).2.fs = _ := hfs3
  constructor
  · rw [hfs4, hfs3b, fs_set_other _ _ _ _ hne, hfs2, fs_set_other _ _ _ _ hne, fs_set_same]
  · refine ⟨s, f, rfl, hf, ?_⟩
    rw [hfs4, hfs3b, fs_set_same]

theorem clone_backup_isEmpty (w : World) (target : List Char)
    (htemp : clone_backup w target ≠ []) : (clone_backup w target).isEmpty = false := by
  cases h : clone_backup w target with
  | nil => exact absurd h htemp
  | cons c cs => rfl

/-- The result of `makeclone` when the clone step fails. -/
theorem makeclone_of_clone_failure (w : World) (target other : List Char)
    (htemp : clone_backup w target ≠ []) (h1 : (clone_step1 w target).1 = 0)
    (h2 : (clone_step2 w target other).1 ≠ 0) :
    makeclone w target other =
      (-1, if (clone_restore2 w target other).1 ≠ 0 then
        log_cerr (clone_restore2 w target other).2
          (Diag.rollback_failed_to_restore target (clone_backup w target))
        else (clone_restore2 w target other).2) := by
  rw [makeclone_eq, clone_backup_isEmpty w target htemp]
  simp only [Bool.false_eq_true, if_false, h1, ne_eq, not_true, h2, not_false_eq_true, if_true]

/-- The result of `makeclone` when the rename of the target to the backup fails. -/
theorem makeclone_of_rename_failure (w : World) (target other : List Char)
    (htemp : clone_backup w target ≠ []) (h1 : (clone_step1 w target).1 ≠ 0) :
    makeclone w target other =
      (-1, (sys_unlink
        (log_cerr (clone_step1 w target).2
          (Diag.failed_to_rename target (clone_backup w target)))
        (clone_backup w target)).2) := by
  rw [makeclone_eq, clone_backup_isEmpty w target htemp]
  simp only [Bool.false_eq_true, if_false, ne_eq, h1, not_false_eq_true, if_true]

/-- The result of `makeclone` when the copy of the metadata fails. -/
theorem makeclone_of_copyfile_failure (w : World) (target other : List Char)
    (htemp : clone_backup w target ≠ []) (h1 : (clone_step1 w target).1 = 0)
    (h2 : (clone_step2 w target other).1 = 0) (h3 : (clone_step3 w target other).1 ≠ 0) :
    makeclone w target other =
      (-1, if (clone_restore3 w target other).1 ≠ 0 then
        log_cerr (clone_restore3 w target other).2
          (Diag.rollback_failed_to_restore target (clone_backup w target))
        else (clone_restore3 w target other).2) := by
  rw [makeclone_eq, clone_backup_isEmpty w target htemp]
  simp only [Bool.false_eq_true, if_false, h1, h2, ne_eq, not_true, h3, not_false_eq_true,
    if_true]

/-- The result of `makeclone` when the deletion of the backup fails. -/
theorem makeclone_of_unlink_failure (w : World) (target other : List Char)
    (htemp : clone_backup w target ≠ []) (h1 : (clone_step1 w target).1 = 0)
    (h2 : (clone_step2 w target other).1 = 0) (h3 : (clone_step3 w target other).1 = 0)
    (h4 : (clone_step4 w target other).1 ≠ 0) :
    makeclone w target other =
      (0, log_cerr (clone_step4 w target other).2
        (Diag.warning_failed_to_remove_backup (clone_backup w target))) := by
  rw [makeclone_eq, clone_backup_isEmpty w target htemp]
  simp only [Bool.false_eq_true, if_false, h1, h2, h3, ne_eq, not_true, h4, not_false_eq_true,
    if_true]

theorem sys_mkstemp_cerr (w : World) (template : List Char) :
    (sys_mkstemp w template).2.cerr = w.cerr := by
  have hce := take_fault_cerr w
  unfold sys_mkstemp
  generalize take_fault w = t at hce
  obtain ⟨fault, w2⟩ := t
  simp only [] at hce
  cases fault with
  | true => exact hce
  | false =>
      simp only [Bool.false_eq_true, if_false]
      cases ht : w2.temps with
      | nil => exact hce
      | cons suffix rest =>
          simp only []
          split
          · exact hce
          · exact hce

theorem make_temp_file_nearby_cerr (w : World) (basePath : List Char)
    (h : (make_temp_file_nearby w basePath).1 ≠ []) :
    (make_temp_file_nearby w basePath).2.cerr = w.cerr := by
  revert h
  unfold make_temp_file_nearby
  simp only []
  generalize hdir : (match string_rfind basePath '/' with
    | some pos => List.take pos basePath
    | none => ['.']) ++ "/.clonebackup.XXXXXX".data = tmpl
  have hspec := sys_mkstemp_cerr w tmpl
  generalize sys_mkstemp w tmpl = r at hspec
  obtain ⟨name, w2⟩ := r
  cases name with
  | none => simp
  | some name =>
      intro _
      exact hspec

/-- The diagnostics of `makeclone` when the clone step fails: the line about the failed clone,
followed by the line about the failed rollback exactly if the restoring rename fails. -/
theorem makeclone_cerr_of_clone_failure (w : World) (target other : List Char)
    (htemp : clone_backup w target ≠ []) (h1 : (clone_step1 w target).1 = 0)
    (h2 : (clone_step2 w target other).1 ≠ 0) :
    (makeclone w target other).2.cerr =
      w.cerr ++ [Diag.failed_to_clone other target] ++
        (if (clone_restore2 w target other).1 ≠ 0 then
          [Diag.rollback_failed_to_restore target (clone_backup w target)] else []) := by
  have e0 : (make_temp_file_nearby w target).2.cerr = w.cerr :=
    make_temp_file_nearby_cerr w target htemp
  have e1 : (clone_step1 w target).2.cerr = (make_temp_file_nearby w target).2.cerr :=
    (sys_rename_spec _ _ _).2.1
  have e2 : (clone_step2 w target other).2.cerr = (clone_step1 w target).2.cerr :=
    (sys_clonefile_spec _ _ _).1
  have e3 : (clone_restore2 w target other).2.cerr =
      (clone_step2 w target other).2.cerr ++ [Diag.failed_to_clone other target] :=
    (sys_rename_spec _ _ _).2.1
  rw [makeclone_of_clone_failure w target other htemp h1 h2]
  simp only []
  split_ifs with hr
  · show (clone_restore2 w target other).2.cerr ++ _ = _
    rw [e3, e2, e1, e0]
  · rw [e3, e2, e1, e0]
    simp

/-- What `makeclone` writes to standard error when the copy of the metadata fails. -/
theorem makeclone_cerr_of_copyfile_failure (w : World) (target other : List Char)
    (htemp : clone_backup w target ≠ []) (h1 : (clone_step1 w target).1 = 0)
    (h2 : (clone_step2 w target other).1 = 0) (h3 : (clone_step3 w target other).1 ≠ 0) :
    ∃ extra, (extra = [] ∨ extra = [Diag.rollback_failed_to_remove_clone target]) ∧
      (makeclone w target other).2.cerr =
        w.cerr ++ ([Diag.warning_failed_to_restore_metadata (clone_backup w target) target] ++
          (extra ++
            (if (clone_restore3 w target other).1 ≠ 0 then
              [Diag.rollback_failed_to_restore target (clone_backup w target)] else []))) := by
  have e0 : (make_temp_file_nearby w target).2.cerr = w.cerr :=
    make_temp_file_nearby_cerr w target htemp
  have e1 : (clone_step1 w target).2.cerr = (make_temp_file_nearby w target).2.cerr :=
    (sys_rename_spec _ _ _).2.1
  have e2 : (clone_step2 w target other).2.cerr = (clone_step1 w target).2.cerr :=
    (sys_clonefile_spec _ _ _).1
  have e3 : (clone_step3 w target other).2.cerr = (clone_step2 w target other).2.cerr :=
    (sys_copyfile_metadata_spec _ _ _).1
  have e4 : ∃ extra, (extra = [] ∨ extra = [Diag.rollback_failed_to_remove_clone target]) ∧
      (clone_remove3 w target other).cerr =
        w.cerr ++ ([Diag.warning_failed_to_restore_metadata (clone_backup w target) target] ++
          extra) := by
    have eu := (sys_unlink_spec
      (log_cerr (clone_step3 w target other).2
        (Diag.warning_failed_to_restore_metadata (clone_backup w target) target)) target).1
    unfold clone_remove3
    simp only []
    split_ifs with hu
    · refine ⟨[Diag.rollback_failed_to_remove_clone target], Or.inr rfl, ?_⟩
      show (sys_unlink _ _).2.cerr ++ _ = _
      rw [eu]
      show ((clone_step3 w target other).2.cerr ++ _) ++ _ = _
      rw [e3, e2, e1, e0]
      simp
    · refine ⟨[], Or.inl rfl, ?_⟩
      rw [eu]
      show (clone_step3 w target other).2.cerr ++ _ = _
      rw [e3, e2, e1, e0]
      simp
  obtain ⟨extra, hextra, hc⟩ := e4
  have e5 : (clone_restore3 w target other).2.cerr = (clone_remove3 w target other).cerr :=
    (sys_rename_spec _ _ _).2.1
  refine ⟨extra, hextra, ?_⟩
  rw [makeclone_of_copyfile_failure w target other htemp h1 h2 h3]
  simp only []
  split_ifs with hr
  · show (clone_restore3 w target other).2.cerr ++ _ = _
    rw [e5, hc]
    simp
  · rw [e5, hc]
    simp

/-- The return value of `transactional_operation` and the state it leaves, case by case. -/
theorem transactional_operation_cases {σ ρ : Type} (ops : UndoableUnlinkOps σ ρ)
    (filename : List Char) (f : σ → List Char → Int × σ) (w : σ) :
    (ops.file_is_moved (ops.construct w filename).1 = false →
      transactional_operation ops filename f w =
        (1, ops.destruct (ops.construct w filename).1 (ops.construct w filename).2)) ∧
    (ops.file_is_moved (ops.construct w filename).1 = true →
      (f (ops.construct w filename).2 filename).1 ≠ 0 →
      transactional_operation ops filename f w =
        ((f (ops.construct w filename).2 filename).1,
          ops.destruct (ops.construct w filename).1
            (f (ops.construct w filename).2 filename).2)) ∧
    (ops.file_is_moved (ops.construct w filename).1 = true →
      (f (ops.construct w filename).2 filename).1 = 0 →
      transactional_operation ops filename f w =
        ((if (ops.unlink (ops.construct w filename).1
              (f (ops.construct w filename).2 filename).2).1 ≠ 0 then 1 else 0),
          ops.destruct
            (ops.unlink (ops.construct w filename).1
              (f (ops.construct w filename).2 filename).2).2.1
            (ops.unlink (ops.construct w filename).1
              (f (ops.construct w filename).2 filename).2).2.2)) := by
  refine ⟨?_, ?_, ?_⟩
  · intro hm
    unfold transactional_operation
    simp only [hm, Bool.not_false, if_true]
  · intro hm hf
    unfold transactional_operation
    simp only [hm, Bool.not_true, Bool.false_eq_true, if_false, ne_eq, Ne.symm hf,
      not_false_eq_true, if_true]
  · intro hm hf
    unfold transactional_operation
    simp only [hm, Bool.not_true, Bool.false_eq_true, if_false, hf, ne_eq, not_true]
    by_cases hu : (ops.unlink (ops.construct w filename).1
        (f (ops.construct w filename).2 filename).2).1 = 0
    · simp [hu]
    · simp [hu, Ne.symm hu]

/-- The link target of `makesymlink` is absolute when the name of the original is absolute, or
when the lookup of the working directory succeeds and gives an absolute path. -/
theorem makesymlink_target_absolute (w : World) (A_name : List Char)
    (h : A_name.head? = some '/' ∨
      ((sys_getcwd w 256).1 ≠ none ∧ w.cwd.head? = some '/')) :
    (makesymlink_target w A_name).1.head? = some '/' := by
  have habs : (makeAbsolute w A_name).1.2.head? = some '/' := by
    unfold makeAbsolute
    by_cases ha : A_name.length > 0 ∧ A_name.head? = some '/'
    · rw [if_pos ha]
      exact ha.2
    · rw [if_neg ha]
      rcases h with h | ⟨hok, hcwd⟩
      · exfalso
        apply ha
        refine ⟨?_, h⟩
        cases A_name with
        | nil => cases h
        | cons c cs => simp
      · revert hok
        unfold sys_getcwd
        have hc : (take_fault w).2.cwd = w.cwd := by
          unfold take_fault
          cases w.faults <;> rfl
        generalize take_fault w = t at hc
        obtain ⟨fault, w2⟩ := t
        simp only [] at hc
        cases fault with
        | true => simp
        | false =>
            simp only [Bool.false_eq_true, if_false]
            split_ifs with hlen
            · simp
            · intro _
              simp only []
              rw [hc]
              cases hw : w.cwd with
              | nil => rw [hw] at hcwd; cases hcwd
              | cons c cs =>
                  rw [hw] at hcwd
                  simpa using hcwd
  unfold makesymlink_target
  generalize makeAbsolute w A_name = r at habs
  obtain ⟨⟨ret, target⟩, w2⟩ := r
  simp only [] at habs ⊢
  obtain ⟨out, hout, _, _, _, hhead, _⟩ := simplifyPath_spec target
  rw [hout]
  exact hhead habs

/-- The subtraction `cloned - already_cloned` in `makeclones` does not wrap around: every pair
counted in `already_cloned` is counted by `applyactiononfile` as well. -/
theorem clone_op_already_le_cloned {cap : Nat}
    (ps : List (Fileinfo cap × Fileinfo cap)) :
    ∀ (n : Nat) (w : World) (warned : Bool) (already : Nat), already ≤ n →
      (run_actions clone_op (n, (w, warned, already)) ps).2.2.2 ≤
        (run_actions clone_op (n, (w, warned, already)) ps).1 := by
  induction ps with
  | nil => intro n w warned already h; exact h
  | cons p rest ih =>
      intro n w warned already h
      obtain ⟨dup, orig⟩ := p
      rw [run_actions]
      unfold clone_op
      simp only []
      by_cases h1 : (!is_on_apfs w dup.name.data || !is_on_apfs w orig.name.data) = true
      · rw [if_pos h1]
        by_cases h2 : (!warned) = true
        · rw [if_pos h2]
          exact ih _ _ _ _ (by simp; omega)
        · rw [if_neg h2]
          exact ih _ _ _ _ (by simp; omega)
      · rw [if_neg h1]
        by_cases h3 : is_clone_of w dup.name.data orig.name.data = true
        · rw [if_pos h3]
          exact ih _ _ _ _ (by simp; omega)
        · rw [if_neg h3]
          apply ih
          simp only []
          split_ifs <;> omega

/-- What one invocation of `clone_op` does to the counter `already_cloned`. -/
theorem clone_op_already {cap : Nat} (s : World × Bool × Nat) (A B : Fileinfo cap) :
    (clone_op s A B).2.2.2 = s.2.2 + (if already_a_clone s A B then 1 else 0) ∧
    (already_a_clone s A B = true → (clone_op s A B).1 = 0) := by
  obtain ⟨w, warned, already⟩ := s
  unfold clone_op already_a_clone
  simp only []
  by_cases h1 : (!is_on_apfs w A.name.data || !is_on_apfs w B.name.data) = true
  · rw [if_pos h1]
    have h1b : (is_on_apfs w A.name.data && is_on_apfs w B.name.data) = false := by
      cases ha : is_on_apfs w A.name.data <;> cases hb : is_on_apfs w B.name.data <;>
        simp [ha, hb] at h1 ⊢
    simp only [h1b, Bool.false_and, Bool.false_eq_true, if_false, Nat.add_zero]
    by_cases h2 : (!warned) = true
    · rw [if_pos h2]
      exact ⟨rfl, fun h => by cases h⟩
    · rw [if_neg h2]
      exact ⟨rfl, fun h => by cases h⟩
  · rw [if_neg h1]
    have h1b : (is_on_apfs w A.name.data && is_on_apfs w B.name.data) = true := by
      cases ha : is_on_apfs w A.name.data <;> cases hb : is_on_apfs w B.name.data <;>
        simp [ha, hb] at h1 ⊢
    simp only [h1b, Bool.true_and]
    by_cases h3 : is_clone_of w A.name.data B.name.data = true
    · rw [if_pos h3, if_pos h3]
      exact ⟨rfl, fun _ => rfl⟩
    · rw [if_neg h3, if_neg h3]
      exact ⟨rfl, fun h => absurd h h3⟩

/-- The counter `already_cloned` after the invocations of `clone_op`: the number of invocations
that found a clone. -/
theorem clone_op_already_eq_skips {cap : Nat} (ps : List (Fileinfo cap × Fileinfo cap)) :
    ∀ (n : Nat) (s : World × Bool × Nat),
      (run_actions clone_op (n, s) ps).2.2.2 = s.2.2 + clone_skips s ps := by
  induction ps with
  | nil => intro n s; simp [run_actions, clone_skips]
  | cons p rest ih =>
      intro n s
      obtain ⟨dup, orig⟩ := p
      rw [run_actions, clone_skips, ih, (clone_op_already s dup orig).1]
      omega

end FileOps

/-! ## Claims: the applier -/

section ClaimsApplier

variable {cap : Nat}

/-- C11 (as stated, refuted): on the marked pair "dir/orig", "dir/dup", in a world where the
`unlink` of the duplicate fails, the dry run of `deleteduplicates` returns 1 and the real run
returns 0. -/
theorem dryrun_count_differs_when_delete_fails :
    well_marked none [orig_record, dup_record] = true ∧
    (deleteduplicates [orig_record, dup_record] true (sample_world [true])).map Prod.fst =
      some 1 ∧
    (deleteduplicates [orig_record, dup_record] false (sample_world [true])).map Prod.fst =
      some 0 := by
  decide

/-- C11 (amended): for every well marked collection and each action (delete, symlink, hardlink,
clone), the dry-run variant returns the number of duplicate records (it pretends that every
action succeeds). The real variant of delete, symlink and hardlink returns the number of its
invocations (one per duplicate record) that returned 0, and the real variant of clone returns
the number of its invocations that returned 0 minus the number of pairs that were clones
already. For every action the number of invocations that returned 0 is at most the number of
duplicate records, and equal to it exactly when every invocation returned 0. -/
theorem dryrun_counts_all_real_counts_successes {ρ : Type} (ops : UndoableUnlinkOps World ρ)
    (l : List (Fileinfo cap)) (w : World) (hw : well_marked none l = true) :
    (∃ wd, deleteduplicates l true w = some (l.countP is_duplicate, wd)) ∧
    (∃ wd, makesymlinks ops l true w = some (l.countP is_duplicate, wd)) ∧
    (∃ wd, makehardlinks ops l true w = some (l.countP is_duplicate, wd)) ∧
    (∃ wd, makeclones l true w = some (l.countP is_duplicate, wd)) ∧
    (∃ wr, deleteduplicates l false w =
      some ((return_codes static_deletefile w (duplicate_pairs none l)).count 0, wr)) ∧
    (∃ wr, makesymlinks ops l false w =
      some ((return_codes (static_makesymlink ops) w (duplicate_pairs none l)).count 0,
        wr)) ∧
    (∃ wr, makehardlinks ops l false w =
      some ((return_codes (static_makehardlink ops) w (duplicate_pairs none l)).count 0,
        wr)) ∧
    (∃ wr, makeclones l false w =
      some ((return_codes clone_op (w, false, 0) (duplicate_pairs none l)).count 0 -
        clone_skips (w, false, 0) (duplicate_pairs none l), wr)) ∧
    clone_skips (w, false, 0) (duplicate_pairs none l) ≤
      (return_codes clone_op (w, false, 0) (duplicate_pairs none l)).count 0 ∧
    (∀ (σ : Type) (f : σ → Fileinfo cap → Fileinfo cap → Int × σ) (s : σ),
      (return_codes f s (duplicate_pairs none l)).length = l.countP is_duplicate ∧
      (return_codes f s (duplicate_pairs none l)).count 0 ≤ l.countP is_duplicate ∧
      ((return_codes f s (duplicate_pairs none l)).count 0 = l.countP is_duplicate ↔
        ∀ c ∈ return_codes f s (duplicate_pairs none l), c = 0)) := by
  have hdry : ∀ (b : Bool) (m1 : List Char) (m2 : Option (List Char)),
      ∃ wd, applyactiononfile l (dryrun_helper b m1 m2) w =
        some (l.countP is_duplicate, wd) := by
    intro b m1 m2
    obtain ⟨n, wd, h1, _, h3⟩ := applyactiononfile_count (dryrun_helper b m1 m2) l w hw
    refine ⟨wd, ?_⟩
    rw [h1, h3 (fun _ _ _ => rfl)]
  have hclone := clone_op_already_eq_skips (duplicate_pairs none l) 0 (w, false, 0)
  have hcount := (run_actions_count_eq clone_op (duplicate_pairs none l) 0 (w, false, 0)).1
  have hle := clone_op_already_le_cloned (duplicate_pairs none l) 0 w false 0 (le_refl 0)
  simp only [Nat.zero_add] at hclone hcount
  refine ⟨hdry false "delete ".data none, hdry true "symlink ".data (some " to ".data),
    hdry true "hardlink ".data (some " to ".data),
    hdry true "clone ".data (some " from ".data),
    (applyactiononfile_counts_zero_codes static_deletefile l w hw).1,
    (applyactiononfile_counts_zero_codes (static_makesymlink ops) l w hw).1,
    (applyactiononfile_counts_zero_codes (static_makehardlink ops) l w hw).1, ?_, ?_, ?_⟩
  · unfold makeclones
    simp only [Bool.false_eq_true, if_false, applyactiononfile_eq clone_op l (w, false, 0) hw]
    generalize hr : run_actions clone_op (0, (w, false, 0)) (duplicate_pairs none l) = r at *
    obtain ⟨cloned, wr, warned, already⟩ := r
    simp only [] at hclone hcount ⊢
    rw [← hclone, ← hcount]
    exact ⟨_, rfl⟩
  · rw [← hclone, ← hcount]
    exact hle
  · intro σ f s
    exact (applyactiononfile_counts_zero_codes f l s hw).2

/-- Witness for C11 (amended): the marked pair "dir/orig", "dir/dup" in a world without
injected failures, where the real run of `deleteduplicates` returns 1 as the dry run does, and
in a world where the `unlink` fails, where the only return code is -1 and the real run
returns 0. -/
theorem dryrun_counts_all_real_counts_successes_witness :
    well_marked none [orig_record, dup_record] = true ∧
    (deleteduplicates [orig_record, dup_record] false (sample_world [])).map Prod.fst =
      some 1 ∧
    return_codes static_deletefile (sample_world [true])
      (duplicate_pairs none [orig_record, dup_record]) = [-1] ∧
    (∃ wr, deleteduplicates [orig_record, dup_record] false (sample_world [true]) =
      some ((return_codes static_deletefile (sample_world [true])
        (duplicate_pairs none [orig_record, dup_record])).count 0, wr)) ∧
    (∃ wd, deleteduplicates [orig_record, dup_record] true (sample_world [true]) =
      some ([orig_record, dup_record].countP is_duplicate, wd)) :=
  ⟨by decide, by decide, by decide,
    (dryrun_counts_all_real_counts_successes (undoable_unlink sample_tmpname)
      [orig_record, dup_record] (sample_world [true]) (by decide)).2.2.2.2.1,
    (dryrun_counts_all_real_counts_successes (undoable_unlink sample_tmpname)
      [orig_record, dup_record] (sample_world [true]) (by decide)).1⟩

/-- C12: for every well marked collection and every action `f`, `applyactiononfile` passes its
assertions and does what `run_actions` does on the pairs of `duplicate_pairs`: it invokes `f`
once for each record of kind `DUPTYPE_WITHIN_SAME_TREE` or `DUPTYPE_OUTSIDE_TREE`, in list
order, each paired with the most recently seen record of kind `DUPTYPE_FIRST_OCCURRENCE`; it
returns the number of the invocations that returned 0, and an invocation that fails does not
stop the invocations for the later records. -/
theorem applyactiononfile_invokes_each_duplicate_once {σ : Type} (l : List (Fileinfo cap))
    (f : σ → Fileinfo cap → Fileinfo cap → Int × σ) (w : σ)
    (hw : well_marked none l = true) :
    applyactiononfile l f w = some (run_actions f (0, w) (duplicate_pairs none l)) ∧
    (duplicate_pairs none l).map Prod.fst = l.filter is_duplicate ∧
    (∀ pre x post, l = pre ++ x :: post → is_duplicate x = true →
      ∃ o, current_original none pre = some o ∧
        o.getduptype = duptype.DUPTYPE_FIRST_OCCURRENCE ∧
        duplicate_pairs none l =
          duplicate_pairs none pre ++ (x, o) :: duplicate_pairs (some o) post) ∧
    (∀ (n : Nat) (s : σ) (dup orig : Fileinfo cap)
      (rest : List (Fileinfo cap × Fileinfo cap)),
      run_actions f (n, s) ((dup, orig) :: rest) =
        run_actions f ((if (f s dup orig).1 = 0 then n + 1 else n), (f s dup orig).2) rest) :=
  ⟨applyactiononfile_eq f l w hw, duplicate_pairs_fst l none hw,
    fun pre x post hl hx => duplicate_pairs_at l pre post x hw hl hx,
    fun _ _ _ _ _ => rfl⟩

/-- Witness for C12: the three marked files A, B, C with an action that records its invocations
and fails on B: the action is invoked on (B, A) and then on (C, A), and the count is 1. -/
theorem applyactiononfile_invokes_each_duplicate_once_witness :
    well_marked none marked_ABC = true ∧
    applyactiononfile marked_ABC sample_action [] = some (1, [("B", "A"), ("C", "A")]) ∧
    applyactiononfile marked_ABC sample_action [] =
      some (run_actions sample_action (0, []) (duplicate_pairs none marked_ABC)) :=
  ⟨by decide, by decide,
    (applyactiononfile_invokes_each_duplicate_once marked_ABC sample_action [] (by decide)).1⟩

end ClaimsApplier

/-! ## Claims: the transactional file operations -/

section ClaimsFileOps

/-- C14: for every file system state in which the target exists, if `makeclone` gets its backup
name, the rename of the target to the backup succeeds, the clone step fails and the restoring
rename succeeds, then `makeclone` returns nonzero and the file system afterwards equals the
file system before the call: the target path holds the original file and no backup file
remains. -/
theorem makeclone_failed_clone_is_rolled_back (w : World) (target other : List Char)
    (node : Node) (htarget : w.fs target = some node)
    (htemp : clone_backup w target ≠ [])
    (h1 : (clone_step1 w target).1 = 0)
    (h2 : (clone_step2 w target other).1 ≠ 0)
    (hrestore : (clone_restore2 w target other).1 = 0) :
    (makeclone w target other).1 ≠ 0 ∧
    (makeclone w target other).2.fs = w.fs ∧
    (makeclone w target other).2.fs target = some node ∧
    (makeclone w target other).2.fs (clone_backup w target) = none := by
  have hfs : (makeclone w target other).2.fs = w.fs := by
    rw [makeclone_of_clone_failure w target other htemp h1 h2]
    simp only [hrestore, ne_eq, not_true, if_false]
    exact clone_restore2_fs w target other node htarget htemp h1 h2 hrestore
  refine ⟨?_, hfs, ?_, ?_⟩
  · rw [makeclone_of_clone_failure w target other htemp h1 h2]
    simp
  · rw [hfs, htarget]
  · rw [hfs]
    exact (clone_backup_spec w target node htarget htemp).1

/-- Witness for C14: the duplicate "dir/dup" is to become a clone of a source that does not
exist, so the clone step fails. -/
theorem makeclone_failed_clone_is_rolled_back_witness :
    (sample_world []).fs "dir/dup".data =
      some (Node.file { content := [1, 2, 3], metadata := 9, cow_id := 200 }) ∧
    clone_backup (sample_world []) "dir/dup".data ≠ [] ∧
    (clone_step1 (sample_world []) "dir/dup".data).1 = 0 ∧
    (clone_step2 (sample_world []) "dir/dup".data "dir/missing".data).1 ≠ 0 ∧
    (clone_restore2 (sample_world []) "dir/dup".data "dir/missing".data).1 = 0 ∧
    ((makeclone (sample_world []) "dir/dup".data "dir/missing".data).1 ≠ 0 ∧
      (makeclone (sample_world []) "dir/dup".data "dir/missing".data).2.fs =
        (sample_world []).fs ∧
      (makeclone (sample_world []) "dir/dup".data "dir/missing".data).2.fs "dir/dup".data =
        some (Node.file { content := [1, 2, 3], metadata := 9, cow_id := 200 }) ∧
      (makeclone (sample_world []) "dir/dup".data "dir/missing".data).2.fs
        (clone_backup (sample_world []) "dir/dup".data) = none) :=
  ⟨by decide, by decide, by decide, by decide, by decide,
    makeclone_failed_clone_is_rolled_back (sample_world []) "dir/dup".data "dir/missing".data
      (Node.file { content := [1, 2, 3], metadata := 9, cow_id := 200 }) (by decide)
      (by decide) (by decide) (by decide) (by decide)⟩

/-- C15 (as stated, refuted): when the deletion of the backup (step 4) fails, `makeclone`
returns 0 and does not roll back: the target path holds the clone of the source, not the
original file, which stays in the backup file, a file that was not there before the call. -/
theorem makeclone_no_rollback_when_backup_deletion_fails :
    (clone_step4 (sample_world [false, false, false, false, true]) "dir/dup".data
      "dir/orig".data).1 ≠ 0 ∧
    (sample_world [false, false, false, false, true]).fs "dir/.clonebackup.abc123".data =
      none ∧
    (makeclone (sample_world [false, false, false, false, true]) "dir/dup".data
      "dir/orig".data).1 = 0 ∧
    (makeclone (sample_world [false, false, false, false, true]) "dir/dup".data
      "dir/orig".data).2.fs "dir/dup".data =
      some (Node.file { content := [1, 2, 3], metadata := 9, cow_id := 100 }) ∧
    (makeclone (sample_world [false, false, false, false, true]) "dir/dup".data
      "dir/orig".data).2.fs "dir/dup".data ≠
      (sample_world [false, false, false, false, true]).fs "dir/dup".data ∧
    (makeclone (sample_world [false, false, false, false, true]) "dir/dup".data
      "dir/orig".data).2.fs "dir/.clonebackup.abc123".data =
      (sample_world [false, false, false, false, true]).fs "dir/dup".data := by
  decide

/-- C15 (amended): for an existing target and a backup name that could be made: if the rename
of the target to the backup fails, `makeclone` returns nonzero and the target path holds the
original file; if the clone from the source or the copy of the metadata fails and the restoring
rename succeeds, `makeclone` returns nonzero and the file system is what it was before the
call, so the target path holds the original file; if the deletion of the backup fails, nothing
is rolled back: `makeclone` returns 0, the backup file keeps the original and the target path
holds the clone of the source with the metadata of the original. -/
theorem makeclone_rollback_by_step (w : World) (target other : List Char) (node : Node)
    (htarget : w.fs target = some node) (htemp : clone_backup w target ≠ []) :
    ((clone_step1 w target).1 ≠ 0 →
      (makeclone w target other).1 ≠ 0 ∧
      (makeclone w target other).2.fs target = some node) ∧
    ((clone_step1 w target).1 = 0 → (clone_step2 w target other).1 ≠ 0 →
      (clone_restore2 w target other).1 = 0 →
      (makeclone w target other).1 ≠ 0 ∧ (makeclone w target other).2.fs = w.fs ∧
      (makeclone w target other).2.fs target = some node) ∧
    ((clone_step1 w target).1 = 0 → (clone_step2 w target other).1 = 0 →
      (clone_step3 w target other).1 ≠ 0 → (clone_restore3 w target other).1 = 0 →
      (makeclone w target other).1 ≠ 0 ∧ (makeclone w target other).2.fs = w.fs ∧
      (makeclone w target other).2.fs target = some node) ∧
    ((clone_step1 w target).1 = 0 → (clone_step2 w target other).1 = 0 →
      (clone_step3 w target other).1 = 0 → (clone_step4 w target other).1 ≠ 0 →
      (makeclone w target other).1 = 0 ∧
      (makeclone w target other).2.fs (clone_backup w target) = some node ∧
      ∃ s f, node = Node.file s ∧
        (clone_step1 w target).2.fs other = some (Node.file f) ∧
        (makeclone w target other).2.fs target =
          some (Node.file { f with metadata := s.metadata })) := by
  obtain ⟨_, hne, _⟩ := clone_backup_spec w target node htarget htemp
  refine ⟨?_, ?_, ?_, ?_⟩
  · intro h1
    rw [makeclone_of_rename_failure w target other htemp h1]
    refine ⟨by simp, ?_⟩
    have hfs1 := (clone_step1_fs w target node htarget htemp).2 h1
    obtain ⟨_, hfail, hok⟩ := sys_unlink_spec
      (log_cerr (clone_step1 w target).2
        (Diag.failed_to_rename target (clone_backup w target))) (clone_backup w target)
    by_cases hu : (sys_unlink
        (log_cerr (clone_step1 w target).2
          (Diag.failed_to_rename target (clone_backup w target)))
        (clone_backup w target)).1 = 0
    · show (sys_unlink _ _).2.fs target = _
      rw [hok hu, fs_set_other _ _ _ _ (Ne.symm hne), log_cerr_fs, hfs1]
    · show (sys_unlink _ _).2.fs target = _
      rw [hfail hu, log_cerr_fs, hfs1]
  · intro h1 h2 hrestore
    have hfs : (makeclone w target other).2.fs = w.fs := by
      rw [makeclone_of_clone_failure w target other htemp h1 h2]
      simp only [hrestore, ne_eq, not_true, if_false]
      exact clone_restore2_fs w target other node htarget htemp h1 h2 hrestore
    refine ⟨?_, hfs, by rw [hfs, htarget]⟩
    rw [makeclone_of_clone_failure w target other htemp h1 h2]
    simp
  · intro h1 h2 h3 hrestore
    have hfs : (makeclone w target other).2.fs = w.fs := by
      rw [makeclone_of_copyfile_failure w target other htemp h1 h2 h3]
      simp only [hrestore, ne_eq, not_true, if_false]
      exact clone_restore3_fs w target other node htarget htemp h1 h2 h3 hrestore
    refine ⟨?_, hfs, by rw [hfs, htarget]⟩
    rw [makeclone_of_copyfile_failure w target other htemp h1 h2 h3]
    simp
  · intro h1 h2 h3 h4
    rw [makeclone_of_unlink_failure w target other htemp h1 h2 h3 h4]
    obtain ⟨hb, s, f, hs, hf, ht⟩ :=
      clone_step4_failed_fs w target other node htarget htemp h1 h2 h3 h4
    exact ⟨rfl, hb, s, f, hs, hf, ht⟩

/-- Witness for C15 (amended): the duplicate "dir/dup" and the original "dir/orig", with the
copy of the metadata made to fail. -/
theorem makeclone_rollback_by_step_witness :
    (sample_world [false, false, false, true]).fs "dir/dup".data =
      some (Node.file { content := [1, 2, 3], metadata := 9, cow_id := 200 }) ∧
    clone_backup (sample_world [false, false, false, true]) "dir/dup".data ≠ [] ∧
    (clone_step1 (sample_world [false, false, false, true]) "dir/dup".data).1 = 0 ∧
    (clone_step2 (sample_world [false, false, false, true]) "dir/dup".data
      "dir/orig".data).1 = 0 ∧
    (clone_step3 (sample_world [false, false, false, true]) "dir/dup".data
      "dir/orig".data).1 ≠ 0 ∧
    (clone_restore3 (sample_world [false, false, false, true]) "dir/dup".data
      "dir/orig".data).1 = 0 ∧
    ((makeclone (sample_world [false, false, false, true]) "dir/dup".data
        "dir/orig".data).1 ≠ 0 ∧
      (makeclone (sample_world [false, false, false, true]) "dir/dup".data
        "dir/orig".data).2.fs = (sample_world [false, false, false, true]).fs ∧
      (makeclone (sample_world [false, false, false, true]) "dir/dup".data
        "dir/orig".data).2.fs "dir/dup".data =
        some (Node.file { content := [1, 2, 3], metadata := 9, cow_id := 200 })) :=
  ⟨by decide, by decide, by decide, by decide, by decide, by decide,
    (makeclone_rollback_by_step (sample_world [false, false, false, true]) "dir/dup".data
      "dir/orig".data (Node.file { content := [1, 2, 3], metadata := 9, cow_id := 200 })
      (by decide) (by decide)).2.2.1 (by decide) (by decide) (by decide) (by decide)⟩

/-- C16 (as stated, refuted): the error returned when the restore fails is the one returned
when it succeeds. `makeclone` of "dir/dup" from a source that does not exist returns -1 when
the restoring rename succeeds (first world) and -1 when it fails and the target is lost (second
world). `makesymlink`, through `transactional_operation`, with a failing `symlink` returns -1
when the restorer puts the file back (third world) and -1 when it cannot and the file is lost
(fourth world). -/
theorem failed_restore_returns_the_same_code :
    (clone_step2 (sample_world []) "dir/dup".data "dir/missing".data).1 ≠ 0 ∧
    (clone_restore2 (sample_world []) "dir/dup".data "dir/missing".data).1 = 0 ∧
    (makeclone (sample_world []) "dir/dup".data "dir/missing".data).1 = -1 ∧
    (clone_step2 (sample_world [false, false, false, true]) "dir/dup".data
      "dir/missing".data).1 ≠ 0 ∧
    (clone_restore2 (sample_world [false, false, false, true]) "dir/dup".data
      "dir/missing".data).1 ≠ 0 ∧
    (makeclone (sample_world [false, false, false, true]) "dir/dup".data
      "dir/missing".data).2.fs "dir/dup".data = none ∧
    (makeclone (sample_world [false, false, false, true]) "dir/dup".data
      "dir/missing".data).1 = -1 ∧
    (makesymlink (undoable_unlink sample_tmpname) (sample_world [false, false, true])
      "dir/dup".data "dir/orig".data).2.fs "dir/dup".data =
      (sample_world [false, false, true]).fs "dir/dup".data ∧
    (makesymlink (undoable_unlink sample_tmpname) (sample_world [false, false, true])
      "dir/dup".data "dir/orig".data).1 = -1 ∧
    (makesymlink (undoable_unlink sample_tmpname) (sample_world [false, false, true, true])
      "dir/dup".data "dir/orig".data).2.fs "dir/dup".data = none ∧
    (makesymlink (undoable_unlink sample_tmpname) (sample_world [false, false, true, true])
      "dir/dup".data "dir/orig".data).1 = -1 := by
  decide

/-- C16 (amended): when a mutation fails, the operation returns the same error code whether the
restore of the moved-aside file succeeds or fails. `makeclone` returns -1 after a failed clone
step or a failed copy of the metadata, whatever the restoring rename does, and
`transactional_operation` returns the code of the failed `f`, whatever the destructor of the
restorer does. In `makeclone` a failed restore shows on standard error only: the line
"Rollback error: Failed to restore" for the target and its backup is among the lines written
by the call exactly when the restoring rename fails. -/
theorem failed_restore_keeps_code_and_adds_rollback_line (w : World)
    (target other : List Char)
    (htemp : clone_backup w target ≠ []) (h1 : (clone_step1 w target).1 = 0) :
    ((clone_step2 w target other).1 ≠ 0 →
      (makeclone w target other).1 = -1 ∧
      (Diag.rollback_failed_to_restore target (clone_backup w target) ∈
          (makeclone w target other).2.cerr.drop w.cerr.length ↔
        (clone_restore2 w target other).1 ≠ 0)) ∧
    ((clone_step2 w target other).1 = 0 → (clone_step3 w target other).1 ≠ 0 →
      (makeclone w target other).1 = -1 ∧
      (Diag.rollback_failed_to_restore target (clone_backup w target) ∈
          (makeclone w target other).2.cerr.drop w.cerr.length ↔
        (clone_restore3 w target other).1 ≠ 0)) ∧
    (∀ (σ ρ : Type) (ops : UndoableUnlinkOps σ ρ) (filename : List Char)
      (f : σ → List Char → Int × σ) (s : σ),
      ops.file_is_moved (ops.construct s filename).1 = true →
      (f (ops.construct s filename).2 filename).1 ≠ 0 →
      ∀ d : ρ → σ → σ,
        (transactional_operation { ops with destruct := d } filename f s).1 =
          (f (ops.construct s filename).2 filename).1) := by
  refine ⟨fun h2 => ⟨?_, ?_⟩, fun h2 h3 => ⟨?_, ?_⟩, ?_⟩
  · rw [makeclone_of_clone_failure w target other htemp h1 h2]
  · rw [makeclone_cerr_of_clone_failure w target other htemp h1 h2, List.append_assoc,
      List.drop_left]
    by_cases hr : (clone_restore2 w target other).1 = 0 <;> simp [hr]
  · rw [makeclone_of_copyfile_failure w target other htemp h1 h2 h3]
  · obtain ⟨extra, hextra, hc⟩ :=
      makeclone_cerr_of_copyfile_failure w target other htemp h1 h2 h3
    rw [hc, List.drop_left]
    by_cases hr : (clone_restore3 w target other).1 = 0 <;>
      rcases hextra with rfl | rfl <;> simp [hr]
  · intro σ ρ ops filename f s hm hf d
    rw [(transactional_operation_cases { ops with destruct := d } filename f s).2.1 hm hf]

/-- Witness for C16 (amended): the clone of "dir/dup" from a source that does not exist, with
the restoring rename made to fail. -/
theorem failed_restore_keeps_code_and_adds_rollback_line_witness :
    clone_backup (sample_world [false, false, false, true]) "dir/dup".data ≠ [] ∧
    (clone_step1 (sample_world [false, false, false, true]) "dir/dup".data).1 = 0 ∧
    (clone_step2 (sample_world [false, false, false, true]) "dir/dup".data
      "dir/missing".data).1 ≠ 0 ∧
    (clone_restore2 (sample_world [false, false, false, true]) "dir/dup".data
      "dir/missing".data).1 ≠ 0 ∧
    ((makeclone (sample_world [false, false, false, true]) "dir/dup".data
        "dir/missing".data).1 = -1 ∧
      (Diag.rollback_failed_to_restore "dir/dup".data
          (clone_backup (sample_world [false, false, false, true]) "dir/dup".data) ∈
          (makeclone (sample_world [false, false, false, true]) "dir/dup".data
            "dir/missing".data).2.cerr.drop
            (sample_world [false, false, false, true]).cerr.length ↔
        (clone_restore2 (sample_world [false, false, false, true]) "dir/dup".data
          "dir/missing".data).1 ≠ 0)) :=
  ⟨by decide, by decide, by decide, by decide,
    (failed_restore_keeps_code_and_adds_rollback_line (sample_world [false, false, false, true])
      "dir/dup".data "dir/missing".data (by decide) (by decide)).1 (by decide)⟩

end ClaimsFileOps

/-! ## Claims: `transactional_operation` and the link target -/

section ClaimsTransaction

/-- C17: `transactional_operation(filename, f)` returns 0 if and only if moving the file aside
succeeded, `f` returned 0 and deleting the temporary succeeded. When the move aside failed the
call returns 1 without invoking `f` or deleting anything: its result is the same for every
`f` and every `unlink`. When `f` returned nonzero the call returns the code of `f` and the
temporary is not deleted: the result is the same for every `unlink`. In both cases the only
thing that still runs is the destructor of the restorer. -/
theorem transactional_operation_contract {σ ρ : Type} (ops : UndoableUnlinkOps σ ρ)
    (filename : List Char) (f : σ → List Char → Int × σ) (w : σ) :
    ((transactional_operation ops filename f w).1 = 0 ↔
      (ops.file_is_moved (ops.construct w filename).1 = true ∧
        (f (ops.construct w filename).2 filename).1 = 0 ∧
        (ops.unlink (ops.construct w filename).1
          (f (ops.construct w filename).2 filename).2).1 = 0)) ∧
    (ops.file_is_moved (ops.construct w filename).1 = false →
      (transactional_operation ops filename f w).1 ≠ 0 ∧
      ∀ (g : σ → List Char → Int × σ) (u : ρ → σ → Int × ρ × σ),
        transactional_operation { ops with unlink := u } filename g w =
          (1, ops.destruct (ops.construct w filename).1 (ops.construct w filename).2)) ∧
    (ops.file_is_moved (ops.construct w filename).1 = true →
      (f (ops.construct w filename).2 filename).1 ≠ 0 →
      (transactional_operation ops filename f w).1 =
        (f (ops.construct w filename).2 filename).1 ∧
      ∀ (u : ρ → σ → Int × ρ × σ),
        transactional_operation { ops with unlink := u } filename f w =
          ((f (ops.construct w filename).2 filename).1,
            ops.destruct (ops.construct w filename).1
              (f (ops.construct w filename).2 filename).2)) := by
  obtain ⟨c1, c2, c3⟩ := transactional_operation_cases ops filename f w
  refine ⟨?_, ?_, ?_⟩
  · cases hm : ops.file_is_moved (ops.construct w filename).1
    · rw [c1 hm]
      simp
    · by_cases hf : (f (ops.construct w filename).2 filename).1 = 0
      · rw [c3 hm hf]
        by_cases hu : (ops.unlink (ops.construct w filename).1
            (f (ops.construct w filename).2 filename).2).1 = 0
        · simp [hf, hu]
        · simp [hf, hu]
      · rw [c2 hm hf]
        simp [hf]
  · intro hm
    refine ⟨?_, fun g u => ?_⟩
    · rw [c1 hm]
      simp
    · exact (transactional_operation_cases { ops with unlink := u } filename g w).1 hm
  · intro hm hf
    refine ⟨?_, fun u => ?_⟩
    · rw [c2 hm hf]
    · exact (transactional_operation_cases { ops with unlink := u } filename f w).2.1 hm hf

/-- Witness for C17: the symlink action on "dir/dup" with the move aside made to fail. -/
theorem transactional_operation_contract_witness :
    (undoable_unlink sample_tmpname).file_is_moved
      ((undoable_unlink sample_tmpname).construct (sample_world [true]) "dir/dup".data).1 =
      false ∧
    ((transactional_operation (undoable_unlink sample_tmpname) "dir/dup".data
        (makesymlink_action "dir/orig".data) (sample_world [true])).1 ≠ 0 ∧
      ∀ (g : World → List Char → Int × World)
        (u : UndoableUnlinkState → World → Int × UndoableUnlinkState × World),
        transactional_operation { undoable_unlink sample_tmpname with unlink := u }
            "dir/dup".data g (sample_world [true]) =
          (1, (undoable_unlink sample_tmpname).destruct
            ((undoable_unlink sample_tmpname).construct (sample_world [true])
              "dir/dup".data).1
            ((undoable_unlink sample_tmpname).construct (sample_world [true])
              "dir/dup".data).2)) :=
  ⟨by decide,
    (transactional_operation_contract (undoable_unlink sample_tmpname) "dir/dup".data
      (makesymlink_action "dir/orig".data) (sample_world [true])).2.1 (by decide)⟩

/-- C18: for every input string `simplifyPath` returns (with return value 0), its result
contains neither "/./" nor "//", a string that contains neither is returned unchanged, and
`simplifyPath` applied to its own result returns that result. -/
theorem simplifyPath_terminates_and_is_idempotent (path : List Char) :
    ∃ out, simplifyPath path = some (0, out) ∧
      ¬ has_substring out ['/', '.', '/'] ∧ ¬ has_substring out ['/', '/'] ∧
      (¬ has_substring path ['/', '.', '/'] → ¬ has_substring path ['/', '/'] →
        out = path) ∧
      simplifyPath out = some (0, out) := by
  obtain ⟨out, ho, hn1, hn2, _, _, hid⟩ := simplifyPath_spec path
  refine ⟨out, ho, hn1, hn2, hid, ?_⟩
  obtain ⟨out2, ho2, _, _, _, _, hid2⟩ := simplifyPath_spec out
  rw [ho2, hid2 hn1 hn2]

/-- Witness for C18: the path "/a/b" contains neither "/./" nor "//" and is returned
unchanged. -/
theorem simplifyPath_terminates_and_is_idempotent_witness :
    ¬ has_substring "/a/b".data ['/', '.', '/'] ∧ ¬ has_substring "/a/b".data ['/', '/'] ∧
    simplifyPath "/a/b".data = some (0, "/a/b".data) := by
  have h1 : ¬ has_substring "/a/b".data ['/', '.', '/'] :=
    (string_find_none_iff_not_has_substring _ _).mp (by decide)
  have h2 : ¬ has_substring "/a/b".data ['/', '/'] :=
    (string_find_none_iff_not_has_substring _ _).mp (by decide)
  obtain ⟨out, ho, _, _, hid, _⟩ := simplifyPath_terminates_and_is_idempotent "/a/b".data
  refine ⟨h1, h2, ?_⟩
  rw [ho, hid h1 h2]

/-- C19: for every input path `simplifyPath` returns a path whose sequence of '/'-separated
segments that are neither empty nor "." is the sequence of the input: no segment is resolved
against "..", and on "/a/./b/../c//d" the result is "/a/b/../c/d". -/
theorem simplifyPath_keeps_proper_segments (path : List Char) :
    (∃ out, simplifyPath path = some (0, out) ∧
      proper_segments out = proper_segments path) ∧
    simplifyPath "/a/./b/../c//d".data = some (0, "/a/b/../c/d".data) ∧
    proper_segments "/a/b/../c/d".data = ["a".data, "b".data, "..".data, "c".data, "d".data] := by
  obtain ⟨out, ho, _, _, hseg, _, _⟩ := simplifyPath_spec path
  exact ⟨⟨out, ho, hseg⟩, by decide, by decide⟩

set_option maxRecDepth 16384 in
/-- C20 (failing input): in a working directory whose path has 300 characters `getcwd` with
the buffer of 256 bytes fails, `makeAbsolute` returns -1 and leaves the relative name
"dir/orig" of the original as it is, and `makesymlink` hands that relative name to `symlink`:
the call returns 0 and the duplicate "dir/dup" is now a symbolic link to "dir/orig". -/
theorem makesymlink_relative_target_when_getcwd_fails :
    (sys_getcwd deep_world 256).1 = none ∧
    (makeAbsolute deep_world "dir/orig".data).1 = (-1, "dir/orig".data) ∧
    (makesymlink_target deep_world "dir/orig".data).1 = "dir/orig".data ∧
    (makesymlink_target deep_world "dir/orig".data).1.head? ≠ some '/' ∧
    (makesymlink (undoable_unlink sample_tmpname) deep_world "dir/dup".data
      "dir/orig".data).1 = 0 ∧
    (makesymlink (undoable_unlink sample_tmpname) deep_world "dir/dup".data
      "dir/orig".data).2.fs "dir/dup".data = some (Node.symlink "dir/orig".data) := by
  decide

end ClaimsTransaction

/-! ## Theorems: totals -/

section Totals

variable {cap : Nat}

theorem wrap64_of_range (x : Int) (h1 : -2 ^ 63 ≤ x) (h2 : x < 2 ^ 63) : wrap64 x = x := by
  unfold wrap64
  omega

theorem wrap64_add_left (a b : Int) : wrap64 (wrap64 a + b) = wrap64 (a + b) := by
  unfold wrap64
  omega

theorem wrap64_sub_wrap64 (a b : Int) : wrap64 (wrap64 a - wrap64 b) = wrap64 (a - b) := by
  unfold wrap64
  omega

theorem foldl_total_all (l : List (Fileinfo cap)) (a : Int) :
    l.foldl (fun totalsize elem => wrap64 (totalsize + elem.size)) (wrap64 a) =
      wrap64 (a + (l.map (fun f => f.size)).sum) := by
  induction l generalizing a with
  | nil => simp
  | cons x xs ih =>
      rw [List.foldl_cons, wrap64_add_left, ih]
      simp [add_assoc]

theorem foldl_total_first_occurrences (l : List (Fileinfo cap)) (a : Int) :
    l.foldl
        (fun totalsize elem =>
          if elem.getduptype = duptype.DUPTYPE_FIRST_OCCURRENCE then
            wrap64 (totalsize + elem.size)
          else totalsize) (wrap64 a) =
      wrap64 (a + ((l.filter
        (fun f => decide (f.getduptype = duptype.DUPTYPE_FIRST_OCCURRENCE))).map
          (fun f => f.size)).sum) := by
  induction l generalizing a with
  | nil => simp
  | cons x xs ih =>
      rw [List.foldl_cons]
      by_cases hx : x.getduptype = duptype.DUPTYPE_FIRST_OCCURRENCE
      · rw [if_pos hx, wrap64_add_left, ih]
        simp [hx, List.filter_cons, add_assoc]
      · rw [if_neg hx, ih]
        simp [hx, List.filter_cons]

theorem sum_sizes_split (p : Fileinfo cap → Bool) (l : List (Fileinfo cap)) :
    (l.map (fun f => f.size)).sum =
      ((l.filter p).map (fun f => f.size)).sum +
        ((l.filter (fun f => !p f)).map (fun f => f.size)).sum := by
  induction l with
  | nil => simp
  | cons x xs ih =>
      by_cases hx : p x = true
      · simp [List.filter_cons, hx, ih, add_assoc]
      · have hx2 : p x = false := by simpa using hx
        simp [List.filter_cons, hx2, ih]
        omega

theorem sum_sizes_nonneg (l : List (Fileinfo cap)) (h : ∀ f ∈ l, 0 ≤ f.size) :
    0 ≤ (l.map (fun f => f.size)).sum := by
  induction l with
  | nil => simp
  | cons x xs ih =>
      have hx := h x (List.mem_cons_self _ _)
      have hxs := ih (fun f hf => h f (List.mem_cons_of_mem _ hf))
      simp only [List.map_cons, List.sum_cons]
      omega

/-- The function `calcrange` returns for every value and `format_size` yields a text. -/
theorem format_size_isSome (n : Int) : (format_size n).isSome = true := by
  unfold format_size
  by_cases hn : 0 ≤ n
  · obtain ⟨m, rfl⟩ := Int.eq_ofNat_of_zero_le hn
    obtain ⟨r, hr, _⟩ := calcrange_nat m
    rw [hr]
    rfl
  · have hc : calcrange n = some (0, n) := by
      unfold calcrange
      rw [calcrange_loop_unfold]
      have : ¬ (n > 1024) := by omega
      simp [this]
      decide
    rw [hc]
    rfl

/-- The totals as sums reduced to the 64 bit range, for every collection. -/
theorem totalsizeinbytes_wrapped (have_apfs_cloning : Bool) (w : World)
    (m_list : List (Fileinfo cap)) :
    totalsizeinbytes have_apfs_cloning w m_list 0 =
      some (wrap64 (m_list.map (fun f => f.size)).sum) ∧
    totalsizeinbytes have_apfs_cloning w m_list 1 =
      some (wrap64 ((m_list.filter
        (fun f => decide (f.getduptype = duptype.DUPTYPE_FIRST_OCCURRENCE))).map
          (fun f => f.size)).sum) ∧
    saveablespace have_apfs_cloning w m_list =
      format_size (wrap64
        ((m_list.filter
          (fun f => !decide (f.getduptype = duptype.DUPTYPE_FIRST_OCCURRENCE))).map
            (fun f => f.size)).sum) := by
  have hz : (0 : Int) = wrap64 0 := by decide
  have h0 : totalsizeinbytes have_apfs_cloning w m_list 0 =
      some (wrap64 (m_list.map (fun f => f.size)).sum) := by
    have := foldl_total_all m_list 0
    rw [← hz, Int.zero_add] at this
    simp [totalsizeinbytes, total_all, this]
  have h1 : totalsizeinbytes have_apfs_cloning w m_list 1 =
      some (wrap64 ((m_list.filter
        (fun f => decide (f.getduptype = duptype.DUPTYPE_FIRST_OCCURRENCE))).map
          (fun f => f.size)).sum) := by
    have := foldl_total_first_occurrences m_list 0
    rw [← hz, Int.zero_add] at this
    simp [totalsizeinbytes, total_first_occurrences, this]
  refine ⟨h0, h1, ?_⟩
  have hsplit := sum_sizes_split
    (fun f : Fileinfo cap => decide (f.getduptype = duptype.DUPTYPE_FIRST_OCCURRENCE)) m_list
  unfold saveablespace
  rw [h0, h1]
  simp only []
  rw [wrap64_sub_wrap64, hsplit]
  congr 2
  omega

end Totals

section CleanupOrder

variable {cap : Nat}

/-- The size after `cleanup` is at most the size before, so the difference of the two
`std::size_t` values does not wrap around. -/
theorem cleanup_length_le (l : List (Fileinfo cap)) : (cleanup l).1.length ≤ l.length := by
  rw [cleanup_fst]
  exact List.length_filter_le _ _

theorem length_filter_add_countP {α : Type} (p : α → Bool) (l : List α) :
    (l.filter (fun a => !p a)).length + l.countP p = l.length := by
  induction l with
  | nil => simp
  | cons x xs ih =>
      by_cases hx : p x = true
      · simp [List.filter_cons, List.countP_cons, hx]
        omega
      · have hx2 : p x = false := by simpa using hx
        simp [List.filter_cons, List.countP_cons, hx2]
        omega

end CleanupOrder

/-! ## Claims: totals and `cleanup` -/

section ClaimsTotals

variable {cap : Nat}

/-- C22 (as stated, refuted): for the two files of 2^63 - 1 bytes and of 1 byte, none of kind
FIRST_OCCURRENCE, the sum of the sizes is 2^63, but `totalsizeinbytes(0)` is -2^63 (the
addition in the signed 64 bit type `filesizetype` wraps around), and the amount that
`saveablespace` writes is negative although no size is. -/
theorem totalsizeinbytes_wraps_at_64_bits :
    (∀ f ∈ [fileBig, fileOne], 0 ≤ f.size) ∧
    ([fileBig, fileOne].map (fun f => f.size)).sum = 9223372036854775808 ∧
    totalsizeinbytes false (sample_world []) [fileBig, fileOne] 0 =
      some (-9223372036854775808) ∧
    totalsizeinbytes false (sample_world []) [fileBig, fileOne] 1 = some 0 ∧
    saveablespace false (sample_world []) [fileBig, fileOne] =
      some "-9223372036854775808 B" := by
  decide

/-- C22 (amended): for every collection whose sizes are non-negative and add up to less than
2^63, `totalsizeinbytes(0)` is the sum of the sizes of all records, `totalsizeinbytes(1)` is
the sum of the sizes of the records of kind FIRST_OCCURRENCE, their difference is the sum of
the sizes of the records not of kind FIRST_OCCURRENCE, `saveablespace` writes that amount
(scaled by `calcrange`, with its unit), and the amount is non-negative. For every collection
at all, each of the three amounts is the respective sum reduced modulo 2^64 to the range of
the signed 64 bit type, and `saveablespace` returns. -/
theorem totalsizeinbytes_sums_below_64_bits (have_apfs_cloning : Bool) (w : World)
    (m_list : List (Fileinfo cap)) :
    (totalsizeinbytes have_apfs_cloning w m_list 0 =
      some (wrap64 (m_list.map (fun f => f.size)).sum) ∧
    totalsizeinbytes have_apfs_cloning w m_list 1 =
      some (wrap64 ((m_list.filter
        (fun f => decide (f.getduptype = duptype.DUPTYPE_FIRST_OCCURRENCE))).map
          (fun f => f.size)).sum) ∧
    saveablespace have_apfs_cloning w m_list =
      format_size (wrap64
        ((m_list.filter
          (fun f => !decide (f.getduptype = duptype.DUPTYPE_FIRST_OCCURRENCE))).map
            (fun f => f.size)).sum) ∧
    (saveablespace have_apfs_cloning w m_list).isSome = true) ∧
    ((∀ f ∈ m_list, 0 ≤ f.size) → (m_list.map (fun f => f.size)).sum < 2 ^ 63 →
      totalsizeinbytes have_apfs_cloning w m_list 0 =
        some (m_list.map (fun f => f.size)).sum ∧
      totalsizeinbytes have_apfs_cloning w m_list 1 =
        some ((m_list.filter
          (fun f => decide (f.getduptype = duptype.DUPTYPE_FIRST_OCCURRENCE))).map
            (fun f => f.size)).sum ∧
      (m_list.map (fun f => f.size)).sum -
          ((m_list.filter
            (fun f => decide (f.getduptype = duptype.DUPTYPE_FIRST_OCCURRENCE))).map
              (fun f => f.size)).sum =
        ((m_list.filter
          (fun f => !decide (f.getduptype = duptype.DUPTYPE_FIRST_OCCURRENCE))).map
            (fun f => f.size)).sum ∧
      saveablespace have_apfs_cloning w m_list =
        format_size
          ((m_list.filter
            (fun f => !decide (f.getduptype = duptype.DUPTYPE_FIRST_OCCURRENCE))).map
              (fun f => f.size)).sum ∧
      0 ≤ ((m_list.filter
        (fun f => !decide (f.getduptype = duptype.DUPTYPE_FIRST_OCCURRENCE))).map
          (fun f => f.size)).sum) := by
  obtain ⟨h0, h1, hsave⟩ := totalsizeinbytes_wrapped have_apfs_cloning w m_list
  refine ⟨⟨h0, h1, hsave, ?_⟩, ?_⟩
  · rw [hsave]
    exact format_size_isSome _
  · intro hpos hsum
    have hsplit := sum_sizes_split
      (fun f : Fileinfo cap => decide (f.getduptype = duptype.DUPTYPE_FIRST_OCCURRENCE)) m_list
    have hall := sum_sizes_nonneg m_list hpos
    have hfirst := sum_sizes_nonneg
      (m_list.filter (fun f => decide (f.getduptype = duptype.DUPTYPE_FIRST_OCCURRENCE)))
      (fun f hf => hpos f (List.mem_of_mem_filter hf))
    have hrest := sum_sizes_nonneg
      (m_list.filter (fun f => !decide (f.getduptype = duptype.DUPTYPE_FIRST_OCCURRENCE)))
      (fun f hf => hpos f (List.mem_of_mem_filter hf))
    refine ⟨?_, ?_, by omega, ?_, hrest⟩
    · rw [h0, wrap64_of_range _ (by omega) hsum]
    · rw [h1, wrap64_of_range _ (by omega) (by omega)]
    · rw [hsave, wrap64_of_range _ (by omega) (by omega)]

/-- Witness for C22 (amended): the three files A, B, C of 7 bytes after `markduplicates`: 21
bytes in all, 7 bytes of originals, "14 B" to save. -/
theorem totalsizeinbytes_sums_below_64_bits_witness :
    (∀ f ∈ marked_ABC, 0 ≤ f.size) ∧
    (marked_ABC.map (fun f => f.size)).sum < 2 ^ 63 ∧
    totalsizeinbytes false (sample_world []) marked_ABC 0 = some 21 ∧
    totalsizeinbytes false (sample_world []) marked_ABC 1 = some 7 ∧
    saveablespace false (sample_world []) marked_ABC = some "14 B" ∧
    0 ≤ ((marked_ABC.filter
      (fun f => !decide (f.getduptype = duptype.DUPTYPE_FIRST_OCCURRENCE))).map
        (fun f => f.size)).sum :=
  ⟨by decide, by decide, by decide, by decide, by decide,
    ((totalsizeinbytes_sums_below_64_bits false (sample_world []) marked_ABC).2
      (by decide) (by decide)).2.2.2.2⟩

/-- C23: for every collection `cleanup` removes exactly the records whose delete flag is set and
keeps the other records in their order (the result is the input filtered on a cleared flag, a
sublist of the input), and it returns the number of records removed: the length before minus
the length after, which is the number of records with the flag set. -/
theorem cleanup_removes_exactly_the_flagged (m_list : List (Fileinfo cap)) :
    (cleanup m_list).1 = m_list.filter (fun A => !A.deleteflag) ∧
    (cleanup m_list).1.Sublist m_list ∧
    (∀ f, f ∈ (cleanup m_list).1 ↔ f ∈ m_list ∧ f.deleteflag = false) ∧
    (cleanup m_list).1.length ≤ m_list.length ∧
    (cleanup m_list).2 = m_list.length - (cleanup m_list).1.length ∧
    (cleanup m_list).2 = m_list.countP (fun A => A.deleteflag) := by
  have hfst := cleanup_fst m_list
  refine ⟨hfst, ?_, ?_, cleanup_length_le m_list, cleanup_snd m_list, ?_⟩
  · rw [hfst]
    exact List.filter_sublist _
  · intro f
    rw [hfst, List.mem_filter]
    simp
  · rw [cleanup_snd, hfst]
    have := length_filter_add_countP (fun A : Fileinfo cap => A.deleteflag) m_list
    omega

end ClaimsTotals

/-! ## Claims: the order inside a range and `apply_on_range` -/

section ClaimsOrder

variable {cap : Nat}

end ClaimsOrder

/-! ## Theorems: the sub-ranges of `apply_on_range` -/

section SubRanges

variable {α : Type} {cmp : α → α → Bool}

theorem invoke_on_each_cons (callback : List α → Option (List α)) (g : List α)
    (gs : List (List α)) :
    invoke_on_each callback (g :: gs) =
      (callback g).bind
        (fun sub => (invoke_on_each callback gs).map (fun tail => sub ++ tail)) := by
  rw [invoke_on_each]
  cases callback g with
  | none => rfl
  | some sub =>
      cases invoke_on_each callback gs <;> rfl

theorem invoke_on_each_isSome (callback : List α → Option (List α))
    (hcb : ∀ g, (callback g).isSome = true) :
    ∀ gs : List (List α), (invoke_on_each callback gs).isSome = true := by
  intro gs
  induction gs with
  | nil => rfl
  | cons g gs ih =>
      rw [invoke_on_each_cons]
      obtain ⟨sub, hsub⟩ := Option.isSome_iff_exists.1 (hcb g)
      obtain ⟨tail, htail⟩ := Option.isSome_iff_exists.1 ih
      rw [hsub, htail]
      rfl

/-- The branch with `std::equal_range` invokes the callback on the sub-ranges in turn. -/
theorem apply_on_range_loop_eq_invoke (hirr : ∀ a, cmp a a = false)
    (callback : List α → Option (List α)) (fuel : Nat) :
    ∀ l : List α, l.length ≤ fuel →
      apply_on_range_loop cmp callback fuel l =
        invoke_on_each callback (sub_ranges cmp fuel l) := by
  induction fuel with
  | zero =>
      intro l hl
      have : l = [] := List.length_eq_zero.1 (Nat.le_zero.1 hl)
      subst this
      rfl
  | succ fuel ih =>
      intro l hl
      cases l with
      | nil => rfl
      | cons first rest =>
          have hp : (!cmp first first) = true := by simp [hirr first]
          have htake : (first :: rest).takeWhile (fun e => !cmp first e) =
              first :: rest.takeWhile (fun e => !cmp first e) := by
            simp [List.takeWhile_cons, hirr first]
          have hdrop : (first :: rest).dropWhile (fun e => !cmp first e) =
              rest.dropWhile (fun e => !cmp first e) := by
            simp [List.dropWhile_cons, hirr first]
          have hlen : (rest.dropWhile (fun e => !cmp first e)).length ≤ fuel := by
            have h1 : (rest.dropWhile (fun e => !cmp first e)).length ≤ rest.length :=
              (List.dropWhile_sublist _).length_le
            have h2 : rest.length + 1 ≤ fuel + 1 := by simpa using hl
            omega
          rw [apply_on_range_loop_step hirr, htake, hdrop, ih _ hlen, sub_ranges,
            invoke_on_each_cons]

/-- The branch with the linear scan invokes the callback on the sub-ranges in turn. -/
theorem apply_on_range_linear_loop_eq_invoke (callback : List α → Option (List α))
    (fuel : Nat) :
    ∀ l : List α, l.length ≤ fuel →
      apply_on_range_linear_loop cmp callback fuel l =
        invoke_on_each callback (sub_ranges cmp fuel l) := by
  induction fuel with
  | zero =>
      intro l hl
      have : l = [] := List.length_eq_zero.1 (Nat.le_zero.1 hl)
      subst this
      rfl
  | succ fuel ih =>
      intro l hl
      cases l with
      | nil => rfl
      | cons first rest =>
          have htake : (first :: rest).take
              ((rest.takeWhile (fun e => !cmp first e)).length + 1) =
              first :: rest.takeWhile (fun e => !cmp first e) := by
            rw [List.take_succ_cons, take_length_takeWhile]
          have hdrop : (first :: rest).drop
              ((rest.takeWhile (fun e => !cmp first e)).length + 1) =
              rest.dropWhile (fun e => !cmp first e) := by
            rw [List.drop_succ_cons, drop_length_takeWhile]
          have hlen : (rest.dropWhile (fun e => !cmp first e)).length ≤ fuel := by
            have h1 : (rest.dropWhile (fun e => !cmp first e)).length ≤ rest.length :=
              (List.dropWhile_sublist _).length_le
            have h2 : rest.length + 1 ≤ fuel + 1 := by simpa using hl
            omega
          rw [apply_on_range_linear_loop]
          rw [htake, hdrop, ih _ hlen, sub_ranges, invoke_on_each_cons]
          cases callback (first :: rest.takeWhile (fun e => !cmp first e)) with
          | none => rfl
          | some sub =>
              cases invoke_on_each callback
                (sub_ranges cmp fuel (rest.dropWhile (fun e => !cmp first e))) <;> rfl

/-- The sub-ranges of a sorted sequence cut it into runs of equivalent elements, each run
smaller than all runs behind it. -/
theorem sub_ranges_spec (h : StrictWeakOrder cmp) (fuel : Nat) :
    ∀ l : List α, l.length ≤ fuel → l.Pairwise (fun a b => cmp b a = false) →
      (sub_ranges cmp fuel l).flatten = l ∧
      (∀ g ∈ sub_ranges cmp fuel l, g ≠ [] ∧ ∀ a ∈ g, ∀ b ∈ g, cmp a b = false) ∧
      (sub_ranges cmp fuel l).Pairwise (fun g g2 => ∀ a ∈ g, ∀ b ∈ g2, cmp a b = true) := by
  induction fuel with
  | zero =>
      intro l hl _
      have : l = [] := List.length_eq_zero.1 (Nat.le_zero.1 hl)
      subst this
      simp [sub_ranges]
  | succ fuel ih =>
      intro l hl hs
      cases l with
      | nil => simp [sub_ranges]
      | cons first rest =>
          have htake : (first :: rest).takeWhile (fun e => !cmp first e) =
              first :: rest.takeWhile (fun e => !cmp first e) := by
            simp [List.takeWhile_cons, h.irrefl first]
          have hdrop : (first :: rest).dropWhile (fun e => !cmp first e) =
              rest.dropWhile (fun e => !cmp first e) := by
            simp [List.dropWhile_cons, h.irrefl first]
          obtain ⟨_, heq, hsep⟩ := sorted_head_range h first rest hs
          rw [htake] at heq hsep
          rw [hdrop] at hsep
          have hlen : (rest.dropWhile (fun e => !cmp first e)).length ≤ fuel := by
            have h1 : (rest.dropWhile (fun e => !cmp first e)).length ≤ rest.length :=
              (List.dropWhile_sublist _).length_le
            have h2 : rest.length + 1 ≤ fuel + 1 := by simpa using hl
            omega
          have hs2 : (rest.dropWhile (fun e => !cmp first e)).Pairwise
              (fun a b => cmp b a = false) :=
            ((List.pairwise_cons.1 hs).2).sublist (List.dropWhile_sublist _)
          obtain ⟨hj, hg, hp⟩ := ih _ hlen hs2
          rw [sub_ranges]
          refine ⟨?_, ?_, ?_⟩
          · rw [List.flatten_cons, hj, List.cons_append, List.takeWhile_append_dropWhile]
          · intro g hgm
            rcases List.mem_cons.1 hgm with rfl | hgm
            · exact ⟨List.cons_ne_nil _ _, heq⟩
            · exact hg g hgm
          · refine List.pairwise_cons.2 ⟨?_, hp⟩
            intro g2 hg2 a ha b hb
            refine hsep a ha b ?_
            rw [← hj]
            exact List.mem_flatten.2 ⟨g2, hg2, hb⟩

end SubRanges

/-! ## Claims: `apply_on_range` -/

section ClaimsRanges

variable {α : Type} {cmp : α → α → Bool}

/-- C25: for every sequence sorted under a strict weak order `cmp`, the sub-ranges (each the
longest run, from where the previous one ended, of elements that the first of the run is not
smaller than) are non-empty, partition the sequence in order, consist of equivalent elements,
and every element of a sub-range is smaller than every element of a later one (so no element
is equivalent to an element of the next sub-range); `apply_on_range` invokes the callback on
exactly these sub-ranges in turn, in the branch with `std::equal_range` and in the branch with
the linear scan alike, and it returns whenever the callback returns. -/
theorem apply_on_range_invokes_on_maximal_ranges (h : StrictWeakOrder cmp) (l : List α)
    (hs : is_sorted cmp l = true) :
    (sub_ranges cmp l.length l).flatten = l ∧
    (∀ g ∈ sub_ranges cmp l.length l, g ≠ [] ∧ ∀ a ∈ g, ∀ b ∈ g, cmp a b = false) ∧
    (sub_ranges cmp l.length l).Pairwise (fun g g2 => ∀ a ∈ g, ∀ b ∈ g2, cmp a b = true) ∧
    (∀ callback : List α → Option (List α),
      apply_on_range cmp callback l =
        invoke_on_each callback (sub_ranges cmp l.length l) ∧
      apply_on_range_linear cmp callback l =
        invoke_on_each callback (sub_ranges cmp l.length l)) ∧
    (∀ callback : List α → Option (List α), (∀ g, (callback g).isSome = true) →
      (apply_on_range cmp callback l).isSome = true ∧
      (apply_on_range_linear cmp callback l).isSome = true) := by
  obtain ⟨hj, hg, hp⟩ :=
    sub_ranges_spec h l.length l (le_refl _) ((is_sorted_iff_pairwise h l).1 hs)
  have heq : ∀ callback : List α → Option (List α),
      apply_on_range cmp callback l =
        invoke_on_each callback (sub_ranges cmp l.length l) ∧
      apply_on_range_linear cmp callback l =
        invoke_on_each callback (sub_ranges cmp l.length l) := by
    intro callback
    constructor
    · unfold apply_on_range
      rw [if_pos hs]
      exact apply_on_range_loop_eq_invoke h.irrefl callback l.length l (le_refl _)
    · unfold apply_on_range_linear
      rw [if_pos hs]
      exact apply_on_range_linear_loop_eq_invoke callback l.length l (le_refl _)
  refine ⟨hj, hg, hp, heq, ?_⟩
  intro callback hcb
  rw [(heq callback).1, (heq callback).2]
  exact ⟨invoke_on_each_isSome callback hcb _, invoke_on_each_isSome callback hcb _⟩

/-- Witness for C25: five files of sizes 0, 0, 10, 10, 20 under `cmpSize`: three sub-ranges. -/
theorem apply_on_range_invokes_on_maximal_ranges_witness :
    StrictWeakOrder (cmpSize : Fileinfo 2 → Fileinfo 2 → Bool) ∧
    is_sorted cmpSize [fileZ1, fileZ2, fileT1, fileT3, fileT2] = true ∧
    sub_ranges cmpSize [fileZ1, fileZ2, fileT1, fileT3, fileT2].length
        [fileZ1, fileZ2, fileT1, fileT3, fileT2] =
      [[fileZ1, fileZ2], [fileT1, fileT3], [fileT2]] ∧
    (∀ callback : List (Fileinfo 2) → Option (List (Fileinfo 2)),
      apply_on_range cmpSize callback [fileZ1, fileZ2, fileT1, fileT3, fileT2] =
        invoke_on_each callback
          (sub_ranges cmpSize [fileZ1, fileZ2, fileT1, fileT3, fileT2].length
            [fileZ1, fileZ2, fileT1, fileT3, fileT2]) ∧
      apply_on_range_linear cmpSize callback [fileZ1, fileZ2, fileT1, fileT3, fileT2] =
        invoke_on_each callback
          (sub_ranges cmpSize [fileZ1, fileZ2, fileT1, fileT3, fileT2].length
            [fileZ1, fileZ2, fileT1, fileT3, fileT2])) :=
  ⟨cmpSize_swo, by decide, by decide,
    (apply_on_range_invokes_on_maximal_ranges cmpSize_swo
      [fileZ1, fileZ2, fileT1, fileT3, fileT2] (by decide)).2.2.2.1⟩

end ClaimsRanges

/-! ## Theorems: the order of the survivors of `removeUniqSizeAndBuffer` -/

section SortedSurvivors

variable {cap : Nat}

theorem Ranges.map_eq {α β : Type} {cmp : α → α → Bool} (φ : α → β)
    {R : List α → List α → Prop} (hR : ∀ g g2, R g g2 → g2.map φ = g.map φ)
    {l out : List α} (h : Ranges cmp R l out) : out.map φ = l.map φ := by
  induction h with
  | nil => rfl
  | cons g r g2 r2 _ _ _ hg _ ih => rw [List.map_append, List.map_append, hR g g2 hg, ih]

/-- The callback `flag_if_single` changes nothing but delete flags. -/
theorem flag_if_single_unflag (g g2 : List (Fileinfo cap)) (h : flag_if_single g = some g2) :
    g2.map (fun f => f.setdeleteflag false) = g.map (fun f => f.setdeleteflag false) := by
  match g, h with
  | [], h =>
      simp only [flag_if_single, Option.some.injEq] at h
      subst h; rfl
  | [x], h =>
      simp only [flag_if_single, Option.some.injEq] at h
      subst h; rfl
  | x :: y :: t, h =>
      simp only [flag_if_single, Option.some.injEq] at h
      subst h
      simp [Fileinfo.setdeleteflag]

/-- The callback `flag_unique_buffers` leaves its range sorted on the buffer: apart from the
delete flags the result is the range as `std::sort` left it. -/
theorem flag_unique_buffers_unflag {sort : SortFn (Fileinfo cap)} (hsort : IsStdSort sort)
    (g g2 : List (Fileinfo cap)) (h : flag_unique_buffers sort g = some g2) :
    g2.map (fun f => f.setdeleteflag false) =
      (sort cmpBuffers g).map (fun f => f.setdeleteflag false) := by
  obtain ⟨g3, hg3, hr⟩ := apply_on_range_ranges cmpBuffers_swo flag_if_single
    (fun r r2 => flag_if_single r = some r2) (sort cmpBuffers g)
    (hsort.sorted cmpBuffers g cmpBuffers_swo)
    (fun r _ => by
      obtain ⟨r2, hr2⟩ := flag_if_single_total r
      exact ⟨r2, hr2, hr2⟩)
  unfold flag_unique_buffers at h
  rw [hg3] at h
  cases h
  exact Ranges.map_eq _ (fun r r2 hrr => flag_if_single_unflag r r2 hrr) hr

theorem flag_unique_buffers_sorted {sort : SortFn (Fileinfo cap)} (hsort : IsStdSort sort)
    (g g2 : List (Fileinfo cap)) (h : flag_unique_buffers sort g = some g2) :
    g2.Pairwise (fun a b => cmpBuffers b a = false) ∧ ∀ x ∈ g2, ∃ y ∈ g, x.size = y.size := by
  have hmap := flag_unique_buffers_unflag hsort g g2 h
  have hs : (sort cmpBuffers g).Pairwise (fun a b => cmpBuffers b a = false) :=
    (is_sorted_iff_pairwise cmpBuffers_swo _).1 (hsort.sorted cmpBuffers g cmpBuffers_swo)
  constructor
  · have h1 : ((sort cmpBuffers g).map (fun f => f.setdeleteflag false)).Pairwise
        (fun a b => cmpBuffers b a = false) := by
      rw [List.pairwise_map]
      exact hs
    rw [← hmap, List.pairwise_map] at h1
    exact h1
  · intro x hx
    have hx2 : x.setdeleteflag false ∈
        (sort cmpBuffers g).map (fun f => f.setdeleteflag false) := by
      rw [← hmap]
      exact List.mem_map.2 ⟨x, hx, rfl⟩
    obtain ⟨y, hy, hxy⟩ := List.mem_map.1 hx2
    refine ⟨y, (hsort.perm cmpBuffers g cmpBuffers_swo).subset hy, ?_⟩
    have := congrArg Fileinfo.size hxy
    exact this.symm

/-- Ranges of equal size, each sorted on the buffer, one behind the other in the order of the
sizes: the whole is sorted under `cmpSizeThenBuffer`. -/
theorem Ranges.sorted_size_then_buffer
    {R : List (Fileinfo cap) → List (Fileinfo cap) → Prop}
    (hR : ∀ g g2, R g g2 →
      g2.Pairwise (fun a b => cmpBuffers b a = false) ∧ ∀ x ∈ g2, ∃ y ∈ g, x.size = y.size)
    {l out : List (Fileinfo cap)} (h : Ranges cmpSize R l out) :
    out.Pairwise (fun a b => cmpSizeThenBuffer b a = false) ∧
      ∀ x ∈ out, ∃ y ∈ l, x.size = y.size := by
  induction h with
  | nil => simp
  | cons g r g2 r2 _ heq hsep hg _ ih =>
      obtain ⟨hpw, hsz⟩ := hR g g2 hg
      obtain ⟨ihpw, ihsz⟩ := ih
      constructor
      · refine List.pairwise_append.2 ⟨?_, ihpw, ?_⟩
        · refine hpw.imp_of_mem ?_
          intro a b ha hb hab
          obtain ⟨ya, hya, ea⟩ := hsz a ha
          obtain ⟨yb, hyb, eb⟩ := hsz b hb
          have e := cmpSize_incomp ya yb (heq ya hya yb hyb) (heq yb hyb ya hya)
          rw [cmpSizeThenBuffer_false_iff]
          exact ⟨by omega, fun _ => hab⟩
        · intro a ha b hb
          obtain ⟨ya, hya, ea⟩ := hsz a ha
          obtain ⟨yb, hyb, eb⟩ := ihsz b hb
          have hlt : ya.size < yb.size := by
            have := hsep ya hya yb hyb
            simpa [cmpSize] using this
          rw [cmpSizeThenBuffer_false_iff]
          exact ⟨by omega, fun hcon => by omega⟩
      · intro x hx
        rcases List.mem_append.1 hx with hx | hx
        · obtain ⟨y, hy, e⟩ := hsz x hx
          exact ⟨y, List.mem_append_left _ hy, e⟩
        · obtain ⟨y, hy, e⟩ := ihsz x hx
          exact ⟨y, List.mem_append_right _ hy, e⟩

/-- The list that `removeUniqSizeAndBuffer` returns is sorted under `cmpSizeThenBuffer`. -/
theorem removeUniqSizeAndBuffer_sorted {sort : SortFn (Fileinfo cap)} (hsort : IsStdSort sort)
    (l out : List (Fileinfo cap)) (n : Nat)
    (h : removeUniqSizeAndBuffer sort l = some (out, n)) :
    is_sorted cmpSizeThenBuffer out = true := by
  obtain ⟨marked, hm, hr⟩ := apply_on_range_ranges cmpSize_swo (flag_unique_buffers sort)
    (fun g g2 => flag_unique_buffers sort g = some g2) (sort cmpSize l)
    (hsort.sorted cmpSize l cmpSize_swo)
    (fun g hg => by
      obtain ⟨g2, hg2, _⟩ := flag_unique_buffers_spec hsort g hg.2.1
      exact ⟨g2, hg2, hg2⟩)
  unfold removeUniqSizeAndBuffer at h
  rw [hm] at h
  have hout : out = (cleanup marked).1 := by
    cases h
    rfl
  obtain ⟨hpw, _⟩ := Ranges.sorted_size_then_buffer
    (fun g g2 hg => flag_unique_buffers_sorted hsort g g2 hg) hr
  rw [is_sorted_iff_pairwise cmpSizeThenBuffer_swo, hout, cleanup_fst]
  exact hpw.sublist (List.filter_sublist _)

/-- Every survivor of `removeUniqSizeAndBuffer` has a partner among the survivors. -/
theorem survivors_have_partner (l out : List (Fileinfo cap))
    (hperm : out.Perm
      ((l.filter (has_partner same_size_and_buffer l)).map (fun f => f.setdeleteflag false))) :
    ∀ f ∈ out, has_partner same_size_and_buffer out f = true := by
  intro o ho
  obtain ⟨f, hf, rfl⟩ := List.mem_map.1 (hperm.subset ho)
  obtain ⟨_, hsel⟩ := List.mem_filter.1 hf
  unfold has_partner
  rw [hperm.countP_eq, List.countP_map, List.countP_filter]
  have hcongr : l.countP (fun a => ((fun g : Fileinfo cap =>
        same_size_and_buffer g (f.setdeleteflag false)) ∘
        fun f => f.setdeleteflag false) a && has_partner same_size_and_buffer l a) =
      l.countP (fun g => same_size_and_buffer g f) := by
    apply List.countP_congr
    intro x _
    by_cases hx : same_size_and_buffer x f = true
    · have hxf := (same_size_and_buffer_iff x f).1 hx
      have e : has_partner same_size_and_buffer l x = has_partner same_size_and_buffer l f := by
        unfold has_partner
        congr 2
        apply List.countP_congr
        intro y _
        rw [same_size_and_buffer_congr y y x f rfl rfl hxf.1 hxf.2]
      have e2 : same_size_and_buffer (x.setdeleteflag false) (f.setdeleteflag false) = true := hx
      simp [e2, e, hsel, hx]
    · have hx2 : same_size_and_buffer x f = false := by simpa using hx
      have e2 : same_size_and_buffer (x.setdeleteflag false) (f.setdeleteflag false) = false :=
        hx2
      simp [e2, hx2]
  rw [hcongr]
  exact hsel

/-- In a list in which every record has a partner, every range that `apply_on_range` finds under
`cmpSizeThenBuffer` has at least two members. -/
theorem range_length_of_partner (out g : List (Fileinfo cap))
    (h2 : ∀ f ∈ out, has_partner same_size_and_buffer out f = true)
    (hg : IsRange cmpSizeThenBuffer out g) : 2 ≤ g.length := by
  obtain ⟨hne, heq, pre, post, hout, hpre, hpost⟩ := hg
  obtain ⟨f, hf⟩ := List.exists_mem_of_ne_nil g hne
  have hfout : f ∈ out := by
    rw [hout]
    exact List.mem_append_left _ (List.mem_append_right _ hf)
  have hsep1 : ∀ a ∈ pre, ∀ b ∈ g ++ post, cmpSizeThenBuffer a b = true := by
    intro a ha b hb
    rcases List.mem_append.1 hb with hb | hb
    · exact hpre a ha b hb
    · exact cmpSizeThenBuffer_swo.trans a f b (hpre a ha f hf) (hpost f hf b hb)
  have e1 := (has_partner_local same_size_and_buffer cmpSizeThenBuffer_true_same pre
    (g ++ post) hsep1).2 f (List.mem_append_left _ hf)
  have e2 := (has_partner_local same_size_and_buffer cmpSizeThenBuffer_true_same g post
    hpost).1 f hf
  have e3 := has_partner_of_all same_size_and_buffer g
    (fun a ha b hb => (same_size_and_buffer_iff a b).2
      (cmpSizeThenBuffer_incomp a b (heq a ha b hb) (heq b hb a ha))) f hf
  have := h2 f hfout
  rw [hout, List.append_assoc, e1, e2, e3] at this
  exact of_decide_eq_true this

end SortedSurvivors

/-! ## Claims: from `removeUniqSizeAndBuffer` to `markduplicates` -/

section ClaimsHandover

variable {cap : Nat}

/-- C26: for every input collection `removeUniqSizeAndBuffer` returns, the collection it leaves
is sorted under `cmpSizeThenBuffer`, every range of records of equal size and equal buffer in
it has at least two members (every record has a partner of equal size and buffer), and so
`markduplicates`, which does not sort, returns when called on it: neither its `is_sorted`
assertion nor the assertions of its callback fail. -/
theorem removeUniqSizeAndBuffer_output_passes_markduplicates (sort : SortFn (Fileinfo cap))
    (hsort : IsStdSort sort) (l : List (Fileinfo cap)) :
    ∃ out, removeUniqSizeAndBuffer sort l = some (out, l.length - out.length) ∧
      is_sorted cmpSizeThenBuffer out = true ∧
      (∀ g, IsRange cmpSizeThenBuffer out g → 2 ≤ g.length) ∧
      (∀ f ∈ out, has_partner same_size_and_buffer out f = true) ∧
      ∃ marked, markduplicates out = some marked := by
  obtain ⟨out, hout, hperm⟩ := removeUniqSizeAndBuffer_survivors hsort l
  have hs := removeUniqSizeAndBuffer_sorted hsort l out _ hout
  have hp := survivors_have_partner l out hperm
  obtain ⟨marked, hmarked, _⟩ := markduplicates_groups out hs hp
  exact ⟨out, hout, hs, fun g hg => range_length_of_partner out g hp hg, hp, marked, hmarked⟩

/-- Witness for C26: the three identical files A, B, C mixed with files of other sizes and
buffers, in an order that is not sorted. -/
theorem removeUniqSizeAndBuffer_output_passes_markduplicates_witness :
    IsStdSort (insertion_sort : SortFn (Fileinfo 2)) ∧
    is_sorted cmpSizeThenBuffer [fileT1, fileC, fileT2, fileB, fileT3, fileA] = false ∧
    removeUniqSizeAndBuffer insertion_sort [fileT1, fileC, fileT2, fileB, fileT3, fileA] =
      some ([fileC, fileB, fileA], 3) ∧
    ∃ out, removeUniqSizeAndBuffer insertion_sort
        [fileT1, fileC, fileT2, fileB, fileT3, fileA] =
        some (out, [fileT1, fileC, fileT2, fileB, fileT3, fileA].length - out.length) ∧
      is_sorted cmpSizeThenBuffer out = true ∧
      (∀ g, IsRange cmpSizeThenBuffer out g → 2 ≤ g.length) ∧
      (∀ f ∈ out, has_partner same_size_and_buffer out f = true) ∧
      ∃ marked, markduplicates out = some marked :=
  ⟨insertion_sort_isStdSort, by decide, by decide,
    removeUniqSizeAndBuffer_output_passes_markduplicates insertion_sort
      insertion_sort_isStdSort [fileT1, fileC, fileT2, fileB, fileT3, fileA]⟩

end ClaimsHandover

/-! ## Theorems: filling the sample buffer -/

section Fill

variable {cap : Nat}

/-- A fill that has to read a file that cannot be opened returns -1 and leaves the buffer
zero-filled. -/
theorem fillwithbytes_of_unreadable (f : Fileinfo cap) (disk : String → Option (List Nat))
    (chk : ChecksumOps cap) (filltype lasttype : readtobuffermode)
    (hread : lasttype = readtobuffermode.NOT_DEFINED ∨ (cap : Int) < f.size)
    (hfail : disk f.name = none) :
    f.fillwithbytes disk chk filltype lasttype =
      (-1, { f with somebytes := zero_buffer }, [FillDiag.could_not_open_file f.name]) := by
  unfold Fileinfo.fillwithbytes
  have hc : ¬ (lasttype ≠ readtobuffermode.NOT_DEFINED ∧ f.size ≤ (cap : Int)) := by
    rintro ⟨h1, h2⟩
    rcases hread with h | h
    · exact h1 h
    · omega
  rw [if_neg hc]
  simp only [hfail]

/-- The list after `Rdutil::fillwithbytes`: the list sorted on device and inode, every record
filled. -/
theorem fillwithbytes_list (sort : SortFn (Fileinfo cap)) (disk : String → Option (List Nat))
    (chk : ChecksumOps cap) (type lasttype : readtobuffermode) (m_list : List (Fileinfo cap)) :
    (fillwithbytes sort disk chk type lasttype m_list).1 = 0 ∧
    (fillwithbytes sort disk chk type lasttype m_list).2.1 =
      (sort cmpDeviceInode m_list).map
        (fun elem => (elem.fillwithbytes disk chk type lasttype).2.1) := by
  unfold fillwithbytes sortOnDeviceAndInode
  simp [List.map_map, Function.comp_def]

end Fill

/-! ## Claims: failed sample fills -/

section ClaimsFill

variable {cap : Nat}

/-- C21 (failing input): the files "u1" and "u2" of 10 bytes cannot be opened. The fill of each
returns -1 and reports the file, `Rdutil::fillwithbytes` drops the return values and returns 0,
both buffers are zero-filled, `removeUniqSizeAndBuffer` keeps both records as a pair of equal
size and buffer, and `markduplicates` marks "u2" as a duplicate of "u1". When the two files can
be read and differ in their first bytes, the same pass removes both. -/
theorem failed_fills_survive_on_zero_buffers :
    fileU1.fillwithbytes disk_unreadable sample_checksum readtobuffermode.READ_FIRST_BYTES
        readtobuffermode.NOT_DEFINED =
      (-1, { fileU1 with somebytes := zero_buffer }, [FillDiag.could_not_open_file "u1"]) ∧
    fileU2.fillwithbytes disk_unreadable sample_checksum readtobuffermode.READ_FIRST_BYTES
        readtobuffermode.NOT_DEFINED =
      (-1, { fileU2 with somebytes := zero_buffer }, [FillDiag.could_not_open_file "u2"]) ∧
    (fillwithbytes insertion_sort disk_unreadable sample_checksum
      readtobuffermode.READ_FIRST_BYTES readtobuffermode.NOT_DEFINED [fileU1, fileU2]).1 = 0 ∧
    removeUniqSizeAndBuffer insertion_sort
        (fillwithbytes insertion_sort disk_unreadable sample_checksum
          readtobuffermode.READ_FIRST_BYTES readtobuffermode.NOT_DEFINED
          [fileU1, fileU2]).2.1 =
      some ([{ fileU1 with somebytes := zero_buffer }, { fileU2 with somebytes := zero_buffer }],
        0) ∧
    markduplicates
        [{ fileU1 with somebytes := zero_buffer }, { fileU2 with somebytes := zero_buffer }] =
      some [({ fileU1 with somebytes := zero_buffer } : Fileinfo 2).setduptype
          duptype.DUPTYPE_FIRST_OCCURRENCE,
        (({ fileU2 with somebytes := zero_buffer } : Fileinfo 2).setidentity
          (-fileU1.getidentity)).setduptype duptype.DUPTYPE_WITHIN_SAME_TREE] ∧
    removeUniqSizeAndBuffer insertion_sort
        (fillwithbytes insertion_sort disk_readable sample_checksum
          readtobuffermode.READ_FIRST_BYTES readtobuffermode.NOT_DEFINED
          [fileU1, fileU2]).2.1 =
      some ([], 2) := by
  decide

end ClaimsFill

end Rdfind
